import Mathlib

/-!
The package `creader`: a chunked reader over a random-access source.

A shallow embedding of `reader.go` (package `creader`).

Conventions of the embedding.

* Go's `int64` is modelled by `Int` with an explicit two's-complement wrap
  (`wrap64`) after every arithmetic operation.  Go's `int` is taken to be 64 bits
  wide (amd64, arm64), so `int(x)` and `int64(n)` are the identity on values that
  are already in range.
* A run-time panic (nil dereference, division by zero, index out of range,
  `make` with a length that is negative or beyond the allocator limit
  `maxAlloc`) is the `Fault.panic` outcome.  A machine that runs out of memory
  below that limit (a fatal error of the process, not a panic) is not modelled.
* Loops that depend on an external reader (`io.Copy`, `bytes.Buffer.ReadFrom`)
  take a fuel argument; running out of it is `Fault.outOfFuel`.
* Pointers are replaced by state passing: an operation that mutates a chunk
  returns the chunk it leaves behind.
-/

namespace Creader

/-! ## Machine integers -/

/-- The largest `int64`. -/
def maxInt64 : Int := 2 ^ 63 - 1

/-- The smallest `int64`. -/
def minInt64 : Int := -(2 ^ 63)

/-- Two's-complement reduction of an integer to the `int64` range. -/
def wrap64 (x : Int) : Int := (x + 2 ^ 63) % 2 ^ 64 - 2 ^ 63

/-- Go `a + b` on `int64`. -/
def add64 (a b : Int) : Int := wrap64 (a + b)

/-- Go `a - b` on `int64`. -/
def sub64 (a b : Int) : Int := wrap64 (a - b)

/-- Go `a * b` on `int64`. -/
def mul64 (a b : Int) : Int := wrap64 (a * b)

/-- Outcomes other than a normal return. -/
inductive Fault where
  | panic (why : String)
  | outOfFuel
  deriving DecidableEq, Repr

/-- Go `a / b` on `int64`: truncated division, a run-time panic when `b = 0`. -/
def div64 (a b : Int) : Except Fault Int :=
  if b = 0 then .error (.panic "integer divide by zero") else .ok (wrap64 (Int.tdiv a b))

/-- Go `a % b` on `int64`: remainder of truncated division, panic when `b = 0`. -/
def rem64 (a b : Int) : Except Fault Int :=
  if b = 0 then .error (.panic "integer divide by zero") else .ok (wrap64 (Int.tmod a b))

/-! ## Errors, bytes and the external source -/

/-- Go `error` values that occur in the package and its collaborators. -/
inductive Error where
  | EOF
  | errorf (format : String) (arg : Int)
  | other (tag : String)
  deriving DecidableEq, Repr

/-- A byte. -/
abbrev Byte := UInt8

/-- The external `io.ReaderAt`: `ReadAt n off` is the call `ReadAt(p, off)` with
`len(p) = n`; it yields the bytes stored into `p` and the error result. -/
structure ReaderAt where
  ReadAt : Nat → Int → List Byte × Option Error

/-- The `ReadAt` of `bytes.Reader` over the byte sequence `B`. -/
def bytesReader (B : List Byte) : ReaderAt where
  ReadAt := fun n off =>
    if off < 0 then ([], some (.other "bytes.Reader.ReadAt: negative offset"))
    else if off ≥ (B.length : Int) then ([], some .EOF)
    else
      let bs := (B.drop off.toNat).take n
      (bs, if bs.length < n then some .EOF else none)

/-! ## `io.SectionReader` (Go standard library) -/

/-- Go `io.SectionReader`. -/
structure SectionReader where
  r : ReaderAt
  base : Int
  off : Int
  limit : Int
  n : Int

/-- Go `io.NewSectionReader(r, off, n)`. -/
def NewSectionReader (r : ReaderAt) (off n : Int) : SectionReader :=
  let remaining := if off ≤ sub64 maxInt64 n then add64 n off else maxInt64
  { r := r, base := off, off := off, limit := remaining, n := n }

/-- Go `(*SectionReader).Size`. -/
def SectionReader.Size (s : SectionReader) : Int := sub64 s.limit s.base

/-- Go `(*SectionReader).Read(p)` with `len(p) = plen`: the section reader left
behind, the bytes stored into `p`, and the error result. -/
def SectionReader.Read (s : SectionReader) (plen : Nat) :
    Except Fault (SectionReader × List Byte × Option Error) :=
  if s.off ≥ s.limit then .ok (s, [], some .EOF)
  else
    let max := sub64 s.limit s.off
    if (plen : Int) > max then
      if max < 0 then .error (.panic "slice bounds out of range")
      else
        let res := s.r.ReadAt max.toNat s.off
        .ok ({ s with off := add64 s.off res.1.length }, res.1, res.2)
    else
      let res := s.r.ReadAt plen s.off
      .ok ({ s with off := add64 s.off res.1.length }, res.1, res.2)

/-- Go `(*SectionReader).Seek(offset, whence)`: the reader left behind, the new
position relative to the section start, and the error result. -/
def SectionReader.Seek (s : SectionReader) (offset : Int) (whence : Int) :
    SectionReader × Int × Option Error :=
  if whence ≠ 0 ∧ whence ≠ 1 ∧ whence ≠ 2 then (s, 0, some (.other "Seek: invalid whence"))
  else
    let offset :=
      if whence = 0 then add64 offset s.base
      else if whence = 1 then add64 offset s.off
      else add64 offset s.limit
    if offset < s.base then (s, 0, some (.other "Seek: invalid offset"))
    else ({ s with off := offset }, sub64 offset s.base, none)

/-! ## `reader.go`: chunks and the concurrent reader -/

/-- The struct `Chunk`; `sr` is the pointer field, `none` when nil. -/
structure Chunk where
  offset : Int
  size : Int
  sr : Option SectionReader
  index : Int

/-- The struct `ConcurrentReader`. -/
structure ConcurrentReader where
  r : ReaderAt
  cs : Int
  Chunks : List Chunk

/-- The type `ConcurrentReaderOpt`: a function that may mutate the reader and
returns an error or nil. -/
abbrev ConcurrentReaderOpt := ConcurrentReader → ConcurrentReader × Option Error

/-- The option `WithChunkSize(n)`. -/
def WithChunkSize (n : Int) : ConcurrentReaderOpt := fun r =>
  if n < 1 then (r, some (.errorf "chunk sizes below 1 not allowed, given: %d" n))
  else ({ r with cs := wrap64 n }, none)

/-- The loop `for _, opt := range opts` of `NewConcurrentReader`: the reader
after the options that ran, and the first error met. -/
def applyOpts : List ConcurrentReaderOpt → ConcurrentReader → ConcurrentReader × Option Error
  | [], cr => (cr, none)
  | opt :: rest, cr =>
    match opt cr with
    | (cr1, none) => applyOpts rest cr1
    | (cr1, some err) => (cr1, some err)

/-- Go `make([]Chunk, nchunks)` followed by the filling loop
`for i := 0; i < nchunks; i++` of `NewConcurrentReader`. -/
def fillChunks (nchunks : Nat) (cs : Int) : List Chunk :=
  (List.range nchunks).map fun (i : Nat) =>
    { offset := mul64 (i : Int) cs, size := cs, sr := none, index := (i : Int) }

/-- The assignment `chunks[len(chunks)-1].size = rem`. -/
def setLastSize (chunks : List Chunk) (rem : Int) : Except Fault (List Chunk) :=
  match chunks.getLast? with
  | none => .error (.panic "index out of range [-1]")
  | some c => .ok (chunks.dropLast ++ [{ c with size := rem }])

/-- The two results of `NewConcurrentReader`: the reader pointer (nil is `none`)
and the error (nil is `none`). -/
abbrev NewResult := Option ConcurrentReader × Option Error

/-- Lines 88-91 of `NewConcurrentReader`: the reader before any option runs,
with the default chunk size `int64(4 * 1 << 20)`. -/
def initialReader (inp : ReaderAt) : ConcurrentReader :=
  { r := inp, cs := wrap64 ((4 * 1) <<< 20), Chunks := [] }

/-- The size in bytes of a `Chunk` value on a 64-bit platform: two `int64`, a
pointer and an `int`. -/
def sizeofChunk : Int := 32

/-- The constant `maxAlloc` of the Go runtime on 64-bit platforms with 48 heap
address bits (amd64, arm64): the largest allocation that `makeslice` accepts. -/
def maxAlloc : Int := 2 ^ 48

/-- Lines 98-114 of `NewConcurrentReader`: the chunk count, the filling loop, the
remainder patch and the return.  `make([]Chunk, nchunks)` panics in
`runtime.makeslice` when the length is negative or the slice would take more
than `maxAlloc` bytes. -/
def buildChunks (cr : ConcurrentReader) (size : Int) : Except Fault NewResult := do
  let cs := cr.cs
  let nchunks ← div64 (sub64 (add64 size cs) 1) cs
  if nchunks < 0 ∨ nchunks * sizeofChunk > maxAlloc then
    .error (.panic "makeslice: len out of range")
  else
    let chunks := fillChunks nchunks.toNat cs
    let rem ← rem64 size cs
    let chunks ← if rem ≠ 0 then setLastSize chunks rem else pure chunks
    pure (some { cr with Chunks := chunks }, none)

/-- The function `NewConcurrentReader(in, size, opts...)`. -/
def NewConcurrentReader (inp : ReaderAt) (size : Int) (opts : List ConcurrentReaderOpt) :
    Except Fault NewResult :=
  if size < 0 then .ok (none, some (.errorf "size should not be negative: %d" size))
  else
    match applyOpts opts (initialReader inp) with
    | (_, some err) => .ok (none, some err)
    | (cr, none) => buildChunks cr size

/-- The method `Chop`: binds a section reader to every chunk and returns the
chunk list (shared with the reader, which is returned as left behind). -/
def ConcurrentReader.Chop (c : ConcurrentReader) : ConcurrentReader × List Chunk :=
  let chunks := c.Chunks.map fun chunk =>
    { chunk with sr := some (NewSectionReader c.r chunk.offset chunk.size) }
  ({ c with Chunks := chunks }, chunks)

/-- The method `ReadAt` of `ConcurrentReader`. -/
def ConcurrentReader.ReadAt (c : ConcurrentReader) (plen : Nat) (off : Int) :
    List Byte × Option Error :=
  c.r.ReadAt plen off

/-- Projection used in statements: offset, size and index of each chunk. -/
def descr (cs : List Chunk) : List (Int × Int × Int) :=
  cs.map fun c => (c.offset, c.size, c.index)

/-! ## `reader.go`: the methods of `Chunk` -/

/-- The method `Chunk.Read(p)` with `len(p) = plen`: the chunk left behind, the
bytes stored into `p`, and the error result. -/
def Chunk.Read (c : Chunk) (plen : Nat) : Except Fault (Chunk × List Byte × Option Error) :=
  match c.sr with
  | none => .error (.panic "nil pointer dereference")
  | some s =>
    match s.Read plen with
    | .error f => .error f
    | .ok (s1, bs, err) => .ok ({ c with sr := some s1 }, bs, err)

/-- The method `Chunk.Size`. -/
def Chunk.Size (c : Chunk) : Except Fault Int :=
  match c.sr with
  | none => .error (.panic "nil pointer dereference")
  | some s => .ok s.Size

/-- The method `Chunk.Index`. -/
def Chunk.Index (c : Chunk) : Int := c.index

/-- The method `Chunk.Offset`. -/
def Chunk.Offset (c : Chunk) : Int := c.offset

/-- An implementation of Go `hash.Hash`: its state, the state of a new
accumulator, and the methods `Reset`, `Write` (which never fails and consumes all
of its argument) and `Sum(b)` (which appends the digest to `b`). -/
structure HashAlg where
  State : Type
  New : State
  Reset : State → State
  Write : State → List Byte → State
  Sum : State → List Byte → List Byte

/-- Go `io.Copy(dst, src)` for a section reader `src` and a destination that is
only an `io.Writer` whose `Write` never fails (a `hash.Hash`): the loop of
`io.copyBuffer` with its 32 KiB buffer.  Yields the destination and the reader
left behind, the number of bytes written, and the error result. -/
def ioCopy {σ : Type} (write : σ → List Byte → σ) :
    Nat → σ → SectionReader → Int → Except Fault (σ × SectionReader × Int × Option Error)
  | 0, _, _, _ => .error .outOfFuel
  | fuel + 1, dst, src, written =>
    match src.Read (32 * 1024) with
    | .error f => .error f
    | .ok (src1, bs, er) =>
      let dst1 := if bs.length > 0 then write dst bs else dst
      let written1 := if bs.length > 0 then add64 written bs.length else written
      match er with
      | some e => .ok (dst1, src1, written1, if e = Error.EOF then none else some e)
      | none => ioCopy write fuel dst1 src1 written1

/-- The method `Chunk.Hash(h)`, for an accumulator of algorithm `H` in state `h`:
the chunk and the accumulator left behind, and the digest returned. -/
def Chunk.Hash (c : Chunk) (H : HashAlg) (h : H.State) (fuel : Nat) :
    Except Fault (Chunk × H.State × List Byte) :=
  let h1 := H.Reset h
  match c.sr with
  | none => .error (.panic "nil pointer dereference")
  | some s =>
    match ioCopy H.Write fuel h1 s 0 with
    | .error f => .error f
    | .ok (h2, s1, _, _) =>
      let s2 := (s1.Seek 0 0).1
      .ok ({ c with sr := some s2 }, h2, H.Sum h2 [])

/-- Go `(*bytes.Buffer).ReadFrom(r)` for a section reader `r`, which `io.Copy`
calls when the destination is a `bytes.Buffer`.  `room len` is the free capacity
that `grow(MinRead)` leaves for a buffer holding `len` bytes (at least
`MinRead = 512`; its exact value depends on the allocator and is a parameter).
Yields the buffer contents, the reader left behind and the error result. -/
def bufferReadFrom (room : Nat → Nat) :
    Nat → List Byte → SectionReader → Except Fault (List Byte × SectionReader × Option Error)
  | 0, _, _ => .error .outOfFuel
  | fuel + 1, buf, r =>
    match r.Read (room buf.length) with
    | .error f => .error f
    | .ok (r1, bs, e) =>
      let buf1 := buf ++ bs
      match e with
      | some err => .ok (buf1, r1, if err = Error.EOF then none else some err)
      | none => bufferReadFrom room fuel buf1 r1

/-- The method `Chunk.Data()`: the chunk left behind and the bytes returned. -/
def Chunk.Data (c : Chunk) (room : Nat → Nat) (fuel : Nat) : Except Fault (Chunk × List Byte) :=
  match c.sr with
  | none => .error (.panic "nil pointer dereference")
  | some s =>
    match bufferReadFrom room fuel [] s with
    | .error f => .error f
    | .ok (buf, s1, _) =>
      let s2 := (s1.Seek 0 0).1
      .ok ({ c with sr := some s2 }, buf)

/-- Reading a chunk to the end of its range, as `io.Copy(ioutil.Discard, &ch)`
does in `TestConcurrentReader_Chop`: `Chunk.Read` is called with a buffer of
`plen` bytes until it returns an error, and end-of-file counts as success.
Yields the chunk left behind, the bytes read in order (appended to `acc`), their
count `n` and the error result. -/
def readToEnd (plen : Nat) :
    Nat → Chunk → List Byte → Int → Except Fault (Chunk × List Byte × Int × Option Error)
  | 0, _, _, _ => .error .outOfFuel
  | fuel + 1, c, acc, n =>
    match c.Read plen with
    | .error f => .error f
    | .ok (c1, bs, err) =>
      let acc1 := acc ++ bs
      let n1 := add64 n bs.length
      match err with
      | some e => .ok (c1, acc1, n1, if e = Error.EOF then none else some e)
      | none => readToEnd plen fuel c1 acc1 n1

/-- The consumer of `TestConcurrentReader_Chop`: every chunk of the list is read
to the end in list order, `n += m` after each one, an error is reported and the
loop goes on.  Yields the bytes of all chunks concatenated (appended to `acc`),
the total count and the errors reported. -/
def readAllChunks (plen fuel : Nat) :
    List Chunk → List Byte → Int → List Error → Except Fault (List Byte × Int × List Error)
  | [], acc, n, errs => .ok (acc, n, errs)
  | c :: rest, acc, n, errs =>
    match readToEnd plen fuel c [] 0 with
    | .error f => .error f
    | .ok (_, bs, m, err) =>
      readAllChunks plen fuel rest (acc ++ bs) (add64 n m) (errs ++ err.toList)

/-- The 32-bit FNV-1a hash of Go `hash/fnv` (`New32a`), an executable
`hash.Hash`. -/
def fnv32a : HashAlg where
  State := Nat
  New := 2166136261
  Reset := fun _ => 2166136261
  Write := fun s bs => bs.foldl (fun h b => ((h ^^^ b.toNat) * 16777619) % 2 ^ 32) s
  Sum := fun s b =>
    b ++ [UInt8.ofNat (s / 2 ^ 24), UInt8.ofNat (s / 2 ^ 16), UInt8.ofNat (s / 2 ^ 8),
      UInt8.ofNat s]

/-- The 64 bytes `0, 1, ..., 63`. -/
def sample64 : List Byte := (List.range 64).map UInt8.ofNat

/-- The chunk of `TestChunk_Hash`: 64 bytes at offset 0 of a `bytes.Reader`. -/
def sampleChunk : Chunk :=
  { offset := 0, size := 64, sr := some (NewSectionReader (bytesReader sample64) 0 64),
    index := 0 }

/-- A file of 524800 bytes (512.5 KiB), the size of `testdata/test.bin`. -/
def sampleFile : List Byte := List.replicate 524800 0

/-- A chunk bound to the four bytes `1, 2, 3, 4` of a `bytes.Reader`. -/
def chunk1234 : Chunk :=
  { offset := 0, size := 4, sr := some (NewSectionReader (bytesReader [1, 2, 3, 4]) 0 4),
    index := 0 }

/-- A chunk bound to the three bytes `10, 20, 30` of a `bytes.Reader`. -/
def chunk102030 : Chunk :=
  { offset := 0, size := 3, sr := some (NewSectionReader (bytesReader [10, 20, 30]) 0 3),
    index := 0 }

/-- The section reader of `chunk1234` after two bytes were read from it. -/
def section1234At2 : SectionReader :=
  { NewSectionReader (bytesReader [1, 2, 3, 4]) 0 4 with off := 2 }

/-! ## Specification predicates -/

/-- The source serves the byte sequence `B` (contract of `io.ReaderAt`): a read
at a non-negative offset stores the bytes of `B` from that offset, as many as
requested or as many as there are; a short read reports end-of-file; a full read
reports no error, or end-of-file when it reached the end of `B`. -/
def Serves (r : ReaderAt) (B : List Byte) : Prop :=
  ∀ (n : Nat) (off : Int), 0 ≤ off →
    (r.ReadAt n off).1 = (B.drop off.toNat).take n ∧
    ((r.ReadAt n off).1.length < n → (r.ReadAt n off).2 = some Error.EOF) ∧
    ((r.ReadAt n off).1.length = n →
      (r.ReadAt n off).2 = none ∨
        ((r.ReadAt n off).2 = some Error.EOF ∧ (B.length : Int) ≤ off + n))

/-- The algorithm behaves as a `hash.Hash` must: some relation `R s bs` ("state
`s` has absorbed exactly `bs` since it was new or reset") holds of a new and of a
reset accumulator with no bytes, is kept by `Write`, and determines `Sum`. -/
def Lawful (H : HashAlg) : Prop :=
  ∃ R : H.State → List Byte → Prop,
    R H.New [] ∧ (∀ s, R (H.Reset s) []) ∧
    (∀ s bs cs, R s bs → R (H.Write s cs) (bs ++ cs)) ∧
    (∀ s t bs, R s bs → R t bs → ∀ b, H.Sum s b = H.Sum t b)

/-- The bytes of `B` that the section reader has still to deliver. -/
def SectionReader.rest (s : SectionReader) (B : List Byte) : List Byte :=
  (B.drop s.off.toNat).take (s.limit - s.off).toNat

/-- Well-formed section reader: the bounds are `int64` values and the cursor
lies between the non-negative base and the limit. -/
def SectionReader.Wf (s : SectionReader) : Prop :=
  0 ≤ s.base ∧ s.base ≤ s.off ∧ s.off ≤ s.limit ∧ s.limit ≤ maxInt64

/-- The chain condition of a tiling: the chunks start at `start`, each one starts
where the previous one ends, every chunk is non-empty, and the last one ends at
`total`. -/
def TilesFrom : Int → List Chunk → Int → Prop
  | start, [], total => start = total
  | start, c :: rest, total => c.offset = start ∧ 0 < c.size ∧ TilesFrom (start + c.size) rest total

instance instDecidableTilesFrom : (start : Int) → (l : List Chunk) → (total : Int) →
    Decidable (TilesFrom start l total)
  | start, [], total => inferInstanceAs (Decidable (start = total))
  | start, c :: rest, total =>
    have := instDecidableTilesFrom (start + c.size) rest total
    inferInstanceAs (Decidable (c.offset = start ∧ 0 < c.size ∧ TilesFrom (start + c.size) rest total))

/-- The chunk list that `NewConcurrentReader` builds when no intermediate value
leaves the `int64` range, written in closed form (used in proofs only). -/
def closedChunks (size cs : Int) : List Chunk :=
  let N := ((size + cs - 1) / cs).toNat
  (List.range N).map fun (i : Nat) =>
    { offset := (i : Int) * cs
      size := if i + 1 = N ∧ size % cs ≠ 0 then size % cs else cs
      sr := none
      index := (i : Int) }

/-- The source `r` with every error it reports replaced by end-of-file. -/
def eofOnError (r : ReaderAt) : ReaderAt where
  ReadAt := fun n off => ((r.ReadAt n off).1, (r.ReadAt n off).2.map fun _ => Error.EOF)

/-- The section reader `s` over `eofOnError` of its source. -/
def SectionReader.quiet (s : SectionReader) : SectionReader :=
  { s with r := eofOnError s.r }

/-- The chunk `c` with its section reader over `eofOnError` of its source. -/
def Chunk.quiet (c : Chunk) : Chunk :=
  { c with sr := c.sr.map SectionReader.quiet }

/-- A source whose every `ReadAt` fails with an I/O error and stores no byte. -/
def brokenReader : ReaderAt where
  ReadAt := fun _ _ => ([], some (Error.other "input/output error"))

/-- A chunk bound to `[0, 4)` of the broken source. -/
def brokenChunk : Chunk :=
  { offset := 0, size := 4, sr := some (NewSectionReader brokenReader 0 4), index := 0 }

/-- A chunk bound to `[0, 4)` of an empty `bytes.Reader`. -/
def emptyChunk : Chunk :=
  { offset := 0, size := 4, sr := some (NewSectionReader (bytesReader []) 0 4), index := 0 }

/-! ## Chunks with pointers: the heap of section readers -/

/-- The heap of section readers allocated by `io.NewSectionReader`; a pointer
`*io.SectionReader` is an index into it. -/
abbrev Heap := List SectionReader

/-- A `Chunk` value as the program holds it: the descriptor fields and the pointer
`sr` (an address in the heap, `none` when nil).  Copies of a chunk share the
section reader they point to. -/
structure ChunkRef where
  offset : Int
  size : Int
  sr : Option Nat
  index : Int

/-- The chunk a `ChunkRef` denotes in a heap. -/
def ChunkRef.load (p : ChunkRef) (h : Heap) : Chunk :=
  { offset := p.offset, size := p.size, sr := p.sr.bind fun a => h[a]?, index := p.index }

/-- The heap after an operation on `p` left the chunk `c` behind: the section
reader `p` points to is overwritten, nothing else. -/
def ChunkRef.store (p : ChunkRef) (h : Heap) (c : Chunk) : Heap :=
  match p.sr, c.sr with
  | some a, some s => h.set a s
  | _, _ => h

/-- The loop of `Chop` with pointers: each chunk gets the address of a newly
allocated section reader, the next free address being `a`. -/
def bindRefs : Nat → List Chunk → List ChunkRef
  | _, [] => []
  | a, ch :: rest =>
    { offset := ch.offset, size := ch.size, sr := some a, index := ch.index } ::
      bindRefs (a + 1) rest

/-- The method `Chop` with pointers: the heap grows by one new section reader
per chunk, and the chunks returned point to them. -/
def ConcurrentReader.ChopRef (c : ConcurrentReader) (h : Heap) : Heap × List ChunkRef :=
  (h ++ c.Chunks.map (fun ch => NewSectionReader c.r ch.offset ch.size),
   bindRefs h.length c.Chunks)

/-- A call of one of the methods `Read`, `Hash`, `Data` of a chunk. -/
inductive Op where
  | read (plen : Nat)
  | hash (H : HashAlg) (h0 : H.State) (fuel : Nat)
  | data (room : Nat → Nat) (fuel : Nat)

/-- The call on a chunk value: the chunk left behind and what the caller gets
(the bytes read, the digest or the data; the error result of `Read`). -/
def Op.run (op : Op) (c : Chunk) : Except Fault (Chunk × List Byte × Option Error) :=
  match op with
  | .read plen => c.Read plen
  | .hash H h0 fuel => (c.Hash H h0 fuel).map fun t => (t.1, t.2.2, none)
  | .data room fuel => (c.Data room fuel).map fun t => (t.1, t.2, none)

/-- The call on a chunk with pointers: the heap left behind and what the caller
gets. -/
def ChunkRef.run (p : ChunkRef) (op : Op) (h : Heap) :
    Except Fault (Heap × List Byte × Option Error) :=
  (op.run (p.load h)).map fun t => (p.store h t.1, t.2.1, t.2.2)

/-- A sequence of calls on one chunk: the heap left behind and the results in
order. -/
def ChunkRef.runAll (p : ChunkRef) :
    List Op → Heap → Except Fault (Heap × List (List Byte × Option Error))
  | [], h => .ok (h, [])
  | op :: ops, h =>
    match p.run op h with
    | .error f => .error f
    | .ok (h1, out) =>
      match p.runAll ops h1 with
      | .error f => .error f
      | .ok (h2, outs) => .ok (h2, out :: outs)

/-! ## `bytes.go`: human-readable byte counts -/

/-- Rounding of the quotient `n / d` to the nearest natural number, ties to
even (the rounding of IEEE 754 arithmetic and of `strconv`). -/
def roundHalfEven (n d : Nat) : Nat :=
  let q := n / d
  let r := n % d
  if 2 * r < d then q else if 2 * r > d then q + 1 else if q % 2 = 0 then q else q + 1

/-- The position of the highest set bit of `n`, found in at most `fuel` halvings. -/
def log2Floor : Nat → Nat → Nat
  | 0, _ => 0
  | fuel + 1, n => if n < 2 then 0 else log2Floor fuel (n / 2) + 1

/-- The integer part of the binary logarithm of a natural number below `2^64`. -/
def log2 (n : Nat) : Nat := log2Floor 64 n

/-- The value of Go `float64(b)` for a natural number `b` below `2^64`: `b`
rounded to 53 significant bits. -/
def float64OfNat (b : Nat) : Nat :=
  if b < 2 ^ 53 then b
  else
    let sh := log2 b - 52
    roundHalfEven b (2 ^ sh) * 2 ^ sh

/-- The tenths shown by `%.1f` for the `float64` quotient `x / y` of two
`float64` values that are natural numbers with `1 ≤ y ≤ x`: the quotient is
rounded to 53 significant bits, and that value to one decimal place. -/
def quotTenths (x y : Nat) : Nat :=
  let e := log2 (x / y)
  if e ≤ 52 then
    let sh := 52 - e
    roundHalfEven (10 * roundHalfEven (x * 2 ^ sh) y) (2 ^ sh)
  else
    10 * roundHalfEven x (y * 2 ^ (e - 52)) * 2 ^ (e - 52)

/-- Go `fmt.Sprintf("%.1f", float64(b)/float64(div))` for `1 ≤ div ≤ b`. -/
def formatQuot (b div : Int) : String :=
  let t := quotTenths (float64OfNat b.toNat) (float64OfNat div.toNat)
  toString (t / 10) ++ "." ++ toString (t % 10)

/-- The loop `for n := b / unit; n >= unit; n /= unit` of `ByteCountDecimal` and
`ByteCountBinary`, from the state `(n, div, exp)`: the final `(div, exp)`. -/
def unitLoop (unit : Int) : Nat → Int → Int → Int → Except Fault (Int × Int)
  | 0, _, _, _ => .error .outOfFuel
  | fuel + 1, n, div, exp =>
    if n ≥ unit then
      match div64 n unit with
      | .error f => .error f
      | .ok n1 => unitLoop unit fuel n1 (mul64 div unit) (add64 exp 1)
    else .ok (div, exp)

/-- Go `letters[exp]` on a string: the byte at position `exp`, a panic outside
the string. -/
def stringIndex (letters : String) (exp : Int) : Except Fault Char :=
  if exp < 0 then .error (.panic "index out of range")
  else
    match letters.toList[exp.toNat]? with
    | none => .error (.panic "index out of range")
    | some ch => .ok ch

/-- The common body of `ByteCountDecimal` and `ByteCountBinary`, which differ in
the constant `unit`, the unit letters and the text after the letter. -/
def byteCount (unit : Int) (letters tail : String) (fuel : Nat) (b : Int) :
    Except Fault String :=
  if b < unit then .ok (toString b ++ " B")
  else
    match div64 b unit with
    | .error f => .error f
    | .ok n =>
      match unitLoop unit fuel n (wrap64 unit) 0 with
      | .error f => .error f
      | .ok (div, exp) =>
        match stringIndex letters exp with
        | .error f => .error f
        | .ok ch => .ok (formatQuot b div ++ " " ++ String.singleton ch ++ tail)

/-- The function `ByteCountDecimal(b)`. -/
def ByteCountDecimal (fuel : Nat) (b : Int) : Except Fault String :=
  byteCount 1000 "kMGTPE" "B" fuel b

/-- The function `ByteCountBinary(b)`. -/
def ByteCountBinary (fuel : Nat) (b : Int) : Except Fault String :=
  byteCount 1024 "KMGTPE" "iB" fuel b

/-- A chunk whose range `[0, 6)` reaches beyond its source, a `bytes.Reader` over
the four bytes `1, 2, 3, 4`, with the cursor at position 4. -/
def chunkBeyondSource : Chunk :=
  { offset := 0, size := 6,
    sr := some { NewSectionReader (bytesReader [1, 2, 3, 4]) 0 6 with off := 4 },
    index := 0 }

/-- A source holding the two bytes `1, 2` that reports an I/O error wherever a
`bytes.Reader` over them reports end-of-file: a file cut short by a device
error. -/
def tornReader : ReaderAt where
  ReadAt := fun n off =>
    (((bytesReader [1, 2]).ReadAt n off).1,
      ((bytesReader [1, 2]).ReadAt n off).2.map fun _ => Error.other "input/output error")

/-- A chunk bound to `[0, 4)` of the torn source. -/
def tornChunk : Chunk :=
  { offset := 0, size := 4, sr := some (NewSectionReader tornReader 0 4), index := 0 }

/-! ## Arithmetic lemmas -/

theorem wrap64_of_range {x : Int} (h1 : minInt64 ≤ x) (h2 : x ≤ maxInt64) : wrap64 x = x := by
  simp only [wrap64, minInt64, maxInt64] at *
  omega

theorem tdiv_eq_of_nonneg {a b : Int} (ha : 0 ≤ a) (hb : 0 ≤ b) : Int.tdiv a b = a / b :=
  Int.tdiv_eq_ediv ha hb

theorem tmod_eq_of_nonneg {a b : Int} (ha : 0 ≤ a) (hb : 0 ≤ b) : Int.tmod a b = a % b :=
  Int.tmod_eq_emod ha hb

/-- The quotient `(size + cs - 1) / cs` times `cs` stays below `size + cs`. -/
theorem count_mul_le (size cs : Int) (h1 : 1 ≤ cs) :
    (size + cs - 1) / cs * cs ≤ size + cs - 1 :=
  Int.ediv_mul_le _ (by omega)

theorem count_nonneg {size cs : Int} (h0 : 0 ≤ size) (h1 : 1 ≤ cs) :
    0 ≤ (size + cs - 1) / cs :=
  Int.ediv_nonneg (by omega) (by omega)

theorem count_le {size cs : Int} (h0 : 0 ≤ size) (h1 : 1 ≤ cs) :
    (size + cs - 1) / cs ≤ size + cs - 1 := by
  have h := count_mul_le size cs h1
  have hq := count_nonneg h0 h1
  nlinarith

theorem fillChunks_eq (N : Nat) (cs : Int) (h1 : 1 ≤ cs) (hN : (N : Int) * cs ≤ maxInt64) :
    fillChunks N cs = (List.range N).map fun (i : Nat) =>
      ({ offset := (i : Int) * cs, size := cs, sr := none, index := (i : Int) } : Chunk) := by
  unfold fillChunks
  apply List.map_congr_left
  intro i hi
  have hi : i < N := List.mem_range.mp hi
  have hlt : (i : Int) * cs ≤ (N : Int) * cs := by
    have : (i : Int) ≤ N := by exact_mod_cast hi.le
    nlinarith
  have h0 : 0 ≤ (i : Int) * cs := by positivity
  have : mul64 (i : Int) cs = (i : Int) * cs := by
    unfold mul64
    apply wrap64_of_range
    · simp only [minInt64]; omega
    · omega
  rw [this]

theorem setLastSize_range (n : Nat) (rem : Int) (f : Nat → Chunk) :
    setLastSize ((List.range (n + 1)).map f) rem =
      .ok ((List.range (n + 1)).map fun i => if i = n then { f i with size := rem } else f i) := by
  have hcongr : (List.range n).map (fun i => if i = n then { f i with size := rem } else f i)
      = (List.range n).map f := by
    apply List.map_congr_left
    intro i hi
    have : i ≠ n := Nat.ne_of_lt (List.mem_range.mp hi)
    simp [this]
  simp [setLastSize, List.range_succ, hcongr]

/-- Closed form of the result of `NewConcurrentReader` with one `WithChunkSize`
option, when `size + cs - 1` does not leave the `int64` range and the chunk list
is within the allocator limit. -/
theorem NewConcurrentReader_closed (inp : ReaderAt) (size cs : Int)
    (h0 : 0 ≤ size) (h1 : 1 ≤ cs) (hc : cs ≤ maxInt64) (h2 : size + cs - 1 ≤ maxInt64)
    (h3 : (size + cs - 1) / cs * sizeofChunk ≤ maxAlloc) :
    NewConcurrentReader inp size [WithChunkSize cs] =
      .ok (some { r := inp, cs := cs, Chunks := closedChunks size cs }, none) := by
  have hmax : maxInt64 = 2 ^ 63 - 1 := rfl
  have hmin : minInt64 = -(2 ^ 63) := rfl
  have hcs : wrap64 cs = cs := wrap64_of_range (by omega) (by omega)
  have hsub : sub64 (add64 size cs) 1 = size + cs - 1 := by
    simp only [sub64, add64, wrap64]
    omega
  have hq0 := count_nonneg h0 h1
  have hq1 := count_le h0 h1
  have hqm := count_mul_le size cs h1
  have hdiv : div64 (size + cs - 1) cs = .ok ((size + cs - 1) / cs) := by
    unfold div64
    rw [if_neg (by omega), tdiv_eq_of_nonneg (by omega) (by omega),
      wrap64_of_range (by omega) (by omega)]
  have hr0 : 0 ≤ size % cs := Int.emod_nonneg _ (by omega)
  have hr1 : size % cs < cs := Int.emod_lt_of_pos _ (by omega)
  have hrem : rem64 size cs = .ok (size % cs) := by
    unfold rem64
    rw [if_neg (by omega), tmod_eq_of_nonneg h0 (by omega),
      wrap64_of_range (by omega) (by omega)]
  have hfill := fillChunks_eq ((size + cs - 1) / cs).toNat cs h1
    (by rw [Int.toNat_of_nonneg hq0]; omega)
  unfold NewConcurrentReader
  rw [if_neg (by omega)]
  have hmk : ¬ ((size + cs - 1) / cs < 0 ∨ (size + cs - 1) / cs * sizeofChunk > maxAlloc) := by
    rintro (hneg | hbig)
    · exact absurd hneg (not_lt.mpr hq0)
    · exact absurd hbig (not_lt.mpr h3)
  simp only [applyOpts, WithChunkSize, initialReader, buildChunks, if_neg (not_lt.mpr h1), hcs,
    hsub, hdiv, hrem,
    bind, Except.bind, if_neg hmk, hfill, pure, Except.pure]
  by_cases hr : size % cs = 0
  · simp only [hr, ne_eq, not_true_eq_false, if_false, closedChunks, and_false]
  · have hNpos : 0 < (size + cs - 1) / cs := by
      by_contra hcon
      have hz : (size + cs - 1) / cs = 0 := by omega
      have hlt : size + cs - 1 < cs := by
        have := Int.lt_ediv_add_one_mul_self (size + cs - 1) (show 0 < cs by omega)
        rw [hz] at this; omega
      have hs0 : size = 0 := by omega
      rw [hs0] at hr; simp at hr
    obtain ⟨n, hn⟩ : ∃ n, ((size + cs - 1) / cs).toNat = n + 1 :=
      ⟨((size + cs - 1) / cs).toNat - 1, by omega⟩
    simp only [ne_eq, hr, not_false_eq_true, if_true, closedChunks, hn, setLastSize_range,
      and_true]
    refine congrArg (fun l => Except.ok
      (some ({ r := inp, cs := cs, Chunks := l } : ConcurrentReader), none)) ?_
    apply List.map_congr_left
    intro i _
    by_cases hi : i = n
    · simp [hi]
    · simp [hi]


/-- The count `(size + cs - 1) / cs` is the quotient `size / cs`, plus one when
the remainder is not zero. -/
theorem count_eq (size cs : Int) (h1 : 1 ≤ cs) :
    (size + cs - 1) / cs = size / cs + (if size % cs = 0 then 0 else 1) := by
  have hr0 : 0 ≤ size % cs := Int.emod_nonneg _ (by omega)
  have hr1 : size % cs < cs := Int.emod_lt_of_pos _ (by omega)
  have hsplit : size + cs - 1 = (size % cs + cs - 1) + cs * (size / cs) := by
    have := Int.emod_add_ediv size cs
    omega
  rw [hsplit, Int.add_mul_ediv_left _ _ (show cs ≠ 0 by omega)]
  by_cases hr : size % cs = 0
  · rw [hr, if_pos rfl, Int.ediv_eq_zero_of_lt (by omega) (by omega)]
    omega
  · rw [if_neg hr]
    have : (size % cs + cs - 1) / cs = 1 := by
      have h := Int.add_mul_ediv_left (size % cs - 1) 1 (show cs ≠ 0 by omega)
      rw [show size % cs + cs - 1 = size % cs - 1 + cs * 1 by omega, h,
        Int.ediv_eq_zero_of_lt (by omega) (by omega)]
      omega
    omega

/-- The count is the least number of chunks of size `cs` that cover `size`. -/
theorem count_bounds (size cs : Int) (h1 : 1 ≤ cs) :
    size ≤ (size + cs - 1) / cs * cs ∧ ((size + cs - 1) / cs - 1) * cs < size := by
  have hr0 : 0 ≤ size % cs := Int.emod_nonneg _ (by omega)
  have hr1 : size % cs < cs := Int.emod_lt_of_pos _ (by omega)
  have hd := Int.emod_add_ediv size cs
  rw [count_eq size cs h1]
  by_cases hr : size % cs = 0
  · rw [if_pos hr]
    constructor <;> nlinarith
  · rw [if_neg hr]
    have hpos : 0 < size % cs := by omega
    constructor <;> nlinarith

/-- The count is the ceiling of the rational quotient `size / cs`. -/
theorem count_eq_ceil {size cs : Int} (h1 : 1 ≤ cs) :
    (size + cs - 1) / cs = ⌈(size : ℚ) / (cs : ℚ)⌉ := by
  obtain ⟨hb1, hb2⟩ := count_bounds size cs h1
  have hcs : (0 : ℚ) < (cs : ℚ) := by exact_mod_cast (show 0 < cs by omega)
  symm
  rw [Int.ceil_eq_iff]
  constructor
  · rw [lt_div_iff₀ hcs]
    exact_mod_cast hb2
  · rw [div_le_iff₀ hcs]
    exact_mod_cast hb1

/-! ## Consequences of the chain condition -/

theorem TilesFrom.start_le {s t : Int} {l : List Chunk} (h : TilesFrom s l t) : s ≤ t := by
  induction l generalizing s with
  | nil => exact le_of_eq h
  | cons c rest ih =>
    obtain ⟨_, h2, h3⟩ := h
    have := ih h3
    omega

theorem TilesFrom.le_offset {s t : Int} {l : List Chunk} (h : TilesFrom s l t) :
    ∀ c ∈ l, s ≤ c.offset ∧ c.offset + c.size ≤ t := by
  induction l generalizing s with
  | nil => intro c hc; cases hc
  | cons c rest ih =>
    obtain ⟨h1, h2, h3⟩ := h
    intro d hd
    rcases List.mem_cons.mp hd with rfl | hd
    · have := h3.start_le
      omega
    · have := ih h3 d hd
      omega

theorem TilesFrom.sum_sizes {s t : Int} {l : List Chunk} (h : TilesFrom s l t) :
    (l.map Chunk.size).sum = t - s := by
  induction l generalizing s with
  | nil => simp only [TilesFrom] at h; simp [h]
  | cons c rest ih =>
    obtain ⟨_, _, h3⟩ := h
    simp only [List.map_cons, List.sum_cons, ih h3]
    omega

theorem TilesFrom.pairwise {s t : Int} {l : List Chunk} (h : TilesFrom s l t) :
    l.Pairwise (fun a b => a.offset + a.size ≤ b.offset) := by
  induction l generalizing s with
  | nil => exact List.Pairwise.nil
  | cons c rest ih =>
    obtain ⟨h1, _, h3⟩ := h
    refine List.Pairwise.cons ?_ (ih h3)
    intro d hd
    have := (h3.le_offset d hd).1
    omega

theorem TilesFrom.head {s t : Int} {l : List Chunk} (h : TilesFrom s l t) :
    ∀ c, l.head? = some c → c.offset = s := by
  cases l with
  | nil => intro c hc; cases hc
  | cons d rest =>
    intro c hc
    simp only [List.head?_cons, Option.some.injEq] at hc
    subst hc
    exact h.1

theorem TilesFrom.last {s t : Int} {l : List Chunk} (h : TilesFrom s l t) :
    ∀ c, l.getLast? = some c → c.offset + c.size = t := by
  induction l generalizing s with
  | nil => intro c hc; cases hc
  | cons d rest ih =>
    intro c hc
    obtain ⟨h1, _, h3⟩ := h
    cases rest with
    | nil =>
      simp only [List.getLast?_singleton, Option.some.injEq] at hc
      subst hc
      simp only [TilesFrom] at h3
      omega
    | cons e rest2 =>
      rw [List.getLast?_cons_cons] at hc
      exact ih h3 c hc

theorem TilesFrom.consecutive {s t : Int} {l : List Chunk} (h : TilesFrom s l t) :
    ∀ (i : Nat) (a b : Chunk), l[i]? = some a → l[i + 1]? = some b →
      b.offset = a.offset + a.size := by
  induction l generalizing s with
  | nil => intro i a b ha; simp at ha
  | cons d rest ih =>
    obtain ⟨h1, _, h3⟩ := h
    intro i a b ha hb
    cases i with
    | zero =>
      simp only [List.getElem?_cons_zero, Option.some.injEq] at ha
      subst ha
      simp only [zero_add, List.getElem?_cons_succ] at hb
      have := h3.head b (by rw [List.head?_eq_getElem?]; exact hb)
      omega
    | succ j =>
      simp only [List.getElem?_cons_succ] at ha hb
      exact ih h3 j a b ha hb

theorem tilesFrom_map_range' (g : Nat → Chunk) (ends : Nat → Int) (m k : Nat)
    (h : ∀ i, k ≤ i → i < k + m →
      (g i).offset = ends i ∧ 0 < (g i).size ∧ (g i).offset + (g i).size = ends (i + 1)) :
    TilesFrom (ends k) ((List.range' k m).map g) (ends (k + m)) := by
  induction m generalizing k with
  | zero => simp [TilesFrom]
  | succ m ih =>
    obtain ⟨a, b, c⟩ := h k le_rfl (by omega)
    simp only [List.range'_succ, List.map_cons, TilesFrom]
    refine ⟨a, b, ?_⟩
    have hk : ends k + (g k).size = ends (k + 1) := by omega
    rw [hk, show k + (m + 1) = (k + 1) + m by omega]
    exact ih (k + 1) (fun i hi1 hi2 => h i (by omega) (by omega))

/-! ## The closed form tiles `[0, size)` -/

theorem closedChunks_length (size cs : Int) :
    (closedChunks size cs).length = ((size + cs - 1) / cs).toNat := by
  simp [closedChunks]

theorem closedChunks_getElem? (size cs : Int) (i : Nat)
    (hi : i < ((size + cs - 1) / cs).toNat) :
    (closedChunks size cs)[i]? = some
      { offset := (i : Int) * cs
        size := if i + 1 = ((size + cs - 1) / cs).toNat ∧ size % cs ≠ 0 then size % cs else cs
        sr := none
        index := (i : Int) } := by
  simp [closedChunks, List.getElem?_map, List.getElem?_range hi]

theorem closedChunks_tiles {size cs : Int} (h0 : 0 ≤ size) (h1 : 1 ≤ cs) :
    TilesFrom 0 (closedChunks size cs) size := by
  obtain ⟨hb1, hb2⟩ := count_bounds size cs h1
  have hq0 := count_nonneg h0 h1
  have hce := count_eq size cs h1
  have hd := Int.emod_add_ediv size cs
  have hr0 : 0 ≤ size % cs := Int.emod_nonneg _ (by omega)
  have hr1 : size % cs < cs := Int.emod_lt_of_pos _ (by omega)
  generalize hN : ((size + cs - 1) / cs).toNat = N
  have hNq : (N : Int) = (size + cs - 1) / cs := by rw [← hN]; exact Int.toNat_of_nonneg hq0
  rw [← hNq] at hb1 hb2 hce
  have key := tilesFrom_map_range'
    (fun (i : Nat) => ({ offset := (i : Int) * cs
                         size := if i + 1 = N ∧ size % cs ≠ 0 then size % cs else cs
                         sr := none
                         index := (i : Int) } : Chunk))
    (fun i => if i = N then size else (i : Int) * cs) N 0 (by
      intro i _ hi
      have hiN : i ≠ N := by omega
      have hle : (i : Int) + 1 ≤ N := by exact_mod_cast (show i + 1 ≤ N by omega)
      simp only [if_neg hiN]
      refine ⟨trivial, ?_, ?_⟩
      · split_ifs <;> omega
      · by_cases hlast : i + 1 = N
        · have hiq : (i : Int) = N - 1 := by omega
          by_cases hr : size % cs = 0
          · simp only [hlast, hr, ne_eq, not_true_eq_false, and_false, if_false, if_true]
            rw [if_pos hr] at hce
            rw [hiq]
            have : size = cs * (size / cs) := by omega
            rw [show size / cs = (N : Int) by omega] at this
            linarith
          · simp only [hlast, hr, ne_eq, not_false_eq_true, and_self, if_true]
            rw [if_neg hr] at hce
            rw [hiq, show (N : Int) - 1 = size / cs by omega]
            linarith
        · have hlt : (i : Int) + 1 < N := by
            have : i + 1 < N := by omega
            exact_mod_cast this
          simp only [hlast, false_and, if_false]
          push_cast
          ring)
  have hstart : (if 0 = N then size else ((0 : Nat) : Int) * cs) = 0 := by
    by_cases hz : 0 = N
    · rw [if_pos hz]
      rw [← hz] at hb1
      simp at hb1
      omega
    · rw [if_neg hz]; simp
  simp only [hstart, zero_add, if_true] at key
  unfold closedChunks
  simp only [hN, List.range_eq_range']
  exact key

/-! ## The partition built by `NewConcurrentReader` -/

/-- Partition, tiling: for `0 ≤ size`, `1 ≤ cs ≤ 2^63 - 1`,
`size + cs - 1 ≤ 2^63 - 1` and a chunk count within the allocator limit
(`count * 32 ≤ maxAlloc`), `NewConcurrentReader` returns a reader whose chunk
list tiles `[0, size)`: the first chunk starts at 0, every later chunk starts where
the previous one ends, the last chunk ends at `size`, the list is empty only for
`size = 0`, the ranges are pairwise disjoint and sorted by offset, every chunk is
non-empty and inside `[0, size)`, and the sizes sum to `size`. -/
theorem partition_tiles (inp : ReaderAt) (size cs : Int)
    (h0 : 0 ≤ size) (h1 : 1 ≤ cs) (hc : cs ≤ maxInt64) (h2 : size + cs - 1 ≤ maxInt64)
    (h3 : (size + cs - 1) / cs * sizeofChunk ≤ maxAlloc) :
    ∃ cr, NewConcurrentReader inp size [WithChunkSize cs] = .ok (some cr, none) ∧
      (∀ c, cr.Chunks.head? = some c → c.offset = 0) ∧
      (∀ (i : Nat) (a b : Chunk), cr.Chunks[i]? = some a → cr.Chunks[i + 1]? = some b →
        b.offset = a.offset + a.size) ∧
      (∀ c, cr.Chunks.getLast? = some c → c.offset + c.size = size) ∧
      (cr.Chunks = [] → size = 0) ∧
      cr.Chunks.Pairwise (fun a b => a.offset + a.size ≤ b.offset) ∧
      cr.Chunks.Pairwise (fun a b => a.offset < b.offset) ∧
      (∀ c ∈ cr.Chunks, 0 < c.size ∧ 0 ≤ c.offset ∧ c.offset + c.size ≤ size) ∧
      (cr.Chunks.map Chunk.size).sum = size := by
  refine ⟨_, NewConcurrentReader_closed inp size cs h0 h1 hc h2 h3, ?_⟩
  have ht := closedChunks_tiles h0 h1
  refine ⟨ht.head, ht.consecutive, ht.last, ?_, ht.pairwise, ?_, ?_, ?_⟩
  · intro hnil
    have := ht
    simp only at hnil
    rw [hnil] at this
    exact this.symm
  · have hp := ht.pairwise
    have hpos : ∀ c ∈ closedChunks size cs, 0 < c.size := by
      intro c hcm
      have hmem := hcm
      simp only [closedChunks, List.mem_map, List.mem_range] at hmem
      obtain ⟨i, _, rfl⟩ := hmem
      have hr0 : 0 ≤ size % cs := Int.emod_nonneg _ (by omega)
      simp only
      split_ifs <;> omega
    refine (List.Pairwise.and_mem.mp hp).imp ?_
    intro a b hab
    have := hpos a hab.1
    omega
  · intro c hcm
    have hb := ht.le_offset c hcm
    have hmem := hcm
    simp only [closedChunks, List.mem_map, List.mem_range] at hmem
    obtain ⟨i, _, rfl⟩ := hmem
    have hr0 : 0 ≤ size % cs := Int.emod_nonneg _ (by omega)
    simp only at hb ⊢
    refine ⟨?_, hb.1, hb.2⟩
    split_ifs <;> omega
  · have := ht.sum_sizes
    simpa using this

/-- Instance of `partition_tiles` at `size = 10`, `cs = 4`. -/
theorem partition_tiles_witness :
    ∃ cr, NewConcurrentReader (bytesReader []) 10 [WithChunkSize 4] = .ok (some cr, none) ∧
      (∀ c, cr.Chunks.head? = some c → c.offset = 0) ∧
      (∀ (i : Nat) (a b : Chunk), cr.Chunks[i]? = some a → cr.Chunks[i + 1]? = some b →
        b.offset = a.offset + a.size) ∧
      (∀ c, cr.Chunks.getLast? = some c → c.offset + c.size = 10) ∧
      (cr.Chunks = [] → (10 : Int) = 0) ∧
      cr.Chunks.Pairwise (fun a b => a.offset + a.size ≤ b.offset) ∧
      cr.Chunks.Pairwise (fun a b => a.offset < b.offset) ∧
      (∀ c ∈ cr.Chunks, 0 < c.size ∧ 0 ≤ c.offset ∧ c.offset + c.size ≤ 10) ∧
      (cr.Chunks.map Chunk.size).sum = 10 :=
  partition_tiles (bytesReader []) 10 4 (by decide) (by decide) (by decide) (by decide)
    (by decide)

/-- C1 (code defect, overflow of `size + cs - 1`): for `size = cs = 2^63 - 1` the
`int64` sum `size + cs - 1` wraps to `-3`, the computed count is `0`, and
`NewConcurrentReader` returns a reader with an empty chunk list and no error; the
list does not tile `[0, size)` and its sizes sum to `0`, not to `size`. -/
theorem C1_overflow_returns_empty_list (inp : ReaderAt) :
    sub64 (add64 maxInt64 maxInt64) 1 = -3 ∧
    ∃ cr, NewConcurrentReader inp maxInt64 [WithChunkSize maxInt64] = .ok (some cr, none) ∧
      cr.Chunks = [] ∧
      ¬ TilesFrom 0 cr.Chunks maxInt64 ∧
      (cr.Chunks.map Chunk.size).sum ≠ maxInt64 := by
  refine ⟨by decide, _, rfl, rfl, ?_, ?_⟩
  · show ¬ TilesFrom 0 [] maxInt64
    decide
  · show ¬ (([] : List Chunk).map Chunk.size).sum = maxInt64
    decide

/-- Partition, count: for `0 ≤ size`, `1 ≤ cs ≤ 2^63 - 1`,
`size + cs - 1 ≤ 2^63 - 1` and a chunk count within the allocator limit
(`count * 32 ≤ maxAlloc`), the number of chunks of the reader returned by
`NewConcurrentReader` is `(size + cs - 1) / cs`, which is `⌈size / cs⌉`. -/
theorem partition_count (inp : ReaderAt) (size cs : Int)
    (h0 : 0 ≤ size) (h1 : 1 ≤ cs) (hc : cs ≤ maxInt64) (h2 : size + cs - 1 ≤ maxInt64)
    (h3 : (size + cs - 1) / cs * sizeofChunk ≤ maxAlloc) :
    ∃ cr, NewConcurrentReader inp size [WithChunkSize cs] = .ok (some cr, none) ∧
      (cr.Chunks.length : Int) = (size + cs - 1) / cs ∧
      (cr.Chunks.length : Int) = ⌈(size : ℚ) / (cs : ℚ)⌉ := by
  refine ⟨_, NewConcurrentReader_closed inp size cs h0 h1 hc h2 h3, ?_⟩
  have hlen : ((closedChunks size cs).length : Int) = (size + cs - 1) / cs := by
    rw [closedChunks_length, Int.toNat_of_nonneg (count_nonneg h0 h1)]
  exact ⟨hlen, hlen.trans (count_eq_ceil h1)⟩

/-- Instance of `partition_count` at `size = 524800`, `cs = 256`. -/
theorem partition_count_witness :
    ∃ cr, NewConcurrentReader (bytesReader []) 524800 [WithChunkSize 256] = .ok (some cr, none) ∧
      (cr.Chunks.length : Int) = (524800 + 256 - 1) / 256 ∧
      (cr.Chunks.length : Int) = ⌈((524800 : Int) : ℚ) / ((256 : Int) : ℚ)⌉ :=
  partition_count (bytesReader []) 524800 256 (by decide) (by decide) (by decide) (by decide)
    (by decide)

/-- C2 (code defect, overflow of `size + cs - 1`): for `size = cs = 3 * 2^61` the
`int64` expression `(size + cs - 1) / cs` evaluates to `0`, and
`NewConcurrentReader` returns a reader with no chunk, while `⌈size / cs⌉ = 1`. -/
theorem C2_overflow_count_zero (inp : ReaderAt) :
    div64 (sub64 (add64 (3 * 2 ^ 61) (3 * 2 ^ 61)) 1) (3 * 2 ^ 61) = .ok 0 ∧
    (∃ cr, NewConcurrentReader inp (3 * 2 ^ 61) [WithChunkSize (3 * 2 ^ 61)] = .ok (some cr, none) ∧
      cr.Chunks.length = 0) ∧
    ⌈(((3 * 2 ^ 61 : Int)) : ℚ) / (((3 * 2 ^ 61 : Int)) : ℚ)⌉ = 1 := by
  refine ⟨rfl, ⟨_, rfl, rfl⟩, ?_⟩
  rw [← count_eq_ceil (by decide)]
  decide

/-- Partition, last chunk: for `1 ≤ size`, `1 ≤ cs`, `size + cs - 1 ≤ 2^63 - 1`
and a chunk count within the allocator limit (`count * 32 ≤ maxAlloc`),
the reader returned by `NewConcurrentReader` has a last chunk; its size is
`size % cs` when that is not zero and `cs` otherwise, and in both cases
`size - cs * (N - 1)` for the chunk count `N`. -/
theorem partition_last_size (inp : ReaderAt) (size cs : Int)
    (h0 : 1 ≤ size) (h1 : 1 ≤ cs) (h2 : size + cs - 1 ≤ maxInt64)
    (h3 : (size + cs - 1) / cs * sizeofChunk ≤ maxAlloc) :
    ∃ cr c, NewConcurrentReader inp size [WithChunkSize cs] = .ok (some cr, none) ∧
      cr.Chunks.getLast? = some c ∧
      (size % cs ≠ 0 → c.size = size % cs) ∧
      (size % cs = 0 → c.size = cs) ∧
      c.size = size - cs * ((cr.Chunks.length : Int) - 1) := by
  have hmax : maxInt64 = 2 ^ 63 - 1 := rfl
  have hq0 := count_nonneg (show 0 ≤ size by omega) h1
  obtain ⟨hb1, hb2⟩ := count_bounds size cs h1
  have hce := count_eq size cs h1
  have hd := Int.emod_add_ediv size cs
  have hpos : 0 < (size + cs - 1) / cs := by
    by_contra hcon
    have : (size + cs - 1) / cs = 0 := by omega
    rw [this] at hb1
    omega
  obtain ⟨n, hn⟩ : ∃ n, ((size + cs - 1) / cs).toNat = n + 1 :=
    ⟨((size + cs - 1) / cs).toNat - 1, by omega⟩
  have hnq : (n : Int) + 1 = (size + cs - 1) / cs := by
    have := Int.toNat_of_nonneg hq0
    rw [hn] at this
    exact_mod_cast this
  have hget := closedChunks_getElem? size cs n (by omega)
  have hlast : (closedChunks size cs).getLast? = (closedChunks size cs)[n]? := by
    rw [List.getLast?_eq_getElem?, closedChunks_length, hn]
    rfl
  refine ⟨_, _, NewConcurrentReader_closed inp size cs (by omega) h1 (by omega) h2 h3,
    hlast.trans hget, ?_, ?_, ?_⟩
  · intro hr
    simp [hn, hr]
  · intro hr
    simp [hr]
  · simp only [closedChunks_length, hn]
    by_cases hr : size % cs = 0
    · rw [if_pos hr] at hce
      simp only [hr, ne_eq, not_true_eq_false, and_false, if_false]
      push_cast
      have : size = cs * (size / cs) := by omega
      rw [show size / cs = (n : Int) + 1 by omega] at this
      linarith
    · rw [if_neg hr] at hce
      simp only [hn, hr, ne_eq, not_false_eq_true, and_self, if_true]
      push_cast
      rw [show (n : Int) + 1 - 1 = size / cs by omega]
      linarith

/-- Instance of `partition_last_size` at `size = 10`, `cs = 4`. -/
theorem partition_last_size_witness :
    ∃ cr c, NewConcurrentReader (bytesReader []) 10 [WithChunkSize 4] = .ok (some cr, none) ∧
      cr.Chunks.getLast? = some c ∧
      ((10 : Int) % 4 ≠ 0 → c.size = 10 % 4) ∧
      ((10 : Int) % 4 = 0 → c.size = 4) ∧
      c.size = 10 - 4 * ((cr.Chunks.length : Int) - 1) :=
  partition_last_size (bytesReader []) 10 4 (by decide) (by decide) (by decide) (by decide)

/-- C3 (code defect, overflow of `size + cs - 1`): for `size = 100` and
`cs = 2^63 - 1` the remainder `size % cs` is `100`, not zero, but the computed
count is `0`, so the remainder patch indexes `chunks[-1]` and
`NewConcurrentReader` panics instead of returning a last chunk of size 100. -/
theorem C3_overflow_remainder_patch_panics (inp : ReaderAt) :
    rem64 100 maxInt64 = .ok 100 ∧
    div64 (sub64 (add64 100 maxInt64) 1) maxInt64 = .ok 0 ∧
    NewConcurrentReader inp 100 [WithChunkSize maxInt64] =
      .error (.panic "index out of range [-1]") :=
  ⟨rfl, rfl, rfl⟩

/-- Partition, indices and offsets: for `0 ≤ size`, `1 ≤ cs ≤ 2^63 - 1`,
`size + cs - 1 ≤ 2^63 - 1` and a chunk count within the allocator limit
(`count * 32 ≤ maxAlloc`), the `i`-th chunk of the reader returned by
`NewConcurrentReader` has index `i` and offset `i * cs`, and every chunk but the
last has size `cs`. -/
theorem partition_index_offset (inp : ReaderAt) (size cs : Int)
    (h0 : 0 ≤ size) (h1 : 1 ≤ cs) (hc : cs ≤ maxInt64) (h2 : size + cs - 1 ≤ maxInt64)
    (h3 : (size + cs - 1) / cs * sizeofChunk ≤ maxAlloc) :
    ∃ cr, NewConcurrentReader inp size [WithChunkSize cs] = .ok (some cr, none) ∧
      ∀ i : Nat, i < cr.Chunks.length →
        ∃ c, cr.Chunks[i]? = some c ∧ c.index = (i : Int) ∧ c.offset = (i : Int) * cs ∧
          (i + 1 < cr.Chunks.length → c.size = cs) := by
  refine ⟨_, NewConcurrentReader_closed inp size cs h0 h1 hc h2 h3, ?_⟩
  intro i hi
  simp only [closedChunks_length] at hi ⊢
  refine ⟨_, closedChunks_getElem? size cs i hi, rfl, rfl, ?_⟩
  intro hlt
  have : i + 1 ≠ ((size + cs - 1) / cs).toNat := by omega
  simp [this]

/-- Instance of `partition_index_offset` at `size = 10`, `cs = 4`. -/
theorem partition_index_offset_witness :
    ∃ cr, NewConcurrentReader (bytesReader []) 10 [WithChunkSize 4] = .ok (some cr, none) ∧
      ∀ i : Nat, i < cr.Chunks.length →
        ∃ c, cr.Chunks[i]? = some c ∧ c.index = (i : Int) ∧ c.offset = (i : Int) * 4 ∧
          (i + 1 < cr.Chunks.length → c.size = 4) :=
  partition_index_offset (bytesReader []) 10 4 (by decide) (by decide) (by decide) (by decide)
    (by decide)

/-- C4 (code defect, overflow of `size + cs - 1`): for `size = 2^63 - 1` and
`cs = 2^62` the `int64` expression `(size + cs - 1) / cs` evaluates to `-1`, so
`make([]Chunk, nchunks)` panics and no chunk with index 0 or 1 is produced,
while `⌈size / cs⌉ = 2`. -/
theorem C4_overflow_negative_count_panics (inp : ReaderAt) :
    div64 (sub64 (add64 maxInt64 (2 ^ 62)) 1) (2 ^ 62) = .ok (-1) ∧
    NewConcurrentReader inp maxInt64 [WithChunkSize (2 ^ 62)] =
      .error (.panic "makeslice: len out of range") ∧
    ⌈((maxInt64 : Int) : ℚ) / (((2 ^ 62 : Int)) : ℚ)⌉ = 2 := by
  refine ⟨rfl, rfl, ?_⟩
  rw [← count_eq_ceil (by decide)]
  decide

/-! ## Construction errors and options -/

theorem buildChunks_ok (cr : ConcurrentReader) (size : Int) (r : Option ConcurrentReader)
    (e : Option Error) (h : buildChunks cr size = .ok (r, e)) :
    e = none ∧ ∃ l, r = some { cr with Chunks := l } := by
  unfold buildChunks at h
  simp only [bind, Except.bind, pure, Except.pure] at h
  cases hd : div64 (sub64 (add64 size cr.cs) 1) cr.cs with
  | error f => rw [hd] at h; simp at h
  | ok q =>
    rw [hd] at h
    simp only at h
    split_ifs at h
    cases hr : rem64 size cr.cs with
    | error f => rw [hr] at h; simp at h
    | ok rem =>
      rw [hr] at h
      simp only at h
      split_ifs at h
      · cases hl : setLastSize (fillChunks q.toNat cr.cs) rem with
        | error f => rw [hl] at h; simp at h
        | ok l =>
          rw [hl] at h
          simp only [Except.ok.injEq, Prod.mk.injEq] at h
          exact ⟨h.2.symm, l, h.1.symm⟩
      · simp only [Except.ok.injEq, Prod.mk.injEq] at h
        exact ⟨h.2.symm, _, h.1.symm⟩

theorem NewConcurrentReader_error_iff (inp : ReaderAt) (size : Int)
    (opts : List ConcurrentReaderOpt) :
    (∃ r e, NewConcurrentReader inp size opts = .ok (r, some e)) ↔
      (size < 0 ∨ ∃ e, (applyOpts opts (initialReader inp)).2 = some e) := by
  unfold NewConcurrentReader
  by_cases hs : size < 0
  · simp [hs]
  · simp only [hs, if_false, false_or]
    rcases hap : applyOpts opts (initialReader inp) with ⟨cr, _ | err⟩
    · simp only [reduceCtorEq, exists_false, iff_false, not_exists]
      intro r e h
      have := (buildChunks_ok cr size r (some e) h).1
      cases this
    · simp

theorem NewConcurrentReader_error_nil (inp : ReaderAt) (size : Int)
    (opts : List ConcurrentReaderOpt) (r : Option ConcurrentReader) (e : Error)
    (h : NewConcurrentReader inp size opts = .ok (r, some e)) : r = none := by
  unfold NewConcurrentReader at h
  by_cases hs : size < 0
  · simp only [hs, if_true, Except.ok.injEq, Prod.mk.injEq] at h
    exact h.1.symm
  · simp only [hs, if_false] at h
    rcases hap : applyOpts opts (initialReader inp) with ⟨cr, _ | err⟩
    · rw [hap] at h
      have := (buildChunks_ok cr size r (some e) h).1
      cases this
    · rw [hap] at h
      simp only [Except.ok.injEq, Prod.mk.injEq] at h
      exact h.1.symm

theorem applyOpts_error_iff (opts : List ConcurrentReaderOpt) (cr : ConcurrentReader) :
    (∃ e, (applyOpts opts cr).2 = some e) ↔
      ∃ pre opt post e, opts = pre ++ opt :: post ∧ (applyOpts pre cr).2 = none ∧
        (opt (applyOpts pre cr).1).2 = some e := by
  induction opts generalizing cr with
  | nil => simp [applyOpts]
  | cons o rest ih =>
    rcases ho : o cr with ⟨cr1, _ | err⟩
    · have happ : applyOpts (o :: rest) cr = applyOpts rest cr1 := by simp [applyOpts, ho]
      rw [happ, ih cr1]
      constructor
      · rintro ⟨pre, opt, post, e, rfl, h1, h2⟩
        refine ⟨o :: pre, opt, post, e, rfl, ?_, ?_⟩
        · simpa [applyOpts, ho] using h1
        · simpa [applyOpts, ho] using h2
      · rintro ⟨pre, opt, post, e, heq, h1, h2⟩
        cases pre with
        | nil =>
          simp only [List.nil_append, List.cons.injEq] at heq
          obtain ⟨rfl, rfl⟩ := heq
          simp [applyOpts, ho] at h2
        | cons p pre2 =>
          simp only [List.cons_append, List.cons.injEq] at heq
          obtain ⟨rfl, rfl⟩ := heq
          refine ⟨pre2, opt, post, e, rfl, ?_, ?_⟩
          · simpa [applyOpts, ho] using h1
          · simpa [applyOpts, ho] using h2
    · have happ : applyOpts (o :: rest) cr = (cr1, some err) := by simp [applyOpts, ho]
      rw [happ]
      constructor
      · intro _
        exact ⟨[], o, rest, err, rfl, by simp [applyOpts], by simp [applyOpts, ho]⟩
      · intro _
        exact ⟨err, rfl⟩

theorem applyOpts_withChunkSize_error_iff (ns : List Int) (cr : ConcurrentReader) :
    (∃ e, (applyOpts (ns.map WithChunkSize) cr).2 = some e) ↔ ∃ n ∈ ns, n < 1 := by
  induction ns generalizing cr with
  | nil => simp [applyOpts]
  | cons n rest ih =>
    by_cases hn : n < 1
    · simp [applyOpts, WithChunkSize, hn]
    · have := ih { cr with cs := wrap64 n }
      simp only [List.map_cons, applyOpts, WithChunkSize, hn, if_false, List.mem_cons,
        exists_eq_or_imp, false_or]
      exact this

theorem applyOpts_withChunkSize_valid (ns : List Int) (cr : ConcurrentReader)
    (h : ∀ n ∈ ns, 1 ≤ n) :
    applyOpts (ns.map WithChunkSize) cr =
      ({ cr with cs := match ns.getLast? with
                       | some a => wrap64 a
                       | none => cr.cs }, none) := by
  induction ns generalizing cr with
  | nil => simp [applyOpts]
  | cons n rest ih =>
    have hn : ¬ n < 1 := not_lt.mpr (h n (List.mem_cons_self _ _))
    have hrest : ∀ m ∈ rest, 1 ≤ m := fun m hm => h m (List.mem_cons_of_mem _ hm)
    have hstep : applyOpts ((n :: rest).map WithChunkSize) cr =
        applyOpts (rest.map WithChunkSize) { cr with cs := wrap64 n } := by
      simp only [List.map_cons, applyOpts, WithChunkSize, hn, if_false]
    rw [hstep, ih { cr with cs := wrap64 n } hrest]
    cases rest with
    | nil => simp
    | cons m rest2 =>
      obtain ⟨a, ha⟩ : ∃ a, (m :: rest2).getLast? = some a :=
        ⟨_, List.getLast?_eq_getLast _ (List.cons_ne_nil _ _)⟩
      simp [List.getLast?_cons_cons, ha]

theorem applyOpts_withChunkSize_abort (pre post : List Int) (n : Int) (cr : ConcurrentReader)
    (hpre : ∀ m ∈ pre, 1 ≤ m) (hn : n < 1) :
    (applyOpts ((pre ++ n :: post).map WithChunkSize) cr).2 =
      some (.errorf "chunk sizes below 1 not allowed, given: %d" n) := by
  induction pre generalizing cr with
  | nil => simp [applyOpts, WithChunkSize, hn]
  | cons m rest ih =>
    have hm : ¬ m < 1 := not_lt.mpr (hpre m (List.mem_cons_self _ _))
    have hrest : ∀ k ∈ rest, 1 ≤ k := fun k hk => hpre k (List.mem_cons_of_mem _ hk)
    have hstep : applyOpts (((m :: rest) ++ n :: post).map WithChunkSize) cr =
        applyOpts ((rest ++ n :: post).map WithChunkSize) { cr with cs := wrap64 m } := by
      simp only [List.cons_append, List.map_cons, applyOpts, WithChunkSize, hm, if_false]
      rfl
    rw [hstep]
    exact ih { cr with cs := wrap64 m } hrest

theorem NewConcurrentReader_valid_opts (inp : ReaderAt) (size : Int) (ns : List Int) (b : Int)
    (h : ∀ n ∈ ns, 1 ≤ n) (hb : 1 ≤ b) :
    NewConcurrentReader inp size ((ns ++ [b]).map WithChunkSize) =
      NewConcurrentReader inp size [WithChunkSize b] := by
  have h1 := applyOpts_withChunkSize_valid (ns ++ [b]) (initialReader inp) (by
    intro n hn
    rcases List.mem_append.mp hn with hn | hn
    · exact h n hn
    · simp only [List.mem_singleton] at hn
      omega)
  have h2 := applyOpts_withChunkSize_valid [b] (initialReader inp) (by
    intro n hn
    simp only [List.mem_singleton] at hn
    omega)
  simp only [List.getLast?_append, List.getLast?_singleton, Option.or_some,
    Option.getD_some, List.map_cons, List.map_nil] at h1 h2
  unfold NewConcurrentReader
  rw [h1, h2]

/-- C5: `WithChunkSize(n)` fails exactly when `n < 1`; `NewConcurrentReader`
returns an error exactly when `size < 0` or some option, run in its turn, fails
(for a list of `WithChunkSize` options: when one of the values is below 1);
whenever an error is returned the reader result is nil; an option that fails
aborts construction whatever options follow it; `size = -1` and `WithChunkSize(0)`
are rejected. -/
theorem construction_error_iff (inp : ReaderAt) (size : Int) :
    (∀ (n : Int) (cr : ConcurrentReader), (∃ e, (WithChunkSize n cr).2 = some e) ↔ n < 1) ∧
    (∀ opts : List ConcurrentReaderOpt,
      (∃ r e, NewConcurrentReader inp size opts = .ok (r, some e)) ↔
        (size < 0 ∨ ∃ pre opt post e, opts = pre ++ opt :: post ∧
          (applyOpts pre (initialReader inp)).2 = none ∧
          (opt (applyOpts pre (initialReader inp)).1).2 = some e)) ∧
    (∀ ns : List Int,
      (∃ r e, NewConcurrentReader inp size (ns.map WithChunkSize) = .ok (r, some e)) ↔
        (size < 0 ∨ ∃ n ∈ ns, n < 1)) ∧
    (∀ (opts : List ConcurrentReaderOpt) (r : Option ConcurrentReader) (e : Error),
      NewConcurrentReader inp size opts = .ok (r, some e) → r = none) ∧
    (∀ (pre post : List Int) (n : Int), 0 ≤ size → (∀ m ∈ pre, 1 ≤ m) → n < 1 →
      NewConcurrentReader inp size ((pre ++ n :: post).map WithChunkSize) =
        .ok (none, some (.errorf "chunk sizes below 1 not allowed, given: %d" n))) ∧
    NewConcurrentReader inp (-1) [] =
      .ok (none, some (.errorf "size should not be negative: %d" (-1))) ∧
    NewConcurrentReader inp 524800 [WithChunkSize 0] =
      .ok (none, some (.errorf "chunk sizes below 1 not allowed, given: %d" 0)) := by
  refine ⟨?_, ?_, ?_, ?_, ?_, rfl, rfl⟩
  · intro n cr
    by_cases hn : n < 1 <;> simp [WithChunkSize, hn]
  · intro opts
    rw [NewConcurrentReader_error_iff, applyOpts_error_iff]
  · intro ns
    rw [NewConcurrentReader_error_iff, applyOpts_withChunkSize_error_iff]
  · exact NewConcurrentReader_error_nil inp size
  · intro pre post n hs hpre hn
    have h := applyOpts_withChunkSize_abort pre post n (initialReader inp) hpre hn
    unfold NewConcurrentReader
    rw [if_neg (not_lt.mpr hs)]
    rcases hap : applyOpts ((pre ++ n :: post).map WithChunkSize) (initialReader inp) with
      ⟨cr, _ | err⟩
    · rw [hap] at h; cases h
    · rw [hap] at h
      simp only [Option.some.injEq] at h
      simp [h]

/-- C6: with no option the chunk size is 4 MiB, so the result equals that of the
single option `WithChunkSize(4194304)`; with valid options `WithChunkSize(a)`,
`WithChunkSize(b)` (and with any list of valid options ending in
`WithChunkSize(b)`) the result equals that of `WithChunkSize(b)` alone; and in
both cases, when `size ≥ 0`, `size + cs - 1` fits `int64` and the chunk count is
within the allocator limit (which it always is for the default chunk size), a
reader is returned whose chunk size is that value and whose chunk list is the
partition for that chunk size. -/
theorem default_and_last_chunk_size (inp : ReaderAt) (size a b : Int)
    (ha : 1 ≤ a) (hb : 1 ≤ b) :
    NewConcurrentReader inp size [] = NewConcurrentReader inp size [WithChunkSize 4194304] ∧
    NewConcurrentReader inp size [WithChunkSize a, WithChunkSize b] =
      NewConcurrentReader inp size [WithChunkSize b] ∧
    (∀ ns : List Int, (∀ n ∈ ns, 1 ≤ n) →
      NewConcurrentReader inp size ((ns ++ [b]).map WithChunkSize) =
        NewConcurrentReader inp size [WithChunkSize b]) ∧
    (0 ≤ size → size + 4194304 - 1 ≤ maxInt64 →
      ∃ cr, NewConcurrentReader inp size [] = .ok (some cr, none) ∧ cr.cs = 4194304 ∧
        cr.Chunks = closedChunks size 4194304) ∧
    (0 ≤ size → b ≤ maxInt64 → size + b - 1 ≤ maxInt64 →
      (size + b - 1) / b * sizeofChunk ≤ maxAlloc →
      ∃ cr, NewConcurrentReader inp size [WithChunkSize a, WithChunkSize b] =
        .ok (some cr, none) ∧ cr.cs = b ∧ cr.Chunks = closedChunks size b) := by
  have hdef : NewConcurrentReader inp size [] =
      NewConcurrentReader inp size [WithChunkSize 4194304] := by
    unfold NewConcurrentReader
    have h1 : applyOpts [] (initialReader inp) = (initialReader inp, none) := rfl
    have h2 : applyOpts [WithChunkSize 4194304] (initialReader inp) =
        (initialReader inp, none) := rfl
    rw [h1, h2]
  have hab : NewConcurrentReader inp size [WithChunkSize a, WithChunkSize b] =
      NewConcurrentReader inp size [WithChunkSize b] :=
    NewConcurrentReader_valid_opts inp size [a] b (by simpa using ha) hb
  refine ⟨hdef, hab, fun ns hns => NewConcurrentReader_valid_opts inp size ns b hns hb, ?_, ?_⟩
  · intro h0 h2
    rw [hdef]
    have h3 : (size + 4194304 - 1) / 4194304 * sizeofChunk ≤ maxAlloc := by
      have hmax : maxInt64 = 2 ^ 63 - 1 := rfl
      simp only [sizeofChunk, maxAlloc]
      omega
    exact ⟨_, NewConcurrentReader_closed inp size 4194304 h0 (by decide) (by decide) h2 h3,
      rfl, rfl⟩
  · intro h0 hc h2 h3
    rw [hab]
    exact ⟨_, NewConcurrentReader_closed inp size b h0 hb hc h2 h3, rfl, rfl⟩

/-- Instance of `default_and_last_chunk_size` at `size = 524800`, `a = 256`,
`b = 512`. -/
theorem default_and_last_chunk_size_witness :
    ((1 : Int) ≤ 256 ∧ (1 : Int) ≤ 512) ∧
    NewConcurrentReader (bytesReader []) 524800 [] =
      NewConcurrentReader (bytesReader []) 524800 [WithChunkSize 4194304] ∧
    NewConcurrentReader (bytesReader []) 524800 [WithChunkSize 256, WithChunkSize 512] =
      NewConcurrentReader (bytesReader []) 524800 [WithChunkSize 512] ∧
    (∃ cr, NewConcurrentReader (bytesReader []) 524800 [] = .ok (some cr, none) ∧
      cr.cs = 4194304 ∧ cr.Chunks = closedChunks 524800 4194304) ∧
    (∃ cr, NewConcurrentReader (bytesReader []) 524800 [WithChunkSize 256, WithChunkSize 512] =
      .ok (some cr, none) ∧ cr.cs = 512 ∧ cr.Chunks = closedChunks 524800 512) ∧
    (closedChunks 524800 4194304).length = 1 ∧ (closedChunks 524800 512).length = 1025 :=
  have h := default_and_last_chunk_size (bytesReader []) 524800 256 512 (by decide) (by decide)
  ⟨⟨by decide, by decide⟩, h.1, h.2.1, h.2.2.2.1 (by decide) (by decide),
    h.2.2.2.2 (by decide) (by decide) (by decide) (by decide), by
      rw [closedChunks_length]; decide, by rw [closedChunks_length]; decide⟩

/-! ## Reading a section of a source that serves `B` -/

theorem take_drop_split (B : List Byte) (k m n : Nat) (hmn : m ≤ n) :
    (B.drop k).take n = (B.drop k).take m ++ (B.drop (k + m)).take (n - m) := by
  have h := List.take_add (B.drop k) m (n - m)
  rw [show m + (n - m) = n by omega, List.drop_drop] at h
  exact h

/-- One call of `Read` with a buffer of at least one byte on a well-formed section
reader over a source serving `B`: it returns normally, advancing the cursor by the
bytes delivered; either it reports end-of-file and has delivered all that was left
of the section, or it reports no error, has delivered at least one byte, and what
is left of the section follows. -/
theorem SectionReader.Read_serves (s : SectionReader) (B : List Byte) (plen : Nat)
    (hS : Serves s.r B) (hw : s.Wf) (hp : 1 ≤ plen) :
    ∃ bs er, s.Read plen = .ok ({ s with off := s.off + bs.length }, bs, er) ∧
      s.off + bs.length ≤ s.limit ∧
      ((er = some Error.EOF ∧ bs = s.rest B) ∨
       (er = none ∧ bs ≠ [] ∧
        s.rest B = bs ++ ({ s with off := s.off + bs.length } : SectionReader).rest B)) := by
  obtain ⟨hb0, hb1, hb2, hb3⟩ := hw
  have hmax : maxInt64 = 2 ^ 63 - 1 := rfl
  have hmin : minInt64 = -(2 ^ 63) := rfl
  unfold SectionReader.Read
  by_cases hge : s.off ≥ s.limit
  · refine ⟨[], some Error.EOF, ?_, ?_, Or.inl ⟨rfl, ?_⟩⟩
    · rw [if_pos hge]; simp
    · simpa using hb2
    · unfold SectionReader.rest
      rw [show (s.limit - s.off).toNat = 0 by omega]
      simp
  · rw [if_neg hge]
    have hsub : sub64 s.limit s.off = s.limit - s.off :=
      wrap64_of_range (by omega) (by omega)
    simp only [hsub]
    -- the number of bytes requested from the source
    have key : ∀ m : Nat, 1 ≤ m → (m : Int) ≤ s.limit - s.off →
        ∃ bs er, (Except.ok ({ s with off := add64 s.off (s.r.ReadAt m s.off).1.length },
            (s.r.ReadAt m s.off).1, (s.r.ReadAt m s.off).2) :
              Except Fault (SectionReader × List Byte × Option Error)) =
            .ok ({ s with off := s.off + bs.length }, bs, er) ∧
          s.off + bs.length ≤ s.limit ∧
          ((er = some Error.EOF ∧ bs = s.rest B) ∨
           (er = none ∧ bs ≠ [] ∧
            s.rest B = bs ++ ({ s with off := s.off + bs.length } : SectionReader).rest B)) := by
      intro m hm1 hm2
      obtain ⟨hbytes, hshort, hfull⟩ := hS m s.off (by omega)
      have hlen : (s.r.ReadAt m s.off).1.length ≤ m := by
        rw [hbytes, List.length_take]; exact Nat.min_le_left _ _
      have hadd : add64 s.off (s.r.ReadAt m s.off).1.length
          = s.off + (s.r.ReadAt m s.off).1.length :=
        wrap64_of_range (by omega) (by omega)
      refine ⟨(s.r.ReadAt m s.off).1, (s.r.ReadAt m s.off).2, by rw [hadd], by omega, ?_⟩
      have hn : m ≤ (s.limit - s.off).toNat := by omega
      by_cases hsh : (s.r.ReadAt m s.off).1.length < m
      · left
        refine ⟨hshort hsh, ?_⟩
        rw [hbytes, List.length_take] at hsh
        have hdl : (B.drop s.off.toNat).length < m := by omega
        unfold SectionReader.rest
        rw [hbytes, List.take_of_length_le (by omega), List.take_of_length_le (by omega)]
      · have hfl : (s.r.ReadAt m s.off).1.length = m := by omega
        have hsplit := take_drop_split B s.off.toNat m (s.limit - s.off).toNat hn
        rcases hfull hfl with hnone | ⟨heof, hend⟩
        · right
          refine ⟨hnone, ?_, ?_⟩
          · intro hnil
            rw [hnil] at hfl
            simp at hfl
            omega
          · have e1 : (s.off + (m : Int)).toNat = s.off.toNat + m := by omega
            have e2 : (s.limit - (s.off + (m : Int))).toNat = (s.limit - s.off).toNat - m := by
              omega
            unfold SectionReader.rest
            simp only [hfl, e1, e2]
            rw [hsplit, hbytes]
        · left
          refine ⟨heof, ?_⟩
          have h1 := hfl
          rw [hbytes, List.length_take] at h1
          have hdl : (B.drop s.off.toNat).length ≤ m := by
            rw [List.length_drop]; omega
          unfold SectionReader.rest
          rw [hbytes, List.take_of_length_le hdl, List.take_of_length_le (by omega)]
    by_cases hgt : (plen : Int) > s.limit - s.off
    · rw [if_pos hgt, if_neg (by omega)]
      exact key (s.limit - s.off).toNat (by omega) (by omega)
    · rw [if_neg hgt]
      exact key plen hp (by omega)

theorem SectionReader.Wf_advance (s : SectionReader) (k : Nat) (hw : s.Wf)
    (hk : s.off + k ≤ s.limit) : ({ s with off := s.off + k } : SectionReader).Wf := by
  obtain ⟨h0, h1, h2, h3⟩ := hw
  refine ⟨h0, ?_, hk, h3⟩
  show s.base ≤ s.off + k
  omega

theorem SectionReader.advance_advance (s : SectionReader) (a b : List Byte) :
    ({ ({ s with off := s.off + a.length } : SectionReader) with
        off := ({ s with off := s.off + a.length } : SectionReader).off + b.length }
      : SectionReader) = { s with off := s.off + (a ++ b).length } := by
  simp only [List.length_append, Nat.cast_add, add_assoc]

/-- The copy loop of `io.Copy` into a writer, on a well-formed section reader over
a source serving `B`: with fuel above the number of bytes left it returns without
error, the destination has absorbed exactly the rest of the section, and the
cursor stands after it. -/
theorem ioCopy_serves {σ : Type} (write : σ → List Byte → σ) (R : σ → List Byte → Prop)
    (hR : ∀ d bs cs, R d bs → R (write d cs) (bs ++ cs)) (B : List Byte) :
    ∀ (n fuel : Nat) (dst : σ) (s : SectionReader) (written : Int) (c : List Byte),
      Serves s.r B → s.Wf → (s.limit - s.off).toNat ≤ n → n < fuel → R dst c →
      ∃ dst1 w1, ioCopy write fuel dst s written =
          .ok (dst1, { s with off := s.off + (s.rest B).length }, w1, none) ∧
        R dst1 (c ++ s.rest B) := by
  intro n
  induction n with
  | zero =>
    intro fuel dst s written c hS hw hn hf hRd
    obtain ⟨fuel1, rfl⟩ : ∃ f, fuel = f + 1 := ⟨fuel - 1, by omega⟩
    obtain ⟨bs, er, hread, hle, hcase⟩ := s.Read_serves B (32 * 1024) hS hw (by decide)
    unfold ioCopy
    rw [hread]
    rcases hcase with ⟨rfl, hbs⟩ | ⟨_, hne, _⟩
    · subst hbs
      refine ⟨_, _, rfl, ?_⟩
      by_cases hl : (s.rest B).length > 0
      · simp only [hl, if_true]; exact hR _ _ _ hRd
      · have : s.rest B = [] := List.length_eq_zero.mp (by omega)
        simp only [this, List.length_nil, gt_iff_lt, lt_self_iff_false, if_false,
          List.append_nil]
        exact hRd
    · exfalso
      have : 0 < bs.length := List.length_pos.mpr hne
      omega
  | succ n ih =>
    intro fuel dst s written c hS hw hn hf hRd
    obtain ⟨fuel1, rfl⟩ : ∃ f, fuel = f + 1 := ⟨fuel - 1, by omega⟩
    obtain ⟨bs, er, hread, hle, hcase⟩ := s.Read_serves B (32 * 1024) hS hw (by decide)
    unfold ioCopy
    rw [hread]
    rcases hcase with ⟨rfl, hbs⟩ | ⟨rfl, hne, hrest⟩
    · subst hbs
      refine ⟨_, _, rfl, ?_⟩
      by_cases hl : (s.rest B).length > 0
      · simp only [hl, if_true]; exact hR _ _ _ hRd
      · have : s.rest B = [] := List.length_eq_zero.mp (by omega)
        simp only [this, List.length_nil, gt_iff_lt, lt_self_iff_false, if_false,
          List.append_nil]
        exact hRd
    · have hpos : 0 < bs.length := List.length_pos.mpr hne
      simp only [gt_iff_lt, hpos, if_true]
      obtain ⟨dst1, w1, hrun, hR1⟩ := ih fuel1 (write dst bs)
        { s with off := s.off + bs.length } (add64 written bs.length) (c ++ bs)
        hS (s.Wf_advance bs.length hw hle) (by simp only; omega) (by omega) (hR _ _ _ hRd)
      refine ⟨dst1, w1, ?_, ?_⟩
      · rw [hrun, SectionReader.advance_advance, hrest]
      · rw [hrest, ← List.append_assoc]; exact hR1

theorem SectionReader.rest_length_le (s : SectionReader) (B : List Byte) :
    (s.rest B).length ≤ (s.limit - s.off).toNat := by
  unfold SectionReader.rest
  rw [List.length_take]
  exact Nat.min_le_left _ _

/-- The loop of `bytes.Buffer.ReadFrom` on a well-formed section reader over a
source serving `B`: with fuel above the number of bytes left it returns without
error, the buffer has grown by exactly the rest of the section, and the cursor
stands after it. -/
theorem bufferReadFrom_serves (room : Nat → Nat) (hroom : ∀ k, 1 ≤ room k) (B : List Byte) :
    ∀ (n fuel : Nat) (buf : List Byte) (s : SectionReader),
      Serves s.r B → s.Wf → (s.limit - s.off).toNat ≤ n → n < fuel →
      bufferReadFrom room fuel buf s =
        .ok (buf ++ s.rest B, { s with off := s.off + (s.rest B).length }, none) := by
  intro n
  induction n with
  | zero =>
    intro fuel buf s hS hw hn hf
    obtain ⟨fuel1, rfl⟩ : ∃ f, fuel = f + 1 := ⟨fuel - 1, by omega⟩
    obtain ⟨bs, er, hread, hle, hcase⟩ := s.Read_serves B (room buf.length) hS hw (hroom _)
    unfold bufferReadFrom
    rw [hread]
    rcases hcase with ⟨rfl, hbs⟩ | ⟨_, hne, _⟩
    · subst hbs
      rfl
    · exfalso
      have : 0 < bs.length := List.length_pos.mpr hne
      omega
  | succ n ih =>
    intro fuel buf s hS hw hn hf
    obtain ⟨fuel1, rfl⟩ : ∃ f, fuel = f + 1 := ⟨fuel - 1, by omega⟩
    obtain ⟨bs, er, hread, hle, hcase⟩ := s.Read_serves B (room buf.length) hS hw (hroom _)
    unfold bufferReadFrom
    rw [hread]
    rcases hcase with ⟨rfl, hbs⟩ | ⟨rfl, hne, hrest⟩
    · subst hbs
      rfl
    · have hpos : 0 < bs.length := List.length_pos.mpr hne
      have hrun := ih fuel1 (buf ++ bs) { s with off := s.off + bs.length }
        hS (s.Wf_advance bs.length hw hle) (by simp only; omega) (by omega)
      simp only
      rw [hrun, SectionReader.advance_advance, hrest, List.append_assoc]

/-- Reading a bound chunk to the end over a source serving `B`: with a buffer of
at least one byte and fuel above the number of bytes left, the loop returns
without error, has read exactly the rest of the section, counted its length, and
left the cursor after it. -/
theorem readToEnd_serves (plen : Nat) (hp : 1 ≤ plen) (B : List Byte) :
    ∀ (n fuel : Nat) (c : Chunk) (s : SectionReader) (acc : List Byte) (cnt : Int),
      c.sr = some s → Serves s.r B → s.Wf → (s.limit - s.off).toNat ≤ n → n < fuel →
      0 ≤ cnt → cnt + (s.limit - s.off) ≤ maxInt64 →
      readToEnd plen fuel c acc cnt =
        .ok ({ c with sr := some { s with off := s.off + (s.rest B).length } },
          acc ++ s.rest B, cnt + (s.rest B).length, none) := by
  have hmax : maxInt64 = 2 ^ 63 - 1 := rfl
  have hmin : minInt64 = -(2 ^ 63) := rfl
  intro n
  induction n with
  | zero =>
    intro fuel c s acc cnt hc hS hw hn hf hc0 hc1
    obtain ⟨fuel1, rfl⟩ : ∃ f, fuel = f + 1 := ⟨fuel - 1, by omega⟩
    obtain ⟨bs, er, hread, hle, hcase⟩ := s.Read_serves B plen hS hw hp
    have hadd : add64 cnt bs.length = cnt + bs.length :=
      wrap64_of_range (by omega) (by omega)
    unfold readToEnd Chunk.Read
    simp only [hc, hread, hadd]
    rcases hcase with ⟨rfl, hbs⟩ | ⟨_, hne, _⟩
    · subst hbs
      rfl
    · exfalso
      have : 0 < bs.length := List.length_pos.mpr hne
      omega
  | succ n ih =>
    intro fuel c s acc cnt hc hS hw hn hf hc0 hc1
    obtain ⟨fuel1, rfl⟩ : ∃ f, fuel = f + 1 := ⟨fuel - 1, by omega⟩
    obtain ⟨bs, er, hread, hle, hcase⟩ := s.Read_serves B plen hS hw hp
    have hadd : add64 cnt bs.length = cnt + bs.length :=
      wrap64_of_range (by omega) (by omega)
    unfold readToEnd Chunk.Read
    simp only [hc, hread, hadd]
    rcases hcase with ⟨rfl, hbs⟩ | ⟨rfl, hne, hrest⟩
    · subst hbs
      rfl
    · have hpos : 0 < bs.length := List.length_pos.mpr hne
      have hrun := ih fuel1 { c with sr := some { s with off := s.off + bs.length } }
        { s with off := s.off + bs.length } (acc ++ bs) (cnt + bs.length) rfl
        hS (s.Wf_advance bs.length hw hle) (by simp only; omega) (by omega) (by omega)
        (by simp only; omega)
      rw [hrun, SectionReader.advance_advance, hrest, List.append_assoc]
      simp only [List.length_append, Nat.cast_add, add_assoc]

/-! ## Sources, hashes and fresh section readers -/

theorem bytesReader_serves (B : List Byte) : Serves (bytesReader B) B := by
  intro n off hoff
  unfold bytesReader
  simp only [if_neg (not_lt.mpr hoff)]
  by_cases hge : off ≥ (B.length : Int)
  · simp only [if_pos hge]
    have hdrop : B.drop off.toNat = [] := List.drop_eq_nil_of_le (by omega)
    refine ⟨?_, ?_, ?_⟩
    · rw [hdrop, List.take_nil]
    · intro _; trivial
    · intro _; right; exact ⟨trivial, by omega⟩
  · simp only [if_neg hge]
    refine ⟨?_, ?_, ?_⟩
    · trivial
    · intro h; rw [if_pos h]
    · intro h; left; rw [if_neg (by omega)]

theorem fnv32a_lawful : Lawful fnv32a := by
  refine ⟨fun s bs => s = fnv32a.Write fnv32a.New bs, rfl, fun _ => rfl, ?_, ?_⟩
  · intro s bs cs hs
    rw [hs]
    simp only [fnv32a, List.foldl_append]
  · intro s t bs hs ht b
    rw [hs, ht]

theorem NewSectionReader_eq (r : ReaderAt) (off n : Int)
    (h0 : 0 ≤ off) (hn : 0 ≤ n) (h : off + n ≤ maxInt64) :
    NewSectionReader r off n =
      { r := r, base := off, off := off, limit := off + n, n := n } := by
  have hmax : maxInt64 = 2 ^ 63 - 1 := rfl
  have hmin : minInt64 = -(2 ^ 63) := rfl
  have hsub : sub64 maxInt64 n = maxInt64 - n := wrap64_of_range (by omega) (by omega)
  have hadd : add64 n off = off + n := by
    unfold add64
    rw [wrap64_of_range (by omega) (by omega)]
    omega
  unfold NewSectionReader
  simp only [hsub, hadd]
  rw [if_pos (by omega)]

theorem NewSectionReader_wf (r : ReaderAt) (off n : Int)
    (h0 : 0 ≤ off) (hn : 0 ≤ n) (h : off + n ≤ maxInt64) :
    (NewSectionReader r off n).Wf := by
  rw [NewSectionReader_eq r off n h0 hn h]
  exact ⟨h0, le_refl _, by show off ≤ off + n; omega, h⟩

theorem NewSectionReader_rest (r : ReaderAt) (off n : Int) (B : List Byte)
    (h0 : 0 ≤ off) (hn : 0 ≤ n) (h : off + n ≤ maxInt64) :
    (NewSectionReader r off n).rest B = (B.drop off.toNat).take n.toNat := by
  rw [NewSectionReader_eq r off n h0 hn h]
  unfold SectionReader.rest
  simp only [add_sub_cancel_left]

/-- The call `Seek(0, 0)` of a well-formed section reader puts the cursor back
at the start of the section, wherever it was. -/
theorem SectionReader.Seek_start (s : SectionReader) (k : Int) (hw : s.Wf) :
    (({ s with off := k } : SectionReader).Seek 0 0).1 = { s with off := s.base } := by
  obtain ⟨h0, _, h2, h3⟩ := hw
  have hmax : maxInt64 = 2 ^ 63 - 1 := rfl
  have hmin : minInt64 = -(2 ^ 63) := rfl
  have hadd : add64 0 s.base = s.base := by
    unfold add64
    rw [zero_add]
    exact wrap64_of_range (by omega) (by omega)
  unfold SectionReader.Seek
  simp [hadd]

/-! ## `Hash` and `Data` from any cursor position -/

/-- What `Hash` does from any cursor position, on a bound chunk over a source
serving `B`: it returns the digest of the bytes from the cursor to the end of
the section, and leaves the cursor at the start of the section. -/
theorem Chunk.Hash_serves (c : Chunk) (s : SectionReader) (B : List Byte) (H : HashAlg)
    (h0 : H.State) (fuel : Nat) (hsr : c.sr = some s) (hS : Serves s.r B) (hw : s.Wf)
    (hH : Lawful H) (hfuel : (s.limit - s.off).toNat < fuel) :
    ∃ h1, c.Hash H h0 fuel =
      .ok ({ c with sr := some { s with off := s.base } }, h1,
        H.Sum (H.Write H.New (s.rest B)) []) := by
  obtain ⟨R, hnew, hreset, hwrite, hsum⟩ := hH
  obtain ⟨dst1, w1, hrun, hR1⟩ := ioCopy_serves H.Write R hwrite B
    (s.limit - s.off).toNat fuel (H.Reset h0) s 0 [] hS hw (le_refl _) hfuel (hreset h0)
  refine ⟨dst1, ?_⟩
  unfold Chunk.Hash
  simp only [hsr, hrun]
  rw [s.Seek_start _ hw]
  have : H.Sum dst1 [] = H.Sum (H.Write H.New (s.rest B)) [] :=
    hsum _ _ _ hR1 (hwrite _ _ _ hnew) []
  rw [this]

/-- What `Data` does from any cursor position, on a bound chunk over a source
serving `B`: it returns the bytes from the cursor to the end of the section, and
leaves the cursor at the start of the section. -/
theorem Chunk.Data_serves (c : Chunk) (s : SectionReader) (B : List Byte) (room : Nat → Nat)
    (fuel : Nat) (hsr : c.sr = some s) (hS : Serves s.r B) (hw : s.Wf)
    (hroom : ∀ k, 1 ≤ room k) (hfuel : (s.limit - s.off).toNat < fuel) :
    c.Data room fuel = .ok ({ c with sr := some { s with off := s.base } }, s.rest B) := by
  have hrun := bufferReadFrom_serves room hroom B (s.limit - s.off).toNat fuel [] s hS hw
    (le_refl _) hfuel
  unfold Chunk.Data
  simp only [hsr, hrun]
  rw [s.Seek_start _ hw]
  simp

/-- A chunk bound to its section of the source, as `Chop` binds it (and as
`TestChunk_Hash` builds it), is left unchanged by rewinding. -/
theorem Chunk.rewound_eq (c : Chunk) (src : ReaderAt)
    (hsr : c.sr = some (NewSectionReader src c.offset c.size)) :
    ({ c with sr := some { NewSectionReader src c.offset c.size with
        off := (NewSectionReader src c.offset c.size).base } } : Chunk) = c := by
  cases c with
  | mk offset size sr index =>
    simp only at hsr
    subst hsr
    rfl

/-- C8: for a chunk bound to `[offset, offset + size)` of a source serving `B`,
with its cursor at the start of the range, and an accumulator of a lawful hash
algorithm in any prior state, `Hash` returns (given fuel above `size`) exactly the
digest that a new accumulator of the algorithm produces for the bytes
`B[offset, offset + size)`; the chunk is left as it was. -/
theorem hash_digest_of_range (src : ReaderAt) (B : List Byte) (H : HashAlg) (h0 : H.State)
    (c : Chunk) (fuel : Nat) (hS : Serves src B) (hH : Lawful H)
    (hoff : 0 ≤ c.offset) (hsize : 0 ≤ c.size) (hfit : c.offset + c.size ≤ maxInt64)
    (hsr : c.sr = some (NewSectionReader src c.offset c.size))
    (hfuel : c.size.toNat < fuel) :
    ∃ h1, c.Hash H h0 fuel =
      .ok (c, h1, H.Sum (H.Write H.New ((B.drop c.offset.toNat).take c.size.toNat)) []) := by
  have hw := NewSectionReader_wf src c.offset c.size hoff hsize hfit
  have hr := NewSectionReader_rest src c.offset c.size B hoff hsize hfit
  have hrem : ((NewSectionReader src c.offset c.size).limit
      - (NewSectionReader src c.offset c.size).off).toNat < fuel := by
    rw [NewSectionReader_eq src c.offset c.size hoff hsize hfit]
    simp only [add_sub_cancel_left]
    exact hfuel
  have hSs : Serves (NewSectionReader src c.offset c.size).r B := hS
  obtain ⟨h1, hrun⟩ := c.Hash_serves _ B H h0 fuel hsr hSs hw hH hrem
  refine ⟨h1, ?_⟩
  rw [hrun, hr, c.rewound_eq src hsr]

/-- Instance of `hash_digest_of_range`: a 64-byte chunk over `bytes.Reader`,
hashed with FNV-1a by an accumulator that had absorbed other data. -/
theorem hash_digest_of_range_witness :
    ∃ h1, sampleChunk.Hash fnv32a (fnv32a.Write fnv32a.New [1, 2, 3]) 65 =
      .ok (sampleChunk, h1,
        fnv32a.Sum (fnv32a.Write fnv32a.New
          ((sample64.drop sampleChunk.offset.toNat).take sampleChunk.size.toNat)) []) :=
  hash_digest_of_range (bytesReader sample64) sample64 fnv32a
    (fnv32a.Write fnv32a.New [1, 2, 3]) sampleChunk 65 (bytesReader_serves sample64)
    fnv32a_lawful (by decide) (by decide) (by decide) rfl (by decide)

/-! ## Reading all chunks of a tiling -/

theorem readAllChunks_tiles (src : ReaderAt) (B : List Byte) (plen fuel : Nat)
    (hS : Serves src B) (hp : 1 ≤ plen) :
    ∀ (l : List Chunk) (start total : Int) (acc : List Byte) (n : Int) (errs : List Error),
      TilesFrom start l total → 0 ≤ start → total ≤ (B.length : Int) → total ≤ maxInt64 →
      (∀ c ∈ l, c.size.toNat < fuel) → 0 ≤ n → n + (total - start) ≤ maxInt64 →
      readAllChunks plen fuel
          (l.map fun ch => { ch with sr := some (NewSectionReader src ch.offset ch.size) })
          acc n errs =
        .ok (acc ++ (B.drop start.toNat).take (total - start).toNat, n + (total - start),
          errs) := by
  have hmax : maxInt64 = 2 ^ 63 - 1 := rfl
  have hmin : minInt64 = -(2 ^ 63) := rfl
  intro l
  induction l with
  | nil =>
    intro start total acc n errs ht _ _ _ _ _ _
    simp only [TilesFrom] at ht
    subst ht
    simp [readAllChunks]
  | cons c rest ih =>
    intro start total acc n errs ht hs0 htB htm hfuel hn0 hn1
    obtain ⟨hoff, hpos, hrest⟩ := ht
    have hle := hrest.start_le
    have hfit : c.offset + c.size ≤ maxInt64 := by omega
    have hw := NewSectionReader_wf src c.offset c.size (by omega) (by omega) hfit
    have hr := NewSectionReader_rest src c.offset c.size B (by omega) (by omega) hfit
    have heq := NewSectionReader_eq src c.offset c.size (by omega) (by omega) hfit
    have hSs : Serves (NewSectionReader src c.offset c.size).r B := hS
    have hcf : c.size.toNat < fuel := hfuel c (List.mem_cons_self _ _)
    have hrun := readToEnd_serves plen hp B c.size.toNat fuel
      { c with sr := some (NewSectionReader src c.offset c.size) }
      (NewSectionReader src c.offset c.size) [] 0 rfl hSs hw
      (by rw [heq]; simp only [add_sub_cancel_left]; exact le_refl _) hcf (le_refl _)
      (by rw [heq]; simp only [add_sub_cancel_left]; omega)
    have hlen : ((B.drop c.offset.toNat).take c.size.toNat).length = c.size.toNat := by
      rw [List.length_take, List.length_drop]
      omega
    rw [hr] at hrun
    simp only [List.map_cons, readAllChunks, hrun, List.nil_append, hlen, zero_add,
      Option.toList_none, List.append_nil]
    have hcast : ((c.size.toNat : Nat) : Int) = c.size := Int.toNat_of_nonneg (by omega)
    have hadd : add64 n (c.size.toNat : Int) = n + c.size := by
      rw [hcast]
      exact wrap64_of_range (by omega) (by omega)
    rw [hadd]
    rw [ih (start + c.size) total _ (n + c.size) errs hrest (by omega) htB htm
      (fun d hd => hfuel d (List.mem_cons_of_mem _ hd)) (by omega) (by omega)]
    have hsplit := take_drop_split B start.toNat c.size.toNat (total - start).toNat (by omega)
    have e1 : (start + c.size).toNat = start.toNat + c.size.toNat := by omega
    have e2 : (total - (start + c.size)).toNat = (total - start).toNat - c.size.toNat := by
      omega
    rw [hoff, e1, e2, hsplit, List.append_assoc,
      show n + c.size + (total - (start + c.size)) = n + (total - start) by omega]

theorem closedChunks_size_le {size cs : Int} (h1 : 1 ≤ cs) :
    ∀ c ∈ closedChunks size cs, c.size ≤ cs := by
  intro c hc
  simp only [closedChunks, List.mem_map, List.mem_range] at hc
  obtain ⟨i, _, rfl⟩ := hc
  have hr1 : size % cs < cs := Int.emod_lt_of_pos _ (by omega)
  simp only
  split_ifs <;> omega

/-- Chop and read: for a source serving `B`, `1 ≤ cs ≤ 2^63 - 1`,
`len(B) + cs - 1 ≤ 2^63 - 1` and a chunk count within the allocator limit
(`count * 32 ≤ maxAlloc`), `NewConcurrentReader` returns a reader, and reading
every chunk returned by `Chop` to the end (buffer of at least one byte, fuel
above `cs`), in index order, yields exactly `B`, counts `len(B)` bytes and meets
no error. -/
theorem chop_read_all (src : ReaderAt) (B : List Byte) (cs : Int) (plen fuel : Nat)
    (hS : Serves src B) (h1 : 1 ≤ cs) (hc : cs ≤ maxInt64)
    (h2 : (B.length : Int) + cs - 1 ≤ maxInt64)
    (h3 : ((B.length : Int) + cs - 1) / cs * sizeofChunk ≤ maxAlloc)
    (hp : 1 ≤ plen) (hfuel : cs.toNat < fuel) :
    ∃ cr, NewConcurrentReader src (B.length : Int) [WithChunkSize cs] = .ok (some cr, none) ∧
      readAllChunks plen fuel cr.Chop.2 [] 0 [] = .ok (B, (B.length : Int), []) := by
  have hmax : maxInt64 = 2 ^ 63 - 1 := rfl
  have h0 : (0 : Int) ≤ (B.length : Int) := Int.natCast_nonneg _
  refine ⟨_, NewConcurrentReader_closed src B.length cs h0 h1 hc h2 h3, ?_⟩
  have ht := closedChunks_tiles h0 h1
  have hrun := readAllChunks_tiles src B plen fuel hS hp (closedChunks B.length cs) 0 B.length
    [] 0 [] ht (le_refl _) (le_refl _) (by omega)
    (fun c hcm => by
      have := closedChunks_size_le h1 c hcm
      omega)
    (le_refl _) (by omega)
  simp only [ConcurrentReader.Chop]
  rw [hrun]
  simp

/-- Instance of `chop_read_all`: the 524800-byte file of the test, chunk size
256, the 8 KiB buffer of `ioutil.Discard`. -/
theorem chop_read_all_witness :
    ∃ cr, NewConcurrentReader (bytesReader sampleFile) (sampleFile.length : Int)
        [WithChunkSize 256] = .ok (some cr, none) ∧
      readAllChunks 8192 257 cr.Chop.2 [] 0 [] =
        .ok (sampleFile, (sampleFile.length : Int), []) :=
  chop_read_all (bytesReader sampleFile) sampleFile 256 8192 257
    (bytesReader_serves sampleFile) (by decide) (by decide)
    (by rw [sampleFile, List.length_replicate]; decide)
    (by rw [sampleFile, List.length_replicate]; decide) (by decide) (by decide)

/-- C7 (code defect, overflow of `size + cs - 1`): for a source of the three
bytes `1, 2, 3` and `cs = 2^63 - 1`, the computed count is `-1` and
`NewConcurrentReader` panics in `make`, so `Chop` is never reached and no chunk
can be read; a single chunk holding the three bytes was due. -/
theorem C7_overflow_no_chunks_to_read :
    div64 (sub64 (add64 3 maxInt64) 1) maxInt64 = .ok (-1) ∧
    NewConcurrentReader (bytesReader [1, 2, 3]) 3 [WithChunkSize maxInt64] =
      .error (.panic "makeslice: len out of range") ∧
    ⌈((3 : Int) : ℚ) / ((maxInt64 : Int) : ℚ)⌉ = 1 := by
  refine ⟨rfl, rfl, ?_⟩
  rw [← count_eq_ceil (by decide)]
  decide

/-! ## Repeating `Hash` and `Data` -/

/-- Hash and Data on a chunk with its cursor at the start: for a chunk bound to
`[offset, offset + size)` of a source serving `B`, `Data` returns the bytes
`B[offset, offset + size)`, `Hash` returns their digest, and each leaves the chunk
exactly as it was, so that calling `Hash` twice (the second time on the
accumulator the first call left) gives the same digest, calling `Data` twice gives
the same bytes, and either one after the other sees the full range. -/
theorem hash_data_repeatable (src : ReaderAt) (B : List Byte) (H : HashAlg) (h0 : H.State)
    (c : Chunk) (room : Nat → Nat) (fuel : Nat) (hS : Serves src B) (hH : Lawful H)
    (hroom : ∀ k, 1 ≤ room k)
    (hoff : 0 ≤ c.offset) (hsize : 0 ≤ c.size) (hfit : c.offset + c.size ≤ maxInt64)
    (hsr : c.sr = some (NewSectionReader src c.offset c.size))
    (hfuel : c.size.toNat < fuel) :
    ∃ h1 h2,
      c.Hash H h0 fuel = .ok (c, h1,
        H.Sum (H.Write H.New ((B.drop c.offset.toNat).take c.size.toNat)) []) ∧
      c.Hash H h1 fuel = .ok (c, h2,
        H.Sum (H.Write H.New ((B.drop c.offset.toNat).take c.size.toNat)) []) ∧
      c.Data room fuel = .ok (c, (B.drop c.offset.toNat).take c.size.toNat) := by
  have hw := NewSectionReader_wf src c.offset c.size hoff hsize hfit
  have hr := NewSectionReader_rest src c.offset c.size B hoff hsize hfit
  have hrem : ((NewSectionReader src c.offset c.size).limit
      - (NewSectionReader src c.offset c.size).off).toNat < fuel := by
    rw [NewSectionReader_eq src c.offset c.size hoff hsize hfit]
    simp only [add_sub_cancel_left]
    exact hfuel
  have hSs : Serves (NewSectionReader src c.offset c.size).r B := hS
  obtain ⟨h1, hrun1⟩ := c.Hash_serves _ B H h0 fuel hsr hSs hw hH hrem
  obtain ⟨h2, hrun2⟩ := c.Hash_serves _ B H h1 fuel hsr hSs hw hH hrem
  rw [hr, c.rewound_eq src hsr] at hrun1 hrun2
  refine ⟨h1, h2, hrun1, hrun2, ?_⟩
  rw [c.Data_serves _ B room fuel hsr hSs hw hroom hrem, hr, c.rewound_eq src hsr]

/-- Instance of `hash_data_repeatable`: the 64-byte chunk of `TestChunk_Hash`
with FNV-1a. -/
theorem hash_data_repeatable_witness :
    ∃ h1 h2,
      sampleChunk.Hash fnv32a fnv32a.New 65 = .ok (sampleChunk, h1,
        fnv32a.Sum (fnv32a.Write fnv32a.New
          ((sample64.drop sampleChunk.offset.toNat).take sampleChunk.size.toNat)) []) ∧
      sampleChunk.Hash fnv32a h1 65 = .ok (sampleChunk, h2,
        fnv32a.Sum (fnv32a.Write fnv32a.New
          ((sample64.drop sampleChunk.offset.toNat).take sampleChunk.size.toNat)) []) ∧
      sampleChunk.Data (fun _ => 512) 65 =
        .ok (sampleChunk, (sample64.drop sampleChunk.offset.toNat).take sampleChunk.size.toNat) :=
  hash_data_repeatable (bytesReader sample64) sample64 fnv32a fnv32a.New sampleChunk
    (fun _ => 512) 65 (bytesReader_serves sample64) fnv32a_lawful (fun _ => Nat.le_of_ble_eq_true rfl)
    (by decide) (by decide) (by decide) rfl (by decide)

/-- C9 (code defect, `Hash` and `Data` do not seek to the start before copying):
on the chunk bound to the bytes `10, 20, 30`, after one `Read` of one byte, two
calls of `Data` in succession return `[20, 30]` and then `[10, 20, 30]`, and two
calls of `Hash` in succession (FNV-1a) return the digest of `[20, 30]` and then
the digest of `[10, 20, 30]`, which differ. -/
theorem C9_twice_in_succession_differ :
    ∃ c1 c2 c3 c4 h1 h2,
      chunk102030.Read 1 = .ok (c1, [10], none) ∧
      c1.Data (fun _ => 512) 4 = .ok (c2, [20, 30]) ∧
      c2.Data (fun _ => 512) 4 = .ok (c3, [10, 20, 30]) ∧
      c1.Hash fnv32a fnv32a.New 4 =
        .ok (c3, h1, fnv32a.Sum (fnv32a.Write fnv32a.New [20, 30]) []) ∧
      c3.Hash fnv32a h1 4 =
        .ok (c4, h2, fnv32a.Sum (fnv32a.Write fnv32a.New [10, 20, 30]) []) ∧
      fnv32a.Sum (fnv32a.Write fnv32a.New [20, 30]) [] ≠
        fnv32a.Sum (fnv32a.Write fnv32a.New [10, 20, 30]) [] :=
  ⟨_, _, _, _, _, _, rfl, rfl, rfl, rfl, rfl, by decide⟩

/-- C10 (code defect, `Hash` and `Data` do not seek to the start before copying):
on the chunk bound to the bytes `1, 2, 3, 4`, after one `Read` of two bytes,
`Data` returns `[3, 4]` and `Hash` (FNV-1a) returns the digest of `[3, 4]`, while
on the chunk that was never read `Data` returns `[1, 2, 3, 4]` and `Hash` the
digest of `[1, 2, 3, 4]`, a different one. -/
theorem C10_after_read_only_the_tail :
    ∃ c1 c2 h1 h2,
      chunk1234.Read 2 = .ok (c1, [1, 2], none) ∧
      c1.Data (fun _ => 512) 5 = .ok (c2, [3, 4]) ∧
      chunk1234.Data (fun _ => 512) 5 = .ok (c2, [1, 2, 3, 4]) ∧
      c1.Hash fnv32a fnv32a.New 5 =
        .ok (c2, h1, fnv32a.Sum (fnv32a.Write fnv32a.New [3, 4]) []) ∧
      chunk1234.Hash fnv32a fnv32a.New 5 =
        .ok (c2, h2, fnv32a.Sum (fnv32a.Write fnv32a.New [1, 2, 3, 4]) []) ∧
      fnv32a.Sum (fnv32a.Write fnv32a.New [3, 4]) [] ≠
        fnv32a.Sum (fnv32a.Write fnv32a.New [1, 2, 3, 4]) [] :=
  ⟨_, _, _, _, rfl, rfl, rfl, rfl, rfl, by decide⟩

/-- Hash and Data from any cursor position: on a chunk bound to a well-formed
section reader `s` of a source serving `B`, wherever the cursor stands, `Data`
returns the bytes from the cursor to the end of the section and `Hash` returns
their digest (given fuel above their number), and each leaves the cursor at the
start of the section. -/
theorem hash_data_from_cursor (c : Chunk) (s : SectionReader) (B : List Byte) (H : HashAlg)
    (h0 : H.State) (room : Nat → Nat) (fuel : Nat) (hsr : c.sr = some s)
    (hS : Serves s.r B) (hw : s.Wf) (hH : Lawful H) (hroom : ∀ k, 1 ≤ room k)
    (hfuel : (s.limit - s.off).toNat < fuel) :
    (∃ h1, c.Hash H h0 fuel =
      .ok ({ c with sr := some { s with off := s.base } }, h1,
        H.Sum (H.Write H.New ((B.drop s.off.toNat).take (s.limit - s.off).toNat)) [])) ∧
    c.Data room fuel =
      .ok ({ c with sr := some { s with off := s.base } },
        (B.drop s.off.toNat).take (s.limit - s.off).toNat) :=
  ⟨c.Hash_serves s B H h0 fuel hsr hS hw hH hfuel,
   c.Data_serves s B room fuel hsr hS hw hroom hfuel⟩

/-- Instance of `hash_data_from_cursor`: the chunk over `1, 2, 3, 4` with its
cursor after the second byte. -/
theorem hash_data_from_cursor_witness :
    (∃ h1, Chunk.Hash { chunk1234 with sr := some section1234At2 } fnv32a fnv32a.New 5 =
      .ok ({ { chunk1234 with sr := some section1234At2 } with
              sr := some { section1234At2 with off := section1234At2.base } }, h1,
        fnv32a.Sum (fnv32a.Write fnv32a.New
          (([1, 2, 3, 4] : List Byte).drop section1234At2.off.toNat |>.take
            (section1234At2.limit - section1234At2.off).toNat)) [])) ∧
    Chunk.Data { chunk1234 with sr := some section1234At2 } (fun _ => 512) 5 =
      .ok ({ { chunk1234 with sr := some section1234At2 } with
              sr := some { section1234At2 with off := section1234At2.base } },
        ([1, 2, 3, 4] : List Byte).drop section1234At2.off.toNat |>.take
          (section1234At2.limit - section1234At2.off).toNat) :=
  hash_data_from_cursor { chunk1234 with sr := some section1234At2 } section1234At2
    [1, 2, 3, 4] fnv32a fnv32a.New (fun _ => 512) 5 rfl (bytesReader_serves [1, 2, 3, 4])
    ⟨by decide, by decide, by decide, by decide⟩ fnv32a_lawful
    (fun _ => Nat.le_of_ble_eq_true rfl) (by decide)

theorem tdiv_neg_num_bounds {a b : Int} (ha : a ≤ 0) (hb : 0 < b) :
    a ≤ Int.tdiv a b ∧ Int.tdiv a b ≤ 0 := by
  obtain ⟨n, rfl⟩ := Int.exists_eq_neg_ofNat ha
  rw [Int.neg_tdiv, tdiv_eq_of_nonneg (Int.natCast_nonneg n) hb.le]
  have h1 : (0 : Int) ≤ (n : Int) / b := Int.ediv_nonneg (Int.natCast_nonneg n) hb.le
  have h2 : (n : Int) / b ≤ n := Int.ediv_le_self _ (Int.natCast_nonneg n)
  omega

/-- Without overflow, a chunk list beyond the allocator limit makes `make`
panic. -/
theorem NewConcurrentReader_makeslice (inp : ReaderAt) (size cs : Int)
    (h0 : 0 ≤ size) (h1 : 1 ≤ cs) (hc : cs ≤ maxInt64) (h2 : size + cs - 1 ≤ maxInt64)
    (h3 : maxAlloc < (size + cs - 1) / cs * sizeofChunk) :
    NewConcurrentReader inp size [WithChunkSize cs] =
      .error (.panic "makeslice: len out of range") := by
  have hmax : maxInt64 = 2 ^ 63 - 1 := rfl
  have hmin : minInt64 = -(2 ^ 63) := rfl
  have hcs : wrap64 cs = cs := wrap64_of_range (by omega) (by omega)
  have hsub : sub64 (add64 size cs) 1 = size + cs - 1 := by
    simp only [sub64, add64, wrap64]
    omega
  have hq0 := count_nonneg h0 h1
  have hq1 := count_le h0 h1
  have hdiv : div64 (size + cs - 1) cs = .ok ((size + cs - 1) / cs) := by
    unfold div64
    rw [if_neg (by omega), tdiv_eq_of_nonneg (by omega) (by omega),
      wrap64_of_range (by omega) (by omega)]
  unfold NewConcurrentReader
  rw [if_neg (by omega)]
  simp only [applyOpts, WithChunkSize, initialReader, buildChunks, if_neg (not_lt.mpr h1), hcs,
    hsub, hdiv, bind, Except.bind]
  rw [if_pos (Or.inr h3)]

/-- When `size + cs - 1` leaves the `int64` range, a reader is returned only
with an empty chunk list. -/
theorem NewConcurrentReader_overflow_nil (inp : ReaderAt) (size cs : Int) (cr : ConcurrentReader)
    (h0 : 0 ≤ size) (hs : size ≤ maxInt64) (h1 : 1 ≤ cs) (hc : cs ≤ maxInt64)
    (hov : maxInt64 < size + cs - 1)
    (h : NewConcurrentReader inp size [WithChunkSize cs] = .ok (some cr, none)) :
    cr.r = inp ∧ cr.cs = cs ∧ cr.Chunks = [] := by
  have hmax : maxInt64 = 2 ^ 63 - 1 := rfl
  have hmin : minInt64 = -(2 ^ 63) := rfl
  have hcs : wrap64 cs = cs := wrap64_of_range (by omega) (by omega)
  have hsub : sub64 (add64 size cs) 1 = size + cs - 1 - 2 ^ 64 := by
    simp only [sub64, add64, wrap64]
    omega
  obtain ⟨hq1, hq2⟩ := tdiv_neg_num_bounds (show size + cs - 1 - 2 ^ 64 ≤ 0 by omega)
    (show 0 < cs by omega)
  have hdiv : div64 (size + cs - 1 - 2 ^ 64) cs = .ok (Int.tdiv (size + cs - 1 - 2 ^ 64) cs) := by
    unfold div64
    rw [if_neg (by omega), wrap64_of_range (by omega) (by omega)]
  unfold NewConcurrentReader at h
  rw [if_neg (by omega)] at h
  simp only [applyOpts, WithChunkSize, initialReader, buildChunks, if_neg (not_lt.mpr h1), hcs,
    hsub, hdiv, bind, Except.bind, pure, Except.pure] at h
  by_cases hneg : Int.tdiv (size + cs - 1 - 2 ^ 64) cs < 0
  · rw [if_pos (Or.inl hneg)] at h
    cases h
  · have hz : Int.tdiv (size + cs - 1 - 2 ^ 64) cs = 0 := by omega
    rw [hz] at h
    rw [if_neg (show ¬ ((0 : Int) < 0 ∨ (0 : Int) * sizeofChunk > maxAlloc) by decide)] at h
    have hfill : fillChunks (0 : Int).toNat cs = [] := rfl
    rw [hfill] at h
    cases hr : rem64 size cs with
    | error f => rw [hr] at h; cases h
    | ok rem =>
      rw [hr] at h
      simp only at h
      by_cases hrem : rem ≠ 0
      · rw [if_pos hrem] at h
        have : setLastSize [] rem = .error (.panic "index out of range [-1]") := rfl
        rw [this] at h
        cases h
      · rw [if_neg hrem] at h
        simp only [Except.ok.injEq, Prod.mk.injEq, Option.some.injEq, and_true] at h
        subst h
        exact ⟨rfl, rfl, rfl⟩

/-- The chunks of any reader that `NewConcurrentReader` returns for a list of
`WithChunkSize` options: the reader holds the source, a chunk size of at least 1,
and chunks without a bound section reader that are non-empty and lie inside
`[0, size)`. -/
theorem NewConcurrentReader_ok_chunks (inp : ReaderAt) (size : Int) (ns : List Int)
    (cr : ConcurrentReader) (hs : size ≤ maxInt64) (hns : ∀ n ∈ ns, n ≤ maxInt64)
    (h : NewConcurrentReader inp size (ns.map WithChunkSize) = .ok (some cr, none)) :
    cr.r = inp ∧ 0 ≤ size ∧ 1 ≤ cr.cs ∧
      ∀ c ∈ cr.Chunks, c.sr = none ∧ 0 ≤ c.offset ∧ 0 < c.size ∧ c.offset + c.size ≤ size := by
  have hmax : maxInt64 = 2 ^ 63 - 1 := rfl
  have h0 : 0 ≤ size := by
    by_contra hneg
    unfold NewConcurrentReader at h
    rw [if_pos (by omega)] at h
    cases h
  -- no option fails
  have hvalid : ∀ n ∈ ns, 1 ≤ n := by
    by_contra hcon
    push_neg at hcon
    obtain ⟨n, hn, hlt⟩ := hcon
    have := (NewConcurrentReader_error_iff inp size (ns.map WithChunkSize)).mpr
      (Or.inr ((applyOpts_withChunkSize_error_iff ns (initialReader inp)).mpr ⟨n, hn, hlt⟩))
    obtain ⟨r, e, he⟩ := this
    rw [he] at h
    cases h
  -- reduce to a single option
  obtain ⟨cs, hcs1, hcs2, hone⟩ : ∃ cs, 1 ≤ cs ∧ cs ≤ maxInt64 ∧
      NewConcurrentReader inp size [WithChunkSize cs] = .ok (some cr, none) := by
    rcases List.eq_nil_or_concat ns with rfl | ⟨pre, b, rfl⟩
    · refine ⟨4194304, by decide, by decide, ?_⟩
      rw [← h]
      rfl
    · have hb1 : 1 ≤ b := hvalid b (by simp)
      have hb2 : b ≤ maxInt64 := hns b (by simp)
      refine ⟨b, hb1, hb2, ?_⟩
      rw [← h, List.concat_eq_append]
      exact (NewConcurrentReader_valid_opts inp size pre b
        (fun n hn => hvalid n (by simp [hn])) hb1).symm
  by_cases hov : size + cs - 1 ≤ maxInt64
  · have hal : (size + cs - 1) / cs * sizeofChunk ≤ maxAlloc := by
      by_contra hbig
      rw [NewConcurrentReader_makeslice inp size cs h0 hcs1 hcs2 hov (not_le.mp hbig)] at hone
      cases hone
    rw [NewConcurrentReader_closed inp size cs h0 hcs1 hcs2 hov hal] at hone
    simp only [Except.ok.injEq, Prod.mk.injEq, Option.some.injEq, and_true] at hone
    subst hone
    refine ⟨rfl, h0, hcs1, ?_⟩
    intro c hc
    have ht := closedChunks_tiles h0 hcs1
    have hb := ht.le_offset c hc
    have hmem := hc
    simp only [closedChunks, List.mem_map, List.mem_range] at hmem
    obtain ⟨i, _, rfl⟩ := hmem
    have hr0 : 0 ≤ size % cs := Int.emod_nonneg _ (by omega)
    simp only at hb ⊢
    refine ⟨trivial, hb.1, ?_, hb.2⟩
    split_ifs <;> omega
  · obtain ⟨hr, hc, hnil⟩ := NewConcurrentReader_overflow_nil inp size cs cr h0 hs hcs1 hcs2
      (by omega) hone
    refine ⟨hr, h0, by omega, ?_⟩
    rw [hnil]
    intro c hc
    cases hc

theorem closedChunks_zero (cs : Int) (h1 : 1 ≤ cs) : closedChunks 0 cs = [] := by
  have : (0 + cs - 1) / cs = 0 := Int.ediv_eq_zero_of_lt (by omega) (by omega)
  unfold closedChunks
  simp only [this]
  rfl

/-- C16: for `totalSize = 0` and every chunk size `1 ≤ cs ≤ 2^63 - 1`, and also
with no option (default chunk size), `NewConcurrentReader` returns a reader and
no error, the reader's chunk list is empty (zero chunks, not one chunk of size
zero), and `Chop` on that reader returns the empty list. -/
theorem empty_source_no_chunks (inp : ReaderAt) (cs : Int) (h1 : 1 ≤ cs) (hc : cs ≤ maxInt64) :
    (∃ cr, NewConcurrentReader inp 0 [WithChunkSize cs] = .ok (some cr, none) ∧
      cr.Chunks = [] ∧ cr.Chop.2 = [] ∧ cr.Chop.1.Chunks = []) ∧
    (∃ cr, NewConcurrentReader inp 0 [] = .ok (some cr, none) ∧
      cr.Chunks = [] ∧ cr.Chop.2 = [] ∧ cr.Chop.1.Chunks = []) := by
  have hmax : maxInt64 = 2 ^ 63 - 1 := rfl
  constructor
  · have hz : (0 + cs - 1) / cs = 0 := Int.ediv_eq_zero_of_lt (by omega) (by omega)
    refine ⟨_, NewConcurrentReader_closed inp 0 cs (le_refl _) h1 hc (by omega)
      (by rw [hz]; decide), ?_, ?_, ?_⟩
    · exact closedChunks_zero cs h1
    · simp [ConcurrentReader.Chop, closedChunks_zero cs h1]
    · simp [ConcurrentReader.Chop, closedChunks_zero cs h1]
  · exact ⟨_, rfl, rfl, rfl, rfl⟩

/-- Instance of `empty_source_no_chunks` at `cs = 256`. -/
theorem empty_source_no_chunks_witness :
    (∃ cr, NewConcurrentReader (bytesReader []) 0 [WithChunkSize 256] = .ok (some cr, none) ∧
      cr.Chunks = [] ∧ cr.Chop.2 = [] ∧ cr.Chop.1.Chunks = []) ∧
    (∃ cr, NewConcurrentReader (bytesReader []) 0 [] = .ok (some cr, none) ∧
      cr.Chunks = [] ∧ cr.Chop.2 = [] ∧ cr.Chop.1.Chunks = []) :=
  empty_source_no_chunks (bytesReader []) 256 (by decide) (by decide)

theorem descr_Chop (c : ConcurrentReader) : descr c.Chop.2 = descr c.Chunks := by
  simp [ConcurrentReader.Chop, descr, List.map_map, Function.comp_def]

theorem Chop_Chop (c : ConcurrentReader) : c.Chop.1.Chop = c.Chop := by
  simp [ConcurrentReader.Chop, List.map_map, Function.comp_def]

/-- C20: for every reader, `Chop` returns a list of the same length as the
reader's chunk list with the same offset, size and index at every position; the
reader it leaves behind has the same chunk size and source and holds the returned
list; a second call returns the same as the first; and after any number of calls
the offset/size/index sequence is still the one the reader had. -/
theorem chop_frame (c : ConcurrentReader) :
    c.Chop.2.length = c.Chunks.length ∧
    descr c.Chop.2 = descr c.Chunks ∧
    (∀ (i : Nat) (a : Chunk), c.Chop.2[i]? = some a →
      ∃ d, c.Chunks[i]? = some d ∧ a.offset = d.offset ∧ a.size = d.size ∧ a.index = d.index) ∧
    c.Chop.1.cs = c.cs ∧ c.Chop.1.r = c.r ∧ c.Chop.1.Chunks = c.Chop.2 ∧
    c.Chop.1.Chop = c.Chop ∧
    (∀ n : Nat, descr ((fun r : ConcurrentReader => r.Chop.1)^[n] c).Chop.2 = descr c.Chunks ∧
      ((fun r : ConcurrentReader => r.Chop.1)^[n] c).cs = c.cs ∧
      ((fun r : ConcurrentReader => r.Chop.1)^[n] c).r = c.r) := by
  refine ⟨by simp [ConcurrentReader.Chop], descr_Chop c, ?_, rfl, rfl, rfl, Chop_Chop c, ?_⟩
  · intro i a ha
    simp only [ConcurrentReader.Chop, List.getElem?_map, Option.map_eq_some'] at ha
    obtain ⟨d, hd, rfl⟩ := ha
    exact ⟨d, hd, rfl, rfl, rfl⟩
  · intro n
    induction n generalizing c with
    | zero => exact ⟨descr_Chop c, rfl, rfl⟩
    | succ n ih =>
      have := ih c.Chop.1
      simp only [Function.iterate_succ, Function.comp_apply]
      refine ⟨this.1.trans (descr_Chop c), this.2.1, this.2.2⟩

/-- Every chunk that `Chop` returns is a chunk of the reader bound to a fresh
section reader over its own range of the reader's source. -/
theorem mem_Chop (cr : ConcurrentReader) (c : Chunk) (hc : c ∈ cr.Chop.2) :
    ∃ d ∈ cr.Chunks, c = { d with sr := some (NewSectionReader cr.r d.offset d.size) } := by
  simp only [ConcurrentReader.Chop, List.mem_map] at hc
  obtain ⟨d, hd, rfl⟩ := hc
  exact ⟨d, hd, rfl⟩

theorem Chunk.Size_bound (d : Chunk) (src : ReaderAt)
    (h0 : 0 ≤ d.offset) (hn : 0 ≤ d.size) (h : d.offset + d.size ≤ maxInt64) :
    Chunk.Size { d with sr := some (NewSectionReader src d.offset d.size) } = .ok d.size := by
  have hmax : maxInt64 = 2 ^ 63 - 1 := rfl
  have hmin : minInt64 = -(2 ^ 63) := rfl
  unfold Chunk.Size SectionReader.Size
  simp only [NewSectionReader_eq src d.offset d.size h0 hn h]
  rw [show sub64 (d.offset + d.size) d.offset = d.size from by
    unfold sub64
    rw [add_sub_cancel_left]
    exact wrap64_of_range (by omega) (by omega)]

/-- C12: for a source serving `B` (at most `2^63 - 1` bytes), every reader that
`NewConcurrentReader(src, len(B), opts...)` returns for a list of `WithChunkSize`
options, and every chunk `c` that `Chop` returns, `Data()` on the unread chunk
(buffer room at least one byte, fuel above the chunk size) returns exactly the
bytes `B[offset, offset + size)` and leaves the chunk as it was; the length of the
returned buffer is the chunk's size field and is what `Size()` returns. -/
theorem data_of_chopped (src : ReaderAt) (B : List Byte) (ns : List Int)
    (cr : ConcurrentReader) (room : Nat → Nat) (fuel : Nat)
    (hS : Serves src B) (hlen : (B.length : Int) ≤ maxInt64) (hns : ∀ n ∈ ns, n ≤ maxInt64)
    (hroom : ∀ k, 1 ≤ room k)
    (h : NewConcurrentReader src (B.length : Int) (ns.map WithChunkSize) = .ok (some cr, none)) :
    ∀ c ∈ cr.Chop.2, c.size.toNat < fuel →
      c.Data room fuel = .ok (c, (B.drop c.offset.toNat).take c.size.toNat) ∧
      (((B.drop c.offset.toNat).take c.size.toNat).length : Int) = c.size ∧
      c.Size = .ok (((B.drop c.offset.toNat).take c.size.toNat).length : Int) := by
  have hmax : maxInt64 = 2 ^ 63 - 1 := rfl
  obtain ⟨hr, h0, hcs, hch⟩ := NewConcurrentReader_ok_chunks src _ ns cr hlen hns h
  intro c hc hfuel
  obtain ⟨d, hd, rfl⟩ := mem_Chop cr c hc
  obtain ⟨_, hd0, hd1, hd2⟩ := hch d hd
  rw [hr] at hfuel ⊢
  have hfit : d.offset + d.size ≤ maxInt64 := by omega
  have hw := NewSectionReader_wf src d.offset d.size hd0 (by omega) hfit
  have hrest := NewSectionReader_rest src d.offset d.size B hd0 (by omega) hfit
  have hrem : ((NewSectionReader src d.offset d.size).limit
      - (NewSectionReader src d.offset d.size).off).toNat < fuel := by
    rw [NewSectionReader_eq src d.offset d.size hd0 (by omega) hfit]
    simp only [add_sub_cancel_left]
    exact hfuel
  have hSs : Serves (NewSectionReader src d.offset d.size).r B := hS
  have hlenb : (((B.drop d.offset.toNat).take d.size.toNat).length : Int) = d.size := by
    rw [List.length_take, List.length_drop]
    omega
  refine ⟨?_, hlenb, ?_⟩
  · have hrun := Chunk.Data_serves { d with sr := some (NewSectionReader src d.offset d.size) }
      (NewSectionReader src d.offset d.size) B room fuel rfl hSs hw hroom hrem
    rw [hrun, hrest]
    rfl
  · simp only [hlenb]
    exact Chunk.Size_bound d src hd0 (by omega) hfit

/-- Instance of `data_of_chopped`: the 64 bytes `0..63` with chunk size 24, at
the last chunk (offset 48, the remainder of 16 bytes). -/
theorem data_of_chopped_witness :
    Chunk.Data { offset := 48, size := 16,
                 sr := some (NewSectionReader (bytesReader sample64) 48 16), index := 2 }
        (fun _ => 512) 25 =
      .ok ({ offset := 48, size := 16,
             sr := some (NewSectionReader (bytesReader sample64) 48 16), index := 2 },
        (sample64.drop (48 : Int).toNat).take (16 : Int).toNat) ∧
    (((sample64.drop (48 : Int).toNat).take (16 : Int).toNat).length : Int) = 16 ∧
    Chunk.Size { offset := 48, size := 16,
                 sr := some (NewSectionReader (bytesReader sample64) 48 16), index := 2 } =
      .ok (((sample64.drop (48 : Int).toNat).take (16 : Int).toNat).length : Int) :=
  data_of_chopped (bytesReader sample64) sample64 [24]
    { r := bytesReader sample64, cs := 24, Chunks := closedChunks 64 24 } (fun _ => 512) 25
    (bytesReader_serves sample64) (by decide) (by decide) (fun _ => Nat.le_of_ble_eq_true rfl)
    rfl
    { offset := 48, size := 16, sr := some (NewSectionReader (bytesReader sample64) 48 16),
      index := 2 }
    (List.mem_cons_of_mem _ (List.mem_cons_of_mem _ (List.mem_cons_self _ _)))
    (by decide)

theorem SectionReader.Read_quiet (s : SectionReader) (plen : Nat) :
    s.quiet.Read plen =
      (s.Read plen).map fun t => (t.1.quiet, t.2.1, t.2.2.map fun _ => Error.EOF) := by
  unfold SectionReader.Read SectionReader.quiet
  simp only [eofOnError]
  split_ifs <;> rfl

theorem SectionReader.Seek_quiet (s : SectionReader) :
    (s.quiet.Seek 0 0).1 = (s.Seek 0 0).1.quiet := by
  unfold SectionReader.Seek SectionReader.quiet
  simp only
  split_ifs <;> rfl

/-- The copy loop cannot tell an error of the source from end-of-file: over the
quiet source it yields the same destination, count and cursor. -/
theorem ioCopy_quiet {σ : Type} (write : σ → List Byte → σ) :
    ∀ (fuel : Nat) (dst : σ) (s : SectionReader) (written : Int),
      ioCopy write fuel dst s.quiet written =
        (ioCopy write fuel dst s written).map fun t => (t.1, t.2.1.quiet, t.2.2.1, none) := by
  intro fuel
  induction fuel with
  | zero => intro dst s written; rfl
  | succ fuel ih =>
    intro dst s written
    unfold ioCopy
    rw [SectionReader.Read_quiet]
    cases hr : s.Read (32 * 1024) with
    | error f => rfl
    | ok t =>
      obtain ⟨s1, bs, er⟩ := t
      cases er with
      | none =>
        simp only [Except.map, Option.map_none']
        exact ih _ s1 _
      | some e =>
        simp only [Except.map, Option.map_some', if_true]

theorem bufferReadFrom_quiet (room : Nat → Nat) :
    ∀ (fuel : Nat) (buf : List Byte) (s : SectionReader),
      bufferReadFrom room fuel buf s.quiet =
        (bufferReadFrom room fuel buf s).map fun t => (t.1, t.2.1.quiet, none) := by
  intro fuel
  induction fuel with
  | zero => intro buf s; rfl
  | succ fuel ih =>
    intro buf s
    unfold bufferReadFrom
    rw [SectionReader.Read_quiet]
    cases hr : s.Read (room buf.length) with
    | error f => rfl
    | ok t =>
      obtain ⟨s1, bs, er⟩ := t
      cases er with
      | none =>
        simp only [Except.map, Option.map_none']
        exact ih _ s1
      | some e =>
        simp only [Except.map, Option.map_some', if_true]

theorem Chunk.Hash_quiet (c : Chunk) (H : HashAlg) (h0 : H.State) (fuel : Nat) :
    c.quiet.Hash H h0 fuel = (c.Hash H h0 fuel).map fun t => (t.1.quiet, t.2.1, t.2.2) := by
  unfold Chunk.Hash Chunk.quiet
  cases hsr : c.sr with
  | none => rfl
  | some s =>
    simp only [Option.map_some', ioCopy_quiet]
    cases hrun : ioCopy H.Write fuel (H.Reset h0) s 0 with
    | error f => rfl
    | ok t =>
      obtain ⟨h2, s1, w, er⟩ := t
      simp only [Except.map, SectionReader.Seek_quiet, Option.map_some']

theorem Chunk.Data_quiet (c : Chunk) (room : Nat → Nat) (fuel : Nat) :
    c.quiet.Data room fuel = (c.Data room fuel).map fun t => (t.1.quiet, t.2) := by
  unfold Chunk.Data Chunk.quiet
  cases hsr : c.sr with
  | none => rfl
  | some s =>
    simp only [Option.map_some', bufferReadFrom_quiet]
    cases hrun : bufferReadFrom room fuel [] s with
    | error f => rfl
    | ok t =>
      obtain ⟨buf, s1, er⟩ := t
      simp only [Except.map, SectionReader.Seek_quiet, Option.map_some']


/-- C11 (counterexample): on the chunk bound to `[0, 4)` of a source whose every
`ReadAt` fails with an I/O error, `Read` reports that error, but `Data` returns
the empty byte sequence and `Hash` the digest of no bytes, with no error
indication: exactly what they return on the same range of an empty
`bytes.Reader`, where the read succeeds with end-of-file. -/
theorem C11_hash_data_drop_the_error :
    (brokenChunk.Read 4).map (fun t => (t.2.1, t.2.2)) =
      .ok ([], some (Error.other "input/output error")) ∧
    (brokenChunk.Data (fun _ => 512) 5).map Prod.snd = .ok [] ∧
    (emptyChunk.Data (fun _ => 512) 5).map Prod.snd = .ok [] ∧
    (brokenChunk.Hash fnv32a fnv32a.New 5).map (fun t => t.2.2) =
      .ok (fnv32a.Sum fnv32a.New []) ∧
    (emptyChunk.Hash fnv32a fnv32a.New 5).map (fun t => t.2.2) =
      .ok (fnv32a.Sum fnv32a.New []) :=
  ⟨rfl, rfl, rfl, rfl, rfl⟩

theorem bindRefs_getElem? :
    ∀ (l : List Chunk) (a i : Nat) (p : ChunkRef), (bindRefs a l)[i]? = some p →
      p.sr = some (a + i) ∧
        ∃ d, l[i]? = some d ∧ p.offset = d.offset ∧ p.size = d.size ∧ p.index = d.index := by
  intro l
  induction l with
  | nil => intro a i p h; simp [bindRefs] at h
  | cons ch rest ih =>
    intro a i p h
    cases i with
    | zero =>
      simp only [bindRefs, List.getElem?_cons_zero, Option.some.injEq] at h
      subst h
      exact ⟨rfl, ch, List.getElem?_cons_zero, rfl, rfl, rfl⟩
    | succ i =>
      simp only [bindRefs, List.getElem?_cons_succ] at h
      obtain ⟨h1, d, hd, h2⟩ := ih (a + 1) i p h
      refine ⟨?_, d, by simpa using hd, h2⟩
      rw [h1]
      congr 1
      omega

theorem ChunkRef.store_getElem?_ne (p : ChunkRef) (h : Heap) (c : Chunk) (a b : Nat)
    (hp : p.sr = some a) (hab : a ≠ b) : (p.store h c)[b]? = h[b]? := by
  unfold ChunkRef.store
  rw [hp]
  cases c.sr with
  | none => rfl
  | some s => exact List.getElem?_set_ne hab

theorem ChunkRef.run_frame (p : ChunkRef) (op : Op) (h h1 : Heap)
    (out : List Byte × Option Error) (a b : Nat) (hp : p.sr = some a) (hab : a ≠ b)
    (hrun : p.run op h = .ok (h1, out)) : h1[b]? = h[b]? := by
  unfold ChunkRef.run at hrun
  cases hr : op.run (p.load h) with
  | error f => rw [hr] at hrun; cases hrun
  | ok t =>
    rw [hr] at hrun
    simp only [Except.map, Except.ok.injEq, Prod.mk.injEq] at hrun
    rw [← hrun.1]
    exact p.store_getElem?_ne h t.1 a b hp hab

theorem ChunkRef.runAll_frame (p : ChunkRef) (a b : Nat) (hp : p.sr = some a) (hab : a ≠ b) :
    ∀ (ops : List Op) (h h1 : Heap) (outs : List (List Byte × Option Error)),
      p.runAll ops h = .ok (h1, outs) → h1[b]? = h[b]? := by
  intro ops
  induction ops with
  | nil =>
    intro h h1 outs hrun
    simp only [ChunkRef.runAll, Except.ok.injEq, Prod.mk.injEq] at hrun
    rw [hrun.1]
  | cons op ops ih =>
    intro h h1 outs hrun
    unfold ChunkRef.runAll at hrun
    cases hr : p.run op h with
    | error f => rw [hr] at hrun; cases hrun
    | ok t =>
      obtain ⟨h2, out⟩ := t
      rw [hr] at hrun
      simp only at hrun
      cases hr2 : p.runAll ops h2 with
      | error f => rw [hr2] at hrun; cases hrun
      | ok t2 =>
        obtain ⟨h3, outs2⟩ := t2
        rw [hr2] at hrun
        simp only [Except.ok.injEq, Prod.mk.injEq] at hrun
        rw [← hrun.1, ih h2 h3 outs2 hr2]
        exact p.run_frame op h h2 out a b hp hab hr

theorem ChunkRef.load_congr (q : ChunkRef) (h h1 : Heap)
    (hq : ∀ b, q.sr = some b → h1[b]? = h[b]?) : q.load h1 = q.load h := by
  unfold ChunkRef.load
  cases hs : q.sr with
  | none => rfl
  | some b => simp only [Option.some_bind, hq b hs]

/-- What a call on `q` returns, and the section reader it leaves behind, depend
on the heap only through the section reader `q` points to. -/
theorem ChunkRef.run_congr (q : ChunkRef) (op : Op) (h h1 : Heap)
    (hq : ∀ b, q.sr = some b → h1[b]? = h[b]?) :
    (q.run op h1).map Prod.snd = (q.run op h).map Prod.snd ∧
    ∀ k1 k out1 out, q.run op h1 = .ok (k1, out1) → q.run op h = .ok (k, out) →
      ∀ b, q.sr = some b → k1[b]? = k[b]? := by
  have hl := q.load_congr h h1 hq
  unfold ChunkRef.run
  rw [hl]
  constructor
  · cases op.run (q.load h) <;> rfl
  · intro k1 k out1 out hk1 hk b hb
    cases hr : op.run (q.load h) with
    | error f => rw [hr] at hk; cases hk
    | ok t =>
      rw [hr] at hk hk1
      simp only [Except.map, Except.ok.injEq, Prod.mk.injEq] at hk hk1
      rw [← hk.1, ← hk1.1]
      unfold ChunkRef.store
      rw [hb]
      cases t.1.sr with
      | none => exact hq b hb
      | some s =>
        have hlen : b < h1.length ↔ b < h.length := by
          have := hq b hb
          constructor
          · intro hlt
            by_contra hge
            rw [List.getElem?_eq_getElem hlt, List.getElem?_eq_none (by omega)] at this
            cases this
          · intro hlt
            by_contra hge
            rw [List.getElem?_eq_getElem hlt, List.getElem?_eq_none (by omega)] at this
            cases this
        by_cases hlt : b < h.length
        · rw [List.getElem?_set_self (hlen.mpr hlt), List.getElem?_set_self hlt]
        · rw [List.getElem?_eq_none (by rw [List.length_set]; omega),
            List.getElem?_eq_none (by rw [List.length_set]; omega)]

theorem ChunkRef.runAll_congr (q : ChunkRef) :
    ∀ (ops : List Op) (h h1 : Heap), (∀ b, q.sr = some b → h1[b]? = h[b]?) →
      (q.runAll ops h1).map Prod.snd = (q.runAll ops h).map Prod.snd := by
  intro ops
  induction ops with
  | nil => intro h h1 _; rfl
  | cons op ops ih =>
    intro h h1 hq
    obtain ⟨hout, hheap⟩ := q.run_congr op h h1 hq
    unfold ChunkRef.runAll
    cases hr1 : q.run op h1 with
    | error f =>
      rw [hr1] at hout
      cases hr : q.run op h with
      | error g => rw [hr] at hout; simpa [Except.map] using hout
      | ok t => rw [hr] at hout; simp [Except.map] at hout
    | ok t1 =>
      obtain ⟨k1, out1⟩ := t1
      rw [hr1] at hout
      cases hr : q.run op h with
      | error g => rw [hr] at hout; simp [Except.map] at hout
      | ok t =>
        obtain ⟨k, out⟩ := t
        rw [hr] at hout
        simp only [Except.map, Except.ok.injEq] at hout
        subst hout
        have hrec := ih k k1 (hheap k1 k out1 out1 hr1 hr)
        simp only
        cases hx1 : q.runAll ops k1 with
        | error f =>
          rw [hx1] at hrec
          cases hx : q.runAll ops k with
          | error g => rw [hx] at hrec; simpa [Except.map] using hrec
          | ok t => rw [hx] at hrec; simp [Except.map] at hrec
        | ok t1 =>
          rw [hx1] at hrec
          cases hx : q.runAll ops k with
          | error g => rw [hx] at hrec; simp [Except.map] at hrec
          | ok t =>
            rw [hx] at hrec
            simp only [Except.map, Except.ok.injEq] at hrec
            simp only [Except.map, hrec]


/-- The chunks that `ChopRef` returns denote, in the heap it returns, the chunks
that `Chop` returns. -/
theorem load_ChopRef (cr : ConcurrentReader) (h : Heap) (i : Nat) (p : ChunkRef)
    (hp : (cr.ChopRef h).2[i]? = some p) : cr.Chop.2[i]? = some (p.load (cr.ChopRef h).1) := by
  obtain ⟨hsr, d, hd, ho, hs, hx⟩ := bindRefs_getElem? cr.Chunks h.length i p hp
  have hcell : (h ++ cr.Chunks.map (fun ch => NewSectionReader cr.r ch.offset ch.size))[
      h.length + i]? = some (NewSectionReader cr.r d.offset d.size) := by
    rw [List.getElem?_append_right (by omega)]
    simp [List.getElem?_map, hd]
  simp only [ConcurrentReader.Chop, ConcurrentReader.ChopRef, List.getElem?_map, hd,
    Option.map_some', ChunkRef.load, hsr, Option.some_bind, hcell, ho, hs, hx]

/-- C15: two distinct chunks `i ≠ j` returned by one `Chop` point to different
section readers, so any sequence of `Read`, `Hash` and `Data` calls on chunk `i`
that returns leaves chunk `j` (cursor, offset, size, index) as `Chop` made it, and
every later call or sequence of calls on chunk `j` returns what it would have
returned had chunk `i` not been touched. -/
theorem chunks_do_not_interfere (cr : ConcurrentReader) (h h1 : Heap) (i j : Nat)
    (pi pj : ChunkRef) (ops : List Op) (outs : List (List Byte × Option Error))
    (hi : (cr.ChopRef h).2[i]? = some pi) (hj : (cr.ChopRef h).2[j]? = some pj)
    (hij : i ≠ j) (hrun : pi.runAll ops (cr.ChopRef h).1 = .ok (h1, outs)) :
    pi.sr ≠ pj.sr ∧
    pj.load h1 = pj.load (cr.ChopRef h).1 ∧
    cr.Chop.2[j]? = some (pj.load h1) ∧
    (∀ op : Op, (pj.run op h1).map Prod.snd = (pj.run op (cr.ChopRef h).1).map Prod.snd) ∧
    (∀ later : List Op,
      (pj.runAll later h1).map Prod.snd = (pj.runAll later (cr.ChopRef h).1).map Prod.snd) := by
  obtain ⟨hsi, _⟩ := bindRefs_getElem? cr.Chunks h.length i pi hi
  obtain ⟨hsj, _⟩ := bindRefs_getElem? cr.Chunks h.length j pj hj
  have hne : h.length + i ≠ h.length + j := by omega
  have hcell : ∀ b, pj.sr = some b → h1[b]? = (cr.ChopRef h).1[b]? := by
    intro b hb
    rw [hsj, Option.some.injEq] at hb
    subst hb
    exact pi.runAll_frame (h.length + i) (h.length + j) hsi hne ops _ h1 outs hrun
  have hload := pj.load_congr (cr.ChopRef h).1 h1 hcell
  refine ⟨?_, hload, ?_, fun op => (pj.run_congr op _ h1 hcell).1,
    fun later => pj.runAll_congr later _ h1 hcell⟩
  · rw [hsi, hsj]
    intro hc
    rw [Option.some.injEq] at hc
    omega
  · rw [hload]
    exact load_ChopRef cr h j pj hj

/-- Instance of `chunks_do_not_interfere`: the bytes `1, 2, 3, 4` in two chunks
of two bytes; one byte is read from chunk 0. -/
theorem chunks_do_not_interfere_witness :
    (({ offset := 0, size := 2, sr := some 0, index := 0 } : ChunkRef).sr ≠
      ({ offset := 2, size := 2, sr := some 1, index := 1 } : ChunkRef).sr) ∧
    ChunkRef.load { offset := 2, size := 2, sr := some 1, index := 1 }
        [{ NewSectionReader (bytesReader [1, 2, 3, 4]) 0 2 with off := 1 },
         NewSectionReader (bytesReader [1, 2, 3, 4]) 2 2] =
      ChunkRef.load { offset := 2, size := 2, sr := some 1, index := 1 }
        (ConcurrentReader.ChopRef
          { r := bytesReader [1, 2, 3, 4], cs := 2, Chunks := closedChunks 4 2 } []).1 :=
  ⟨(chunks_do_not_interfere
      { r := bytesReader [1, 2, 3, 4], cs := 2, Chunks := closedChunks 4 2 } []
      [{ NewSectionReader (bytesReader [1, 2, 3, 4]) 0 2 with off := 1 },
       NewSectionReader (bytesReader [1, 2, 3, 4]) 2 2]
      0 1 { offset := 0, size := 2, sr := some 0, index := 0 }
      { offset := 2, size := 2, sr := some 1, index := 1 } [Op.read 1] [([1], none)]
      rfl rfl (by decide) rfl).1,
   (chunks_do_not_interfere
      { r := bytesReader [1, 2, 3, 4], cs := 2, Chunks := closedChunks 4 2 } []
      [{ NewSectionReader (bytesReader [1, 2, 3, 4]) 0 2 with off := 1 },
       NewSectionReader (bytesReader [1, 2, 3, 4]) 2 2]
      0 1 { offset := 0, size := 2, sr := some 0, index := 0 }
      { offset := 2, size := 2, sr := some 1, index := 1 } [Op.read 1] [([1], none)]
      rfl rfl (by decide) rfl).2.1⟩

/-- C19 (code defect, overflow of `size + cs - 1`): for sizes and chunk sizes
near the `int64` maximum `NewConcurrentReader` faults in the middle of
partitioning.  For `size = 2^63 - 1`, `cs = 2` the computed count is `-2^62`,
negative, and `make` panics; for `size = 1000`, `cs = 2^63 - 1` the computed
count is `0` although `size % cs = 1000` is not zero, and the remainder patch
indexes an empty list. -/
theorem C19_faults_mid_partition (inp : ReaderAt) :
    div64 (sub64 (add64 maxInt64 2) 1) 2 = .ok (-(2 ^ 62)) ∧
    NewConcurrentReader inp maxInt64 [WithChunkSize 2] =
      .error (.panic "makeslice: len out of range") ∧
    div64 (sub64 (add64 1000 maxInt64) 1) maxInt64 = .ok 0 ∧
    rem64 1000 maxInt64 = .ok 1000 ∧
    NewConcurrentReader inp 1000 [WithChunkSize maxInt64] =
      .error (.panic "index out of range [-1]") :=
  ⟨rfl, rfl, rfl, rfl, rfl⟩

/-- No fault without overflow: for `0 ≤ size` and a list of `WithChunkSize`
options whose values `n` are `int64` values with `size + n - 1 ≤ 2^63 - 1` (and
`size + 4194304 - 1 ≤ 2^63 - 1` for the default) and a chunk count within the
allocator limit, `NewConcurrentReader` returns normally, with a reader or with
an error, and a reader it returns has a chunk size of at least 1. -/
theorem no_fault_without_overflow (inp : ReaderAt) (size : Int) (ns : List Int)
    (h0 : 0 ≤ size) (hns : ∀ n ∈ ns, n ≤ maxInt64)
    (hfit : ∀ n ∈ ns, size + n - 1 ≤ maxInt64) (hdef : size + 4194304 - 1 ≤ maxInt64)
    (halloc : ∀ n ∈ ns, (size + n - 1) / n * sizeofChunk ≤ maxAlloc) :
    (∃ r e, NewConcurrentReader inp size (ns.map WithChunkSize) = .ok (r, e)) ∧
    (∀ cr, NewConcurrentReader inp size (ns.map WithChunkSize) = .ok (some cr, none) →
      1 ≤ cr.cs) := by
  have hmax : maxInt64 = 2 ^ 63 - 1 := rfl
  constructor
  · by_cases hbad : ∃ n ∈ ns, n < 1
    · obtain ⟨r, e, he⟩ := (NewConcurrentReader_error_iff inp size (ns.map WithChunkSize)).mpr
        (Or.inr ((applyOpts_withChunkSize_error_iff ns (initialReader inp)).mpr hbad))
      exact ⟨r, some e, he⟩
    · push_neg at hbad
      rcases List.eq_nil_or_concat ns with rfl | ⟨pre, b, rfl⟩
      · have hcl := NewConcurrentReader_closed inp size 4194304 h0 (by decide) (by decide) hdef
          (by simp only [sizeofChunk, maxAlloc]; omega)
        have hsame : NewConcurrentReader inp size (([] : List Int).map WithChunkSize) =
            NewConcurrentReader inp size [WithChunkSize 4194304] := rfl
        exact ⟨_, _, hsame.trans hcl⟩
      · have hb1 : 1 ≤ b := hbad b (by simp)
        have hcl := NewConcurrentReader_closed inp size b h0 hb1 (hns b (by simp))
          (hfit b (by simp)) (halloc b (by simp))
        have hsame := NewConcurrentReader_valid_opts inp size pre b
          (fun n hn => hbad n (by simp [hn])) hb1
        rw [List.concat_eq_append]
        exact ⟨_, _, hsame.trans hcl⟩
  · intro cr h
    have hs : size ≤ maxInt64 := by omega
    exact (NewConcurrentReader_ok_chunks inp size ns cr hs hns h).2.2.1

/-- Instance of `no_fault_without_overflow`: size 524800 with the options
`WithChunkSize(256)`, `WithChunkSize(512)`. -/
theorem no_fault_without_overflow_witness :
    (∃ r e, NewConcurrentReader (bytesReader []) 524800 ([256, 512].map WithChunkSize)
      = .ok (r, e)) ∧
    (∀ cr, NewConcurrentReader (bytesReader []) 524800 ([256, 512].map WithChunkSize)
      = .ok (some cr, none) → 1 ≤ cr.cs) :=
  no_fault_without_overflow (bytesReader []) 524800 [256, 512] (by decide) (by decide)
    (by decide) (by decide) (by decide)



theorem unitLoop_step (unit n divv : Int) (exp fuel : Nat)
    (hu : 2 ≤ unit) (hge : n ≥ unit) (hn : n ≤ maxInt64)
    (hd0 : 0 < divv) (hd : divv * unit ≤ maxInt64) (he : exp < 1000) :
    unitLoop unit (fuel + 1) n divv (exp : Int) =
      unitLoop unit fuel (n / unit) (divv * unit) ((exp + 1 : Nat) : Int) := by
  have hmax : maxInt64 = 2 ^ 63 - 1 := rfl
  have hmin : minInt64 = -(2 ^ 63) := rfl
  have hq0 : 0 ≤ n / unit := Int.ediv_nonneg (by omega) (by omega)
  have hq1 : n / unit ≤ n := Int.ediv_le_self _ (by omega)
  have hdiv : div64 n unit = .ok (n / unit) := by
    unfold div64
    rw [if_neg (by omega), tdiv_eq_of_nonneg (by omega) (by omega),
      wrap64_of_range (by omega) (by omega)]
  have hprod : 0 < divv * unit := Int.mul_pos hd0 (by omega)
  have hmul64 : mul64 divv unit = divv * unit := by
    unfold mul64
    exact wrap64_of_range (by omega) (by omega)
  have hadd : add64 (exp : Int) 1 = ((exp + 1 : Nat) : Int) := by
    unfold add64
    rw [wrap64_of_range (by omega) (by omega)]
    rfl
  rw [unitLoop, if_pos hge, hdiv, hmul64, hadd]

theorem unitLoop_stop (unit n divv exp : Int) (fuel : Nat) (hlt : n < unit) :
    unitLoop unit (fuel + 1) n divv exp = .ok (divv, exp) := by
  rw [unitLoop, if_neg (not_le.mpr hlt)]


/-- The unit loop from the state reached after `k` steps, where `n` is the
quotient of `b` by `unit^(k+1)`: it stops after finitely many steps with
`div = unit^(e+1)` and `exp = e`, where `unit^(e+1) ≤ b < unit^(e+2)`. -/
theorem unitLoop_spec (unit b : Int) (hu : 2 ≤ unit) (hb : b ≤ maxInt64) :
    ∀ (f fuel k : Nat) (n : Int), f < fuel → k + f < 1000 →
      unit ^ (k + 1) * n ≤ b → b < unit ^ (k + 1) * (n + 1) → 1 ≤ n → n < unit ^ (f + 1) →
      ∃ e : Nat, k ≤ e ∧ e ≤ k + f ∧
        unitLoop unit fuel n (unit ^ (k + 1)) (k : Int) = .ok (unit ^ (e + 1), (e : Int)) ∧
        unit ^ (e + 1) ≤ b ∧ b < unit ^ (e + 2) := by
  have hupos : 0 < unit := by omega
  -- what holds when the loop stops
  have hstop : ∀ (k : Nat) (n : Int), unit ^ (k + 1) * n ≤ b → b < unit ^ (k + 1) * (n + 1) →
      1 ≤ n → n < unit → unit ^ (k + 1) ≤ b ∧ b < unit ^ (k + 2) := by
    intro k n hlo hhi hn1 hlt
    have hpos : 0 < unit ^ (k + 1) := pow_pos hupos _
    constructor
    · have h1 : unit ^ (k + 1) * 1 ≤ unit ^ (k + 1) * n :=
        mul_le_mul_of_nonneg_left hn1 hpos.le
      rw [mul_one] at h1
      exact le_trans h1 hlo
    · have h2 : unit ^ (k + 1) * (n + 1) ≤ unit ^ (k + 1) * unit :=
        mul_le_mul_of_nonneg_left (by omega) hpos.le
      rw [show k + 2 = (k + 1) + 1 by omega, pow_succ]
      exact lt_of_lt_of_le hhi h2
  intro f
  induction f with
  | zero =>
    intro fuel k n hfuel hk hlo hhi hn1 hnf
    obtain ⟨fuel1, rfl⟩ : ∃ g, fuel = g + 1 := ⟨fuel - 1, by omega⟩
    have hlt : n < unit := by simpa using hnf
    obtain ⟨h1, h2⟩ := hstop k n hlo hhi hn1 hlt
    exact ⟨k, le_refl _, by omega, unitLoop_stop unit n _ _ fuel1 hlt, h1, h2⟩
  | succ f ih =>
    intro fuel k n hfuel hk hlo hhi hn1 hnf
    obtain ⟨fuel1, rfl⟩ : ∃ g, fuel = g + 1 := ⟨fuel - 1, by omega⟩
    have hpos : 0 < unit ^ (k + 1) := pow_pos hupos _
    by_cases hge : n ≥ unit
    · have hpow : unit ^ (k + 1) * unit = unit ^ (k + 1 + 1) := (pow_succ _ _).symm
      have hq1 : unit * (n / unit) ≤ n := Int.mul_ediv_self_le (ne_of_gt hupos)
      have hq2 : n < (n / unit + 1) * unit := Int.lt_ediv_add_one_mul_self n hupos
      have hB : unit ^ (k + 1) * unit ≤ b :=
        le_trans (mul_le_mul_of_nonneg_left hge hpos.le) hlo
      have hC : n ≤ b := by
        have h1 : 1 * n ≤ unit ^ (k + 1) * n :=
          mul_le_mul_of_nonneg_right (by omega) (by omega)
        rw [one_mul] at h1
        exact le_trans h1 hlo
      have hlo' : unit ^ (k + 1 + 1) * (n / unit) ≤ b := by
        rw [← hpow, mul_assoc]
        exact le_trans (mul_le_mul_of_nonneg_left hq1 hpos.le) hlo
      have hhi' : b < unit ^ (k + 1 + 1) * (n / unit + 1) := by
        rw [← hpow, mul_assoc]
        have h1 : n + 1 ≤ unit * (n / unit + 1) := by
          rw [mul_comm]; omega
        exact lt_of_lt_of_le hhi (mul_le_mul_of_nonneg_left h1 hpos.le)
      have hE : 1 ≤ n / unit := Int.le_ediv_of_mul_le hupos (by simpa using hge)
      have hF : n / unit < unit ^ (f + 1) := by
        apply Int.ediv_lt_of_lt_mul hupos
        rw [← pow_succ]; exact hnf
      have hstep := unitLoop_step unit n (unit ^ (k + 1)) k fuel1 hu hge (le_trans hC hb)
        hpos (le_trans hB hb) (by omega)
      obtain ⟨e, he1, he2, hrun, hlo2, hhi2⟩ := ih fuel1 (k + 1) (n / unit) (by omega)
        (by omega) hlo' hhi' hE hF
      refine ⟨e, by omega, by omega, ?_, hlo2, hhi2⟩
      rw [hstep, hpow]
      exact hrun
    · have hlt : n < unit := not_le.mp hge
      obtain ⟨h1, h2⟩ := hstop k n hlo hhi hn1 hlt
      exact ⟨k, le_refl _, by omega, unitLoop_stop unit n _ _ fuel1 hlt, h1, h2⟩


theorem stringIndex_of_getElem? (letters : String) (e : Nat) (ch : Char)
    (h : letters.toList[e]? = some ch) : stringIndex letters (e : Int) = .ok ch := by
  unfold stringIndex
  rw [if_neg (by omega), Int.toNat_ofNat, h]

/-- The body shared by `ByteCountDecimal` and `ByteCountBinary` for `b ≥ unit`,
when `unit^7` exceeds the `int64` range and there are six unit letters. -/
theorem byteCount_ge (unit : Int) (letters tail : String) (fuel : Nat) (b : Int)
    (hu : 2 ≤ unit) (hu7 : maxInt64 < unit ^ 7) (hlen : letters.toList.length = 6)
    (hfuel : 6 ≤ fuel) (hge : unit ≤ b) (hb : b ≤ maxInt64) :
    ∃ (e : Nat) (ch : Char), e ≤ 5 ∧ letters.toList[e]? = some ch ∧
      unit ^ (e + 1) ≤ b ∧ b < unit ^ (e + 2) ∧
      unitLoop unit fuel (b / unit) unit 0 = .ok (unit ^ (e + 1), (e : Int)) ∧
      stringIndex letters (e : Int) = .ok ch ∧
      byteCount unit letters tail fuel b =
        .ok (formatQuot b (unit ^ (e + 1)) ++ " " ++ String.singleton ch ++ tail) := by
  have hmax : maxInt64 = 2 ^ 63 - 1 := rfl
  have hmin : minInt64 = -(2 ^ 63) := rfl
  have hupos : 0 < unit := by omega
  have hq0 : 0 ≤ b / unit := Int.ediv_nonneg (by omega) (by omega)
  have hq1 : b / unit ≤ b := Int.ediv_le_self _ (by omega)
  have hdiv : div64 b unit = .ok (b / unit) := by
    unfold div64
    rw [if_neg (by omega), tdiv_eq_of_nonneg (by omega) (by omega),
      wrap64_of_range (by omega) (by omega)]
  have hwrap : wrap64 unit = unit := wrap64_of_range (by omega) (by omega)
  have hlo : unit ^ (0 + 1) * (b / unit) ≤ b := by
    rw [zero_add, pow_one]; exact Int.mul_ediv_self_le (ne_of_gt hupos)
  have hhi : b < unit ^ (0 + 1) * (b / unit + 1) := by
    rw [zero_add, pow_one, mul_comm]; exact Int.lt_ediv_add_one_mul_self b hupos
  have hn1 : 1 ≤ b / unit := Int.le_ediv_of_mul_le hupos (by simpa using hge)
  have hnf : b / unit < unit ^ (5 + 1) := by
    apply Int.ediv_lt_of_lt_mul hupos
    rw [← pow_succ]
    show b < unit ^ 7
    omega
  obtain ⟨e, _, he, hrun, hlo2, hhi2⟩ := unitLoop_spec unit b hu hb 5 fuel 0 (b / unit)
    (by omega) (by omega) hlo hhi hn1 hnf
  rw [zero_add, pow_one] at hrun
  have hrun0 : unitLoop unit fuel (b / unit) unit 0 = .ok (unit ^ (e + 1), (e : Int)) := hrun
  have he5 : e ≤ 5 := by omega
  obtain ⟨ch, hch⟩ : ∃ ch, letters.toList[e]? = some ch :=
    ⟨letters.toList[e], List.getElem?_eq_getElem (by omega)⟩
  have hidx := stringIndex_of_getElem? letters e ch hch
  refine ⟨e, ch, he5, hch, hlo2, hhi2, hrun0, hidx, ?_⟩
  unfold byteCount
  rw [if_neg (by omega), hdiv]
  simp only [hwrap, hrun0, hidx]

/-- Rounding to nearest moves the quotient by at most one half. -/
theorem roundHalfEven_abs (n d : Nat) (hd : 0 < d) :
    |((roundHalfEven n d : Nat) : ℚ) - (n : ℚ) / (d : ℚ)| ≤ 1 / 2 := by
  have hdq : (0 : ℚ) < (d : ℚ) := by exact_mod_cast hd
  have hsplit : (n : ℚ) = (d : ℚ) * ((n / d : Nat) : ℚ) + ((n % d : Nat) : ℚ) := by
    exact_mod_cast (Nat.div_add_mod n d).symm
  have hr : n % d < d := Nat.mod_lt _ hd
  have hquot : (n : ℚ) / (d : ℚ) = ((n / d : Nat) : ℚ) + ((n % d : Nat) : ℚ) / (d : ℚ) := by
    rw [div_eq_iff (ne_of_gt hdq), add_mul, div_mul_cancel₀ _ (ne_of_gt hdq), hsplit]
    ring
  have hfrac0 : (0 : ℚ) ≤ ((n % d : Nat) : ℚ) / (d : ℚ) := by positivity
  rw [hquot, abs_le]
  unfold roundHalfEven
  simp only
  by_cases h1 : 2 * (n % d) < d
  · rw [if_pos h1]
    have : ((n % d : Nat) : ℚ) / (d : ℚ) ≤ 1 / 2 := by
      rw [div_le_iff₀ hdq]
      have : (2 : ℚ) * ((n % d : Nat) : ℚ) ≤ (d : ℚ) := by exact_mod_cast h1.le
      linarith
    constructor <;> linarith
  · rw [if_neg h1]
    by_cases h2 : 2 * (n % d) > d
    · rw [if_pos h2]
      have : (1 : ℚ) / 2 ≤ ((n % d : Nat) : ℚ) / (d : ℚ) := by
        rw [le_div_iff₀ hdq]
        have : (d : ℚ) ≤ (2 : ℚ) * ((n % d : Nat) : ℚ) := by exact_mod_cast h2.le
        linarith
      have hlt1 : ((n % d : Nat) : ℚ) / (d : ℚ) ≤ 1 := by
        rw [div_le_one hdq]
        exact_mod_cast hr.le
      push_cast
      constructor <;> linarith
    · rw [if_neg h2]
      have heq : 2 * (n % d) = d := by omega
      have : ((n % d : Nat) : ℚ) / (d : ℚ) = 1 / 2 := by
        rw [div_eq_iff (ne_of_gt hdq)]
        have : (2 : ℚ) * ((n % d : Nat) : ℚ) = (d : ℚ) := by exact_mod_cast heq
        linarith
      by_cases h3 : n / d % 2 = 0
      · rw [if_pos h3]
        constructor <;> linarith
      · rw [if_neg h3]
        push_cast
        constructor <;> linarith

theorem log2Floor_le (fuel : Nat) : ∀ (n k : Nat), n < 2 ^ (k + 1) → log2Floor fuel n ≤ k := by
  induction fuel with
  | zero => intro n k _; exact Nat.zero_le _
  | succ fuel ih =>
    intro n k hn
    unfold log2Floor
    by_cases h2 : n < 2
    · rw [if_pos h2]; exact Nat.zero_le _
    · rw [if_neg h2]
      cases k with
      | zero => simp at hn; omega
      | succ k =>
        have : n / 2 < 2 ^ (k + 1) := by
          rw [Nat.div_lt_iff_lt_mul (by decide)]
          rw [pow_succ] at hn
          exact hn
        have := ih (n / 2) k this
        omega

theorem log2Floor_le_fuel (fuel : Nat) : ∀ n : Nat, log2Floor fuel n ≤ fuel := by
  induction fuel with
  | zero => intro n; exact Nat.le_refl _
  | succ fuel ih =>
    intro n
    unfold log2Floor
    by_cases h2 : n < 2
    · rw [if_pos h2]; exact Nat.zero_le _
    · rw [if_neg h2]
      have := ih (n / 2)
      omega


theorem float64OfNat_small (b : Nat) (h : b < 2 ^ 53) : float64OfNat b = b := by
  unfold float64OfNat
  rw [if_pos h]

/-- The conversion `float64(b)` moves `b` by at most `2^11`. -/
theorem float64OfNat_abs (b : Nat) : |((float64OfNat b : Nat) : ℚ) - (b : ℚ)| ≤ 2 ^ 11 := by
  unfold float64OfNat
  by_cases h : b < 2 ^ 53
  · rw [if_pos h]; simp
  · rw [if_neg h]
    simp only
    have hsh : log2 b - 52 ≤ 12 := by
      have := log2Floor_le_fuel 64 b
      unfold log2
      omega
    generalize log2 b - 52 = sh at hsh
    have hpos : 0 < 2 ^ sh := Nat.pow_pos (by decide)
    have hr := roundHalfEven_abs b (2 ^ sh) hpos
    have hS : (0 : ℚ) < ((2 ^ sh : Nat) : ℚ) := by exact_mod_cast hpos
    have hSle : ((2 ^ sh : Nat) : ℚ) ≤ 2 ^ 12 := by
      have : 2 ^ sh ≤ 2 ^ 12 := Nat.pow_le_pow_right (by decide) hsh
      exact_mod_cast this
    have hrew : ((roundHalfEven b (2 ^ sh) * 2 ^ sh : Nat) : ℚ) - (b : ℚ) =
        (((roundHalfEven b (2 ^ sh) : Nat) : ℚ) - (b : ℚ) / ((2 ^ sh : Nat) : ℚ)) *
          ((2 ^ sh : Nat) : ℚ) := by
      rw [sub_mul, div_mul_cancel₀ _ (ne_of_gt hS)]
      push_cast
      ring
    rw [hrew, abs_mul, abs_of_pos hS]
    calc |((roundHalfEven b (2 ^ sh) : Nat) : ℚ) - (b : ℚ) / ((2 ^ sh : Nat) : ℚ)| *
          ((2 ^ sh : Nat) : ℚ)
        ≤ 1 / 2 * 2 ^ 12 := mul_le_mul hr hSle hS.le (by norm_num)
      _ = 2 ^ 11 := by norm_num

/-- The tenths shown for the `float64` quotient `x / y` are within
`1/20 + 2^-43` of the exact quotient, when that quotient is below `2^11`. -/
theorem quotTenths_abs (x y : Nat) (hy : 0 < y) (hq : x / y < 2 ^ 11) :
    |((quotTenths x y : Nat) : ℚ) / 10 - (x : ℚ) / (y : ℚ)| ≤ 1 / 20 + 1 / 2 ^ 43 := by
  have he : log2 (x / y) ≤ 10 := log2Floor_le 64 (x / y) 10 hq
  unfold quotTenths
  simp only
  rw [if_pos (by omega)]
  obtain ⟨sh, hsh, hshge⟩ : ∃ sh, 52 - log2 (x / y) = sh ∧ 42 ≤ sh := ⟨_, rfl, by omega⟩
  rw [hsh]
  have hpos : 0 < 2 ^ sh := Nat.pow_pos (by decide)
  have hS : (0 : ℚ) < ((2 ^ sh : Nat) : ℚ) := by exact_mod_cast hpos
  have hSge : (2 : ℚ) ^ 42 ≤ ((2 ^ sh : Nat) : ℚ) := by
    have : 2 ^ 42 ≤ 2 ^ sh := Nat.pow_le_pow_right (by decide) hshge
    exact_mod_cast this
  have hyq : (0 : ℚ) < (y : ℚ) := by exact_mod_cast hy
  have h1 := roundHalfEven_abs (x * 2 ^ sh) y hy
  have h2 := roundHalfEven_abs (10 * roundHalfEven (x * 2 ^ sh) y) (2 ^ sh) hpos
  generalize roundHalfEven (10 * roundHalfEven (x * 2 ^ sh) y) (2 ^ sh) = T at h2 ⊢
  generalize roundHalfEven (x * 2 ^ sh) y = M at h1 h2
  generalize hSdef : ((2 ^ sh : Nat) : ℚ) = S at hS hSge h1 h2
  have h1' : |(M : ℚ) - (x : ℚ) * S / (y : ℚ)| ≤ 1 / 2 := by
    have : ((x * 2 ^ sh : Nat) : ℚ) = (x : ℚ) * S := by rw [← hSdef]; push_cast; ring
    rw [this] at h1; exact h1
  have h2' : |(T : ℚ) - 10 * (M : ℚ) / S| ≤ 1 / 2 := by
    have : ((10 * M : Nat) : ℚ) = 10 * (M : ℚ) := by push_cast; ring
    rw [this] at h2; exact h2
  -- first distance: T/10 against M/S
  have d1 : |(T : ℚ) / 10 - (M : ℚ) / S| ≤ 1 / 20 := by
    have : (T : ℚ) / 10 - (M : ℚ) / S = ((T : ℚ) - 10 * (M : ℚ) / S) / 10 := by ring
    rw [this, abs_div, abs_of_pos (show (0 : ℚ) < 10 by norm_num)]
    linarith
  -- second distance: M/S against x/y
  have d2 : |(M : ℚ) / S - (x : ℚ) / (y : ℚ)| ≤ 1 / 2 ^ 43 := by
    have : (M : ℚ) / S - (x : ℚ) / (y : ℚ) = ((M : ℚ) - (x : ℚ) * S / (y : ℚ)) / S := by
      field_simp
      ring
    rw [this, abs_div, abs_of_pos hS, div_le_iff₀ hS]
    calc |(M : ℚ) - (x : ℚ) * S / (y : ℚ)| ≤ 1 / 2 := h1'
      _ = 1 / 2 ^ 43 * 2 ^ 42 := by norm_num
      _ ≤ 1 / 2 ^ 43 * S := mul_le_mul_of_nonneg_left hSge (by norm_num)
  calc |(T : ℚ) / 10 - (x : ℚ) / (y : ℚ)|
      ≤ |(T : ℚ) / 10 - (M : ℚ) / S| + |(M : ℚ) / S - (x : ℚ) / (y : ℚ)| :=
        abs_sub_le _ _ _
    _ ≤ 1 / 20 + 1 / 2 ^ 43 := add_le_add d1 d2


/-- The number shown for `b` with divisor `y` is within `1/20 + 2^-31` of
`b / y`, when `y` is a `float64` value and `b < 1024 * y`. -/
theorem shown_tenths_abs (b y : Nat) (hy2 : 2 ≤ y) (hlt : b < y * 1024)
    (hyf : float64OfNat y = y) :
    |((quotTenths (float64OfNat b) (float64OfNat y) : Nat) : ℚ) / 10 - (b : ℚ) / (y : ℚ)|
      ≤ 1 / 20 + 1 / 2 ^ 31 := by
  rw [hyf]
  have hy0 : 0 < y := by omega
  have hyq : (0 : ℚ) < (y : ℚ) := by exact_mod_cast hy0
  have hfa := float64OfNat_abs b
  -- the converted value is below 2^11 * y
  have hx : float64OfNat b < 2 ^ 11 * y := by
    by_cases hs : b < 2 ^ 53
    · rw [float64OfNat_small b hs]; omega
    · have hle : ((float64OfNat b : Nat) : ℚ) ≤ (b : ℚ) + 2 ^ 11 := by
        have := (abs_le.mp hfa).2
        linarith
      have hle' : float64OfNat b ≤ b + 2 ^ 11 := by exact_mod_cast hle
      omega
  have hq : float64OfNat b / y < 2 ^ 11 := (Nat.div_lt_iff_lt_mul hy0).mpr hx
  have h1 := quotTenths_abs (float64OfNat b) y hy0 hq
  -- the conversion error, divided by y
  have h2 : |((float64OfNat b : Nat) : ℚ) / (y : ℚ) - (b : ℚ) / (y : ℚ)| ≤ 1 / 2 ^ 32 := by
    by_cases hs : b < 2 ^ 53
    · rw [float64OfNat_small b hs]; simp
    · have hybig : 2 ^ 43 ≤ y := by omega
      have hybigq : (2 : ℚ) ^ 43 ≤ (y : ℚ) := by exact_mod_cast hybig
      rw [← sub_div, abs_div, abs_of_pos hyq, div_le_iff₀ hyq]
      calc |((float64OfNat b : Nat) : ℚ) - (b : ℚ)| ≤ 2 ^ 11 := hfa
        _ = 1 / 2 ^ 32 * 2 ^ 43 := by norm_num
        _ ≤ 1 / 2 ^ 32 * (y : ℚ) := mul_le_mul_of_nonneg_left hybigq (by norm_num)
  calc |((quotTenths (float64OfNat b) y : Nat) : ℚ) / 10 - (b : ℚ) / (y : ℚ)|
      ≤ |((quotTenths (float64OfNat b) y : Nat) : ℚ) / 10
            - ((float64OfNat b : Nat) : ℚ) / (y : ℚ)|
          + |((float64OfNat b : Nat) : ℚ) / (y : ℚ) - (b : ℚ) / (y : ℚ)| := abs_sub_le _ _ _
    _ ≤ (1 / 20 + 1 / 2 ^ 43) + 1 / 2 ^ 32 := add_le_add h1 h2
    _ ≤ 1 / 20 + 1 / 2 ^ 31 := by norm_num

theorem float64OfNat_pow1000 (e : Nat) (he : e ≤ 5) :
    float64OfNat ((1000 : Int) ^ (e + 1)).toNat = ((1000 : Int) ^ (e + 1)).toNat := by
  interval_cases e <;> rfl

theorem float64OfNat_pow1024 (e : Nat) (he : e ≤ 5) :
    float64OfNat ((1024 : Int) ^ (e + 1)).toNat = ((1024 : Int) ^ (e + 1)).toNat := by
  interval_cases e <;> rfl

theorem unit_exponent_unique (unit b : Int) (hu : 2 ≤ unit) (e e' : Nat)
    (h1 : unit ^ (e + 1) ≤ b) (h2 : b < unit ^ (e + 2))
    (h1' : unit ^ (e' + 1) ≤ b) (h2' : b < unit ^ (e' + 2)) : e' = e := by
  have hone : (1 : Int) ≤ unit := by omega
  by_contra hne
  rcases Nat.lt_or_gt_of_ne hne with hlt | hgt
  · have : unit ^ (e' + 2) ≤ unit ^ (e + 1) := pow_le_pow_right₀ hone (by omega)
    omega
  · have : unit ^ (e + 2) ≤ unit ^ (e' + 1) := pow_le_pow_right₀ hone (by omega)
    omega

/-- What `ByteCountDecimal` and `ByteCountBinary` return for `b ≥ unit`. -/
theorem byteCount_spec (unit : Int) (letters tail : String) (fuel : Nat) (b : Int)
    (hu1 : 2 ≤ unit) (hu2 : unit ≤ 1024) (hu7 : maxInt64 < unit ^ 7)
    (hlen : letters.toList.length = 6)
    (hyf : ∀ e : Nat, e ≤ 5 →
      float64OfNat (unit ^ (e + 1)).toNat = (unit ^ (e + 1)).toNat)
    (hfuel : 6 ≤ fuel) (hge : unit ≤ b) (hb : b ≤ maxInt64) :
    ∃ (e : Nat) (ch : Char), e ≤ 5 ∧ letters.toList[e]? = some ch ∧
      unit ^ (e + 1) ≤ b ∧ b < unit ^ (e + 2) ∧
      (∀ e' : Nat, unit ^ (e' + 1) ≤ b → b < unit ^ (e' + 2) → e' = e) ∧
      byteCount unit letters tail fuel b =
        .ok (formatQuot b (unit ^ (e + 1)) ++ " " ++ String.singleton ch ++ tail) ∧
      |((quotTenths (float64OfNat b.toNat) (float64OfNat (unit ^ (e + 1)).toNat) : Nat) : ℚ) / 10
          - (b : ℚ) / (unit : ℚ) ^ (e + 1)| ≤ 1 / 20 + 1 / 2 ^ 31 := by
  obtain ⟨e, ch, he, hch, hlo, hhi, _, _, hrun⟩ :=
    byteCount_ge unit letters tail fuel b hu1 hu7 hlen hfuel hge hb
  refine ⟨e, ch, he, hch, hlo, hhi,
    fun e' h1 h2 => unit_exponent_unique unit b hu1 e e' hlo hhi h1 h2, hrun, ?_⟩
  have hupos : 0 < unit := by omega
  have hYpos : 0 < unit ^ (e + 1) := pow_pos hupos _
  have hb0 : 0 ≤ b := by omega
  have hbcast : ((b.toNat : Nat) : ℚ) = (b : ℚ) := by
    have : ((b.toNat : Nat) : Int) = b := Int.toNat_of_nonneg hb0
    exact_mod_cast this
  have hycast : (((unit ^ (e + 1)).toNat : Nat) : ℚ) = (unit : ℚ) ^ (e + 1) := by
    have : (((unit ^ (e + 1)).toNat : Nat) : Int) = unit ^ (e + 1) :=
      Int.toNat_of_nonneg hYpos.le
    exact_mod_cast this
  have hy2 : 2 ≤ (unit ^ (e + 1)).toNat := by
    have : unit ^ 1 ≤ unit ^ (e + 1) := pow_le_pow_right₀ (by omega) (by omega)
    rw [pow_one] at this
    omega
  have hlt : b.toNat < (unit ^ (e + 1)).toNat * 1024 := by
    have h1 : unit ^ (e + 2) = unit ^ (e + 1) * unit := pow_succ _ _
    have h2 : unit ^ (e + 1) * unit ≤ unit ^ (e + 1) * 1024 :=
      mul_le_mul_of_nonneg_left hu2 hYpos.le
    have h3 : b < unit ^ (e + 1) * 1024 := by omega
    have h4 : ((b.toNat : Nat) : Int) < (((unit ^ (e + 1)).toNat * 1024 : Nat) : Int) := by
      push_cast
      rw [Int.toNat_of_nonneg hb0, Int.toNat_of_nonneg hYpos.le]
      exact h3
    exact_mod_cast h4
  have := shown_tenths_abs b.toNat (unit ^ (e + 1)).toNat hy2 hlt (hyf e he)
  rw [hbcast, hycast] at this
  exact this


/-- C17: for an `int64` value `b` (fuel at least 6). Below the base (`b < 1000`,
resp. `b < 1024`, negative values included) the result is the decimal integer
`b` followed by `" B"`. From the base on, the result is the number shown, a blank,
the `e`-th letter of `"kMGTPE"` (resp. `"KMGTPE"`) and `"B"` (resp. `"iB"`), where
`e ≤ 5` is the unique exponent with `base^(e+1) ≤ b < base^(e+2)`; the number
shown is the `%.1f` rendering of the `float64` quotient of `b` by `base^(e+1)`, and
its value lies within `1/20 + 2^-31` of `b / base^(e+1)`.  The four test values
are `"2 B"`, `"2.0 kB"`, `"2.0 KiB"` and `"2.0 EiB"`. -/
theorem byte_count_format (b : Int) (fuel : Nat) (hb : b ≤ maxInt64) (hfuel : 6 ≤ fuel) :
    (b < 1000 → ByteCountDecimal fuel b = .ok (toString b ++ " B")) ∧
    (b < 1024 → ByteCountBinary fuel b = .ok (toString b ++ " B")) ∧
    (1000 ≤ b → ∃ (e : Nat) (ch : Char), e ≤ 5 ∧ "kMGTPE".toList[e]? = some ch ∧
      (1000 : Int) ^ (e + 1) ≤ b ∧ b < (1000 : Int) ^ (e + 2) ∧
      (∀ e' : Nat, (1000 : Int) ^ (e' + 1) ≤ b → b < (1000 : Int) ^ (e' + 2) → e' = e) ∧
      ByteCountDecimal fuel b =
        .ok (formatQuot b ((1000 : Int) ^ (e + 1)) ++ " " ++ String.singleton ch ++ "B") ∧
      |((quotTenths (float64OfNat b.toNat)
            (float64OfNat ((1000 : Int) ^ (e + 1)).toNat) : Nat) : ℚ) / 10
          - (b : ℚ) / (1000 : ℚ) ^ (e + 1)| ≤ 1 / 20 + 1 / 2 ^ 31) ∧
    (1024 ≤ b → ∃ (e : Nat) (ch : Char), e ≤ 5 ∧ "KMGTPE".toList[e]? = some ch ∧
      (1024 : Int) ^ (e + 1) ≤ b ∧ b < (1024 : Int) ^ (e + 2) ∧
      (∀ e' : Nat, (1024 : Int) ^ (e' + 1) ≤ b → b < (1024 : Int) ^ (e' + 2) → e' = e) ∧
      ByteCountBinary fuel b =
        .ok (formatQuot b ((1024 : Int) ^ (e + 1)) ++ " " ++ String.singleton ch ++ "iB") ∧
      |((quotTenths (float64OfNat b.toNat)
            (float64OfNat ((1024 : Int) ^ (e + 1)).toNat) : Nat) : ℚ) / 10
          - (b : ℚ) / (1024 : ℚ) ^ (e + 1)| ≤ 1 / 20 + 1 / 2 ^ 31) ∧
    ByteCountDecimal 6 2 = .ok "2 B" ∧
    ByteCountDecimal 6 2048 = .ok "2.0 kB" ∧
    ByteCountBinary 6 2048 = .ok "2.0 KiB" ∧
    ByteCountBinary 6 (2 * 2 ^ 60) = .ok "2.0 EiB" := by
  refine ⟨?_, ?_, ?_, ?_, rfl, rfl, rfl, rfl⟩
  · intro hlt
    unfold ByteCountDecimal byteCount
    rw [if_pos hlt]
  · intro hlt
    unfold ByteCountBinary byteCount
    rw [if_pos hlt]
  · intro hge
    have h := byteCount_spec 1000 "kMGTPE" "B" fuel b (by decide) (by decide) (by decide) rfl
      float64OfNat_pow1000 hfuel hge hb
    simpa [ByteCountDecimal] using h
  · intro hge
    have h := byteCount_spec 1024 "KMGTPE" "iB" fuel b (by decide) (by decide) (by decide) rfl
      float64OfNat_pow1024 hfuel hge hb
    simpa [ByteCountBinary] using h


/-- C17, at a concrete value: a byte count of 2048 is shown with the first letter
of either unit string and the one-decimal number `2.0`. -/
theorem byte_count_format_witness :
    (2048 : Int) ≤ maxInt64 ∧ 6 ≤ 6 ∧
    (∃ (e : Nat) (ch : Char), e ≤ 5 ∧ "kMGTPE".toList[e]? = some ch ∧
      (1000 : Int) ^ (e + 1) ≤ 2048 ∧ (2048 : Int) < (1000 : Int) ^ (e + 2) ∧
      (∀ e' : Nat, (1000 : Int) ^ (e' + 1) ≤ 2048 → (2048 : Int) < (1000 : Int) ^ (e' + 2) →
        e' = e) ∧
      ByteCountDecimal 6 2048 =
        .ok (formatQuot 2048 ((1000 : Int) ^ (e + 1)) ++ " " ++ String.singleton ch ++ "B") ∧
      |((quotTenths (float64OfNat (2048 : Int).toNat)
            (float64OfNat ((1000 : Int) ^ (e + 1)).toNat) : Nat) : ℚ) / 10
          - ((2048 : Int) : ℚ) / (1000 : ℚ) ^ (e + 1)| ≤ 1 / 20 + 1 / 2 ^ 31) ∧
    ByteCountBinary 6 2048 = .ok "2.0 KiB" :=
  have h := byte_count_format 2048 6 (by decide) (le_refl 6)
  ⟨by decide, le_refl 6, h.2.2.1 (by decide), h.2.2.2.2.2.2.1⟩

/-- C17 as first stated fails at `b = 1049999999999999999`: the exponent is 5 and
the quotient `b / 1000^6` lies strictly below `1.05`, so to one decimal place it is
`1.0`; the code shows `1.1`, because `float64(b)` is `1.05 * 10^18` and the
`float64` nearest to `1.05` lies above it. -/
theorem C17_shown_number_is_not_the_rounded_quotient :
    (1000 : Int) ^ (5 + 1) ≤ 1049999999999999999 ∧
    (1049999999999999999 : Int) < (1000 : Int) ^ (5 + 2) ∧
    float64OfNat 1049999999999999999 = 1050000000000000000 ∧
    quotTenths (float64OfNat 1049999999999999999) (float64OfNat (1000 ^ 6)) = 11 ∧
    ByteCountDecimal 6 1049999999999999999 = .ok "1.1 EB" ∧
    (1049999999999999999 : ℚ) / 1000 ^ 6 < 1 + 1 / 20 ∧
    ¬ (|(11 : ℚ) / 10 - (1049999999999999999 : ℚ) / 1000 ^ 6| ≤ 1 / 20) := by
  refine ⟨by norm_num, by norm_num, rfl, rfl, rfl, by norm_num, ?_⟩
  rw [abs_le]
  norm_num

/-- C18: for every value `b` up to the `int64` maximum, negative ones included,
and fuel at least 6, `ByteCountDecimal` and `ByteCountBinary` return a string and do not
panic.  From the base on, the division `b / base` does not fault, the stepping
loop started as in the code ends with an exponent `e` between 0 and 5 and the
divisor `base^(e+1)`, the index `e` into the six-letter unit string is in bounds,
and the divisor is positive and within the `int64` range. -/
theorem byte_count_never_panics (b : Int) (fuel : Nat) (hhi : b ≤ maxInt64)
    (hfuel : 6 ≤ fuel) :
    (∃ s, ByteCountDecimal fuel b = .ok s) ∧
    (∃ s, ByteCountBinary fuel b = .ok s) ∧
    (1000 ≤ b → ∃ (n : Int) (e : Nat) (ch : Char),
      div64 b 1000 = .ok n ∧
      unitLoop 1000 fuel n (wrap64 1000) 0 = .ok ((1000 : Int) ^ (e + 1), (e : Int)) ∧
      e ≤ 5 ∧ e < "kMGTPE".toList.length ∧ stringIndex "kMGTPE" (e : Int) = .ok ch ∧
      0 < (1000 : Int) ^ (e + 1) ∧ (1000 : Int) ^ (e + 1) ≤ maxInt64) ∧
    (1024 ≤ b → ∃ (n : Int) (e : Nat) (ch : Char),
      div64 b 1024 = .ok n ∧
      unitLoop 1024 fuel n (wrap64 1024) 0 = .ok ((1024 : Int) ^ (e + 1), (e : Int)) ∧
      e ≤ 5 ∧ e < "KMGTPE".toList.length ∧ stringIndex "KMGTPE" (e : Int) = .ok ch ∧
      0 < (1024 : Int) ^ (e + 1) ∧ (1024 : Int) ^ (e + 1) ≤ maxInt64) := by
  have hmax : maxInt64 = 2 ^ 63 - 1 := rfl
  have key : ∀ (unit : Int) (letters tail : String), 2 ≤ unit → unit ≤ 1024 →
      maxInt64 < unit ^ 7 → letters.toList.length = 6 →
      (∃ s, byteCount unit letters tail fuel b = .ok s) ∧
      (unit ≤ b → ∃ (n : Int) (e : Nat) (ch : Char),
        div64 b unit = .ok n ∧
        unitLoop unit fuel n (wrap64 unit) 0 = .ok (unit ^ (e + 1), (e : Int)) ∧
        e ≤ 5 ∧ e < letters.toList.length ∧ stringIndex letters (e : Int) = .ok ch ∧
        0 < unit ^ (e + 1) ∧ unit ^ (e + 1) ≤ maxInt64) := by
    intro unit letters tail hu1 hu2 hu7 hlen
    have hstep : unit ≤ b → ∃ (n : Int) (e : Nat) (ch : Char),
        div64 b unit = .ok n ∧
        unitLoop unit fuel n (wrap64 unit) 0 = .ok (unit ^ (e + 1), (e : Int)) ∧
        e ≤ 5 ∧ e < letters.toList.length ∧ stringIndex letters (e : Int) = .ok ch ∧
        0 < unit ^ (e + 1) ∧ unit ^ (e + 1) ≤ maxInt64 ∧
        byteCount unit letters tail fuel b =
          .ok (formatQuot b (unit ^ (e + 1)) ++ " " ++ String.singleton ch ++ tail) := by
      intro hge
      obtain ⟨e, ch, he, _, hle, _, hrun, hidx, hres⟩ :=
        byteCount_ge unit letters tail fuel b hu1 hu7 hlen hfuel hge hhi
      have hb0 : (0 : Int) ≤ b := by omega
      have hq0 : 0 ≤ b / unit := Int.ediv_nonneg hb0 (by omega)
      have hq1 : b / unit ≤ b := Int.ediv_le_self _ hb0
      have hdiv : div64 b unit = .ok (b / unit) := by
        unfold div64
        rw [if_neg (by omega), tdiv_eq_of_nonneg hb0 (by omega),
          wrap64_of_range (by simp only [minInt64]; omega) (by omega)]
      have hwrap : wrap64 unit = unit :=
        wrap64_of_range (by simp only [minInt64]; omega) (by rw [hmax]; omega)
      refine ⟨b / unit, e, ch, hdiv, by rw [hwrap]; exact hrun, he, by omega, hidx,
        pow_pos (by omega) _, le_trans hle hhi, hres⟩
    constructor
    · by_cases hlt : b < unit
      · exact ⟨_, by unfold byteCount; rw [if_pos hlt]⟩
      · obtain ⟨_, _, _, _, _, _, _, _, _, _, hres⟩ := hstep (by omega)
        exact ⟨_, hres⟩
    · intro hge
      obtain ⟨n, e, ch, h1, h2, h3, h4, h5, h6, h7, _⟩ := hstep hge
      exact ⟨n, e, ch, h1, h2, h3, h4, h5, h6, h7⟩
  have hd := key 1000 "kMGTPE" "B" (by decide) (by decide) (by decide) rfl
  have hb := key 1024 "KMGTPE" "iB" (by decide) (by decide) (by decide) rfl
  exact ⟨hd.1, hb.1, hd.2, hb.2⟩

/-- C18, at the largest `int64` value and at the smallest: both functions return. -/
theorem byte_count_never_panics_witness :
    (maxInt64 ≤ maxInt64 ∧ minInt64 ≤ maxInt64 ∧ 6 ≤ 6) ∧
    ((∃ s, ByteCountDecimal 6 maxInt64 = .ok s) ∧ (∃ s, ByteCountBinary 6 maxInt64 = .ok s)) ∧
    ((∃ s, ByteCountDecimal 6 minInt64 = .ok s) ∧ (∃ s, ByteCountBinary 6 minInt64 = .ok s)) :=
  have h1 := byte_count_never_panics maxInt64 6 (le_refl _) (le_refl 6)
  have h2 := byte_count_never_panics minInt64 6 (by decide) (le_refl 6)
  ⟨⟨le_refl _, by decide, le_refl 6⟩, ⟨h1.1, h1.2.1⟩, ⟨h2.1, h2.2.1⟩⟩

/-- C13: for every reader that `NewConcurrentReader` returns (any list of
`WithChunkSize` options), `Chop` returns as many chunks as the partitioner
built, and position by position `Size()` (read from the bound section reader)
is the size field the partitioner computed, `Offset()` the offset field and
`Index()` the index field.  With one option `cs` and no overflow the chunk at
position `i` has `Size()` equal to `size % cs` when it is the last one and the
remainder is not zero, and to `cs` otherwise, `Offset() = i * cs` and
`Index() = i`.  A chunk built directly over a section of length `n` has
`Size() = n` (in particular for `n = 1024, 512, 0`). -/
theorem size_offset_index_of_chopped (inp : ReaderAt) (size : Int) (ns : List Int)
    (cr : ConcurrentReader) (hs : size ≤ maxInt64) (hns : ∀ n ∈ ns, n ≤ maxInt64)
    (h : NewConcurrentReader inp size (ns.map WithChunkSize) = .ok (some cr, none)) :
    cr.Chop.2.length = cr.Chunks.length ∧
    cr.Chop.2.map Chunk.Size = cr.Chunks.map (fun d => Except.ok d.size) ∧
    cr.Chop.2.map Chunk.Offset = cr.Chunks.map Chunk.offset ∧
    cr.Chop.2.map Chunk.Index = cr.Chunks.map Chunk.index ∧
    (∀ (i : Nat) (d : Chunk), cr.Chunks[i]? = some d →
      ∃ c, cr.Chop.2[i]? = some c ∧ c.Size = .ok d.size ∧ c.Offset = d.offset ∧
        c.Index = d.index) ∧
    (∀ cs : Int, ns = [cs] → 1 ≤ cs → size + cs - 1 ≤ maxInt64 →
      cr.Chop.2.length = ((size + cs - 1) / cs).toNat ∧
      ∀ i : Nat, i < ((size + cs - 1) / cs).toNat →
        ∃ c, cr.Chop.2[i]? = some c ∧
          c.Size = .ok (if i + 1 = ((size + cs - 1) / cs).toNat ∧ size % cs ≠ 0
            then size % cs else cs) ∧
          c.Offset = (i : Int) * cs ∧ c.Index = (i : Int)) ∧
    (∀ (src : ReaderAt) (off n idx : Int), 0 ≤ off → 0 ≤ n → off + n ≤ maxInt64 →
      Chunk.Size { offset := off, size := n, sr := some (NewSectionReader src off n),
                   index := idx } = .ok n) ∧
    Chunk.Size { offset := 0, size := 1024,
                 sr := some (NewSectionReader (bytesReader sample64) 0 1024), index := 0 }
      = .ok 1024 ∧
    Chunk.Size { offset := 0, size := 512,
                 sr := some (NewSectionReader (bytesReader sample64) 0 512), index := 0 }
      = .ok 512 ∧
    Chunk.Size { offset := 0, size := 0,
                 sr := some (NewSectionReader (bytesReader sample64) 0 0), index := 0 }
      = .ok 0 := by
  have hmax : maxInt64 = 2 ^ 63 - 1 := rfl
  obtain ⟨hr, h0, hcs, hch⟩ := NewConcurrentReader_ok_chunks inp size ns cr hs hns h
  have hsize : ∀ d ∈ cr.Chunks,
      Chunk.Size { d with sr := some (NewSectionReader cr.r d.offset d.size) } = .ok d.size := by
    intro d hd
    obtain ⟨_, hd0, hd1, hd2⟩ := hch d hd
    exact Chunk.Size_bound d cr.r hd0 (by omega) (by omega)
  have hpos : ∀ (i : Nat) (d : Chunk), cr.Chunks[i]? = some d →
      ∃ c, cr.Chop.2[i]? = some c ∧ c.Size = .ok d.size ∧ c.Offset = d.offset ∧
        c.Index = d.index := by
    intro i d hd
    refine ⟨{ d with sr := some (NewSectionReader cr.r d.offset d.size) }, ?_,
      hsize d (List.getElem?_mem hd), rfl, rfl⟩
    simp only [ConcurrentReader.Chop, List.getElem?_map, hd, Option.map_some']
  refine ⟨?_, ?_, ?_, ?_, hpos, ?_, ?_, rfl, rfl, rfl⟩
  · simp only [ConcurrentReader.Chop, List.length_map]
  · simp only [ConcurrentReader.Chop, List.map_map]
    apply List.map_congr_left
    intro d hd
    exact hsize d hd
  · simp only [ConcurrentReader.Chop, List.map_map]
    apply List.map_congr_left
    intro d _
    rfl
  · simp only [ConcurrentReader.Chop, List.map_map]
    apply List.map_congr_left
    intro d _
    rfl
  · intro cs hns1 hcs1 hov
    subst hns1
    have hcs2 : cs ≤ maxInt64 := hns cs (by simp)
    have hone : NewConcurrentReader inp size [WithChunkSize cs] = .ok (some cr, none) := h
    have hal : (size + cs - 1) / cs * sizeofChunk ≤ maxAlloc := by
      by_contra hbig
      rw [NewConcurrentReader_makeslice inp size cs h0 hcs1 hcs2 hov (not_le.mp hbig)] at hone
      cases hone
    rw [NewConcurrentReader_closed inp size cs h0 hcs1 hcs2 hov hal] at hone
    simp only [Except.ok.injEq, Prod.mk.injEq, Option.some.injEq, and_true] at hone
    subst hone
    refine ⟨?_, ?_⟩
    · simp only [ConcurrentReader.Chop, List.length_map, closedChunks_length]
    · intro i hi
      obtain ⟨c, hc, hsz, hof, hix⟩ := hpos i _ (closedChunks_getElem? size cs i hi)
      exact ⟨c, hc, hsz, hof, hix⟩
  · intro src off n idx h0 hn hfit
    exact Chunk.Size_bound { offset := off, size := n, sr := none, index := idx } src h0 hn hfit

/-- Instance of `size_offset_index_of_chopped`: size 10, chunk size 4.  `Chop`
returns three chunks with `Size()` 4, 4 and 2 (the remainder), offsets 0, 4, 8
and indices 0, 1, 2. -/
theorem size_offset_index_of_chopped_witness :
    NewConcurrentReader (bytesReader []) 10 ([4].map WithChunkSize) =
      .ok (some { r := bytesReader [], cs := 4, Chunks := closedChunks 10 4 }, none) ∧
    (ConcurrentReader.Chop { r := bytesReader [], cs := 4, Chunks := closedChunks 10 4 }).2.length
      = 3 ∧
    (ConcurrentReader.Chop { r := bytesReader [], cs := 4, Chunks := closedChunks 10 4 }).2.map
      Chunk.Size = [.ok 4, .ok 4, .ok 2] ∧
    (ConcurrentReader.Chop { r := bytesReader [], cs := 4, Chunks := closedChunks 10 4 }).2.map
      Chunk.Offset = [0, 4, 8] ∧
    (ConcurrentReader.Chop { r := bytesReader [], cs := 4, Chunks := closedChunks 10 4 }).2.map
      Chunk.Index = [0, 1, 2] :=
  have h := size_offset_index_of_chopped (bytesReader []) 10 [4]
    { r := bytesReader [], cs := 4, Chunks := closedChunks 10 4 } (by decide) (by decide) rfl
  ⟨rfl, h.1.trans rfl, h.2.1.trans rfl, h.2.2.1.trans rfl, h.2.2.2.1.trans rfl⟩

/-- C14 as first stated fails for a chunk whose range reaches beyond the source.
`NewConcurrentReader` over a `bytes.Reader` of four bytes, called with `size = 6`
and chunk size 6, yields one chunk `[0, 6)`; a first `Read` with a buffer of four
bytes returns `1, 2, 3, 4` and leaves the cursor at `k = 4`.  There the range is
not exhausted (`k < size`), yet `Read` returns no byte together with
end-of-file. -/
theorem C14_eof_before_the_range_is_exhausted :
    (∃ cr c0, NewConcurrentReader (bytesReader [1, 2, 3, 4]) 6 [WithChunkSize 6] =
        .ok (some cr, none) ∧ cr.Chop.2 = [c0] ∧
      c0.Read 4 = .ok (chunkBeyondSource, [1, 2, 3, 4], none)) ∧
    chunkBeyondSource.sr =
      some { NewSectionReader (bytesReader [1, 2, 3, 4]) chunkBeyondSource.offset
        chunkBeyondSource.size with off := chunkBeyondSource.offset + 4 } ∧
    (4 : Int) < chunkBeyondSource.size ∧
    (chunkBeyondSource.Read 8).map (fun t => (t.2.1, t.2.2)) = .ok ([], some Error.EOF) ∧
    ¬ (((([] : List Byte) = [] ∧ some Error.EOF = some Error.EOF)) ↔
        chunkBeyondSource.size ≤ 4) := by
  refine ⟨⟨_, _, rfl, rfl, rfl⟩, rfl, by decide, rfl, ?_⟩
  intro h
  exact absurd (h.mp ⟨rfl, rfl⟩) (by decide)

/-- C14 (amended): a chunk bound to `[offset, offset + size)`, with `0 ≤ offset`
and `offset + size ≤ 2^63 - 1`, of a source that stores at most `len(p)` bytes
per call, with its cursor at position `k`, `0 ≤ k ≤ size`.  A call `Read(p)`
returns normally; when `k < size` its results
are those of one `ReadAt` on the source, for `min(len(p), size - k)` bytes at
`offset + k`, a request that lies inside `[offset + k, offset + size)`; it
returns at most `min(len(p), size - k)` bytes; the cursor advances by the number
of bytes returned and stays within the range; and when `k ≥ size` it returns no
byte together with end-of-file.  For a source serving `B` the bytes returned are
the bytes of `B` from `offset + k` on, and when the range lies inside `B` it
returns no byte together with end-of-file exactly when `k ≥ size`. -/
theorem read_confined (src : ReaderAt) (c : Chunk) (k : Int) (plen : Nat)
    (hoff : 0 ≤ c.offset) (hk0 : 0 ≤ k) (hk1 : k ≤ c.size)
    (hfit : c.offset + c.size ≤ maxInt64)
    (hstore : ∀ (n : Nat) (off : Int), 0 ≤ off → (src.ReadAt n off).1.length ≤ n)
    (hsr : c.sr = some { NewSectionReader src c.offset c.size with off := c.offset + k }) :
    ∃ bs er,
      c.Read plen = .ok ({ c with sr := some { NewSectionReader src c.offset c.size with
        off := c.offset + k + bs.length } }, bs, er) ∧
      (k < c.size → (bs, er) = src.ReadAt (min plen (c.size - k).toNat) (c.offset + k)) ∧
      c.offset + k + ((min plen (c.size - k).toNat : Nat) : Int) ≤ c.offset + c.size ∧
      bs.length ≤ min plen (c.size - k).toNat ∧
      k + bs.length ≤ c.size ∧
      (c.size ≤ k → bs = [] ∧ er = some Error.EOF) ∧
      (∀ B : List Byte, Serves src B →
        bs = (B.drop (c.offset + k).toNat).take bs.length ∧
        (c.offset + c.size ≤ (B.length : Int) →
          ((bs = [] ∧ er = some Error.EOF) ↔ c.size ≤ k))) := by
  have hmax : maxInt64 = 2 ^ 63 - 1 := rfl
  have hmin : minInt64 = -(2 ^ 63) := rfl
  have hsize : 0 ≤ c.size := by omega
  have heq := NewSectionReader_eq src c.offset c.size hoff hsize hfit
  unfold Chunk.Read SectionReader.Read
  simp only [hsr, heq]
  by_cases hge : c.size ≤ k
  · have hk : k = c.size := by omega
    rw [if_pos (by omega)]
    refine ⟨[], some Error.EOF, by simp, fun h => absurd h (by omega), by omega, by simp,
      by simp; omega, fun _ => ⟨rfl, rfl⟩, ?_⟩
    intro B _
    refine ⟨by simp, fun _ => ?_⟩
    simp [hge]
  · rw [if_neg (by omega)]
    have hsub : sub64 (c.offset + c.size) (c.offset + k) = c.size - k := by
      unfold sub64
      rw [show c.offset + c.size - (c.offset + k) = c.size - k by omega]
      exact wrap64_of_range (by omega) (by omega)
    simp only [hsub]
    -- the single request made to the source
    have key : ∀ m : Nat, m = min plen (c.size - k).toNat →
        ∃ bs er, (Except.ok
            ({ c with sr := some { r := src, base := c.offset,
                                   off := add64 (c.offset + k)
                                     (src.ReadAt m (c.offset + k)).1.length,
                                   limit := c.offset + c.size, n := c.size } },
              (src.ReadAt m (c.offset + k)).1, (src.ReadAt m (c.offset + k)).2) :
              Except Fault (Chunk × List Byte × Option Error)) =
          .ok ({ c with sr := some { r := src, base := c.offset,
                                     off := c.offset + k + bs.length,
                                     limit := c.offset + c.size, n := c.size } }, bs, er) ∧
          (k < c.size → (bs, er) = src.ReadAt (min plen (c.size - k).toNat) (c.offset + k)) ∧
          c.offset + k + ((min plen (c.size - k).toNat : Nat) : Int) ≤ c.offset + c.size ∧
          bs.length ≤ min plen (c.size - k).toNat ∧
          k + bs.length ≤ c.size ∧
          (c.size ≤ k → bs = [] ∧ er = some Error.EOF) ∧
          (∀ B : List Byte, Serves src B →
            bs = (B.drop (c.offset + k).toNat).take bs.length ∧
            (c.offset + c.size ≤ (B.length : Int) →
              ((bs = [] ∧ er = some Error.EOF) ↔ c.size ≤ k))) := by
      intro m hm
      have hle := hstore m (c.offset + k) (by omega)
      have hadd : add64 (c.offset + k) (src.ReadAt m (c.offset + k)).1.length
          = c.offset + k + (src.ReadAt m (c.offset + k)).1.length :=
        wrap64_of_range (by omega) (by omega)
      refine ⟨(src.ReadAt m (c.offset + k)).1, (src.ReadAt m (c.offset + k)).2, by rw [hadd],
        fun _ => by rw [← hm], by omega, by omega, by omega, fun h => absurd h hge, ?_⟩
      intro B hS
      obtain ⟨hbytes, hshort, hfull⟩ := hS m (c.offset + k) (by omega)
      have hdl : (B.drop (c.offset + k).toNat).length = B.length - (c.offset + k).toNat :=
        List.length_drop _ _
      refine ⟨?_, fun hin => ?_⟩
      · have hlen : (src.ReadAt m (c.offset + k)).1.length
            = min m (B.drop (c.offset + k).toNat).length := by
          rw [hbytes, List.length_take]
        rw [hlen]
        by_cases hmd : m ≤ (B.drop (c.offset + k).toNat).length
        · rw [Nat.min_eq_left hmd]; exact hbytes
        · rw [Nat.min_eq_right (by omega), hbytes,
            List.take_of_length_le (by omega), List.take_of_length_le (le_refl _)]
      · have hlenm : (src.ReadAt m (c.offset + k)).1.length = m := by
          rw [hbytes, List.length_take, hdl]
          omega
        constructor
        · rintro ⟨hnil, heof⟩
          exfalso
          rcases hfull hlenm with hnone | ⟨_, hend⟩
          · rw [hnone] at heof; cases heof
          · rw [hnil] at hlenm
            simp only [List.length_nil] at hlenm
            omega
        · intro h; exact absurd h hge
    by_cases hgt : (plen : Int) > c.size - k
    · rw [if_pos hgt, if_neg (by omega)]
      exact key (c.size - k).toNat (by omega)
    · rw [if_neg hgt]
      exact key plen (by omega)

/-- Instance of `read_confined`: the chunk over `1, 2, 3, 4` with the cursor
after two bytes and a buffer of eight bytes; the bytes `3, 4` are returned. -/
theorem read_confined_witness :
    (Chunk.Read { chunk1234 with sr := some section1234At2 } 8).map (fun t => (t.2.1, t.2.2))
      = .ok ([3, 4], none) ∧
    ∃ bs er,
      Chunk.Read { chunk1234 with sr := some section1234At2 } 8 =
        .ok ({ { chunk1234 with sr := some section1234At2 } with
          sr := some { NewSectionReader (bytesReader [1, 2, 3, 4]) 0 4 with
            off := 0 + 2 + bs.length } }, bs, er) ∧
      (bs, er) = (bytesReader [1, 2, 3, 4]).ReadAt (min 8 ((4 : Int) - 2).toNat) (0 + 2) ∧
      bs.length ≤ min 8 ((4 : Int) - 2).toNat ∧
      (2 : Int) + bs.length ≤ 4 ∧
      bs = (([1, 2, 3, 4] : List Byte).drop ((0 : Int) + 2).toNat).take bs.length ∧
      ((bs = [] ∧ er = some Error.EOF) ↔ (4 : Int) ≤ 2) :=
  ⟨rfl,
    let ⟨bs, er, h1, h2, _, h4, h5, _, h7⟩ :=
      read_confined (bytesReader [1, 2, 3, 4]) { chunk1234 with sr := some section1234At2 } 2 8
        (by decide) (by decide) (by decide) (by decide)
        (fun n off h => by
          rw [((bytesReader_serves [1, 2, 3, 4]) n off h).1, List.length_take]
          exact Nat.min_le_left _ _)
        rfl
    ⟨bs, er, h1, h2 (by decide), h4, h5,
      (h7 [1, 2, 3, 4] (bytesReader_serves [1, 2, 3, 4])).1,
      (h7 [1, 2, 3, 4] (bytesReader_serves [1, 2, 3, 4])).2 (by decide)⟩⟩

/-- A call of `Read` changes nothing of a section reader but its cursor. -/
theorem SectionReader.Read_frame (s s1 : SectionReader) (plen : Nat) (bs : List Byte)
    (er : Option Error) (h : s.Read plen = .ok (s1, bs, er)) :
    s1 = { s with off := s1.off } := by
  unfold SectionReader.Read at h
  by_cases hge : s.off ≥ s.limit
  · rw [if_pos hge] at h
    simp only [Except.ok.injEq, Prod.mk.injEq] at h
    obtain ⟨h1, _, _⟩ := h
    subst h1
    rfl
  · rw [if_neg hge] at h
    simp only at h
    by_cases hgt : (plen : Int) > sub64 s.limit s.off
    · rw [if_pos hgt] at h
      by_cases hneg : sub64 s.limit s.off < 0
      · rw [if_pos hneg] at h
        cases h
      · rw [if_neg hneg] at h
        simp only [Except.ok.injEq, Prod.mk.injEq] at h
        obtain ⟨h1, _, _⟩ := h
        subst h1
        rfl
    · rw [if_neg hgt] at h
      simp only [Except.ok.injEq, Prod.mk.injEq] at h
      obtain ⟨h1, _, _⟩ := h
      subst h1
      rfl

/-- The copy loop changes nothing of the section reader but its cursor. -/
theorem ioCopy_frame {σ : Type} (write : σ → List Byte → σ) :
    ∀ (fuel : Nat) (dst : σ) (s : SectionReader) (written : Int)
      (res : σ × SectionReader × Int × Option Error),
      ioCopy write fuel dst s written = .ok res → res.2.1 = { s with off := res.2.1.off } := by
  intro fuel
  induction fuel with
  | zero => intro dst s written res h; cases h
  | succ fuel ih =>
    intro dst s written res h
    unfold ioCopy at h
    cases hr : s.Read (32 * 1024) with
    | error f => rw [hr] at h; cases h
    | ok t =>
      obtain ⟨s1, bs, er⟩ := t
      rw [hr] at h
      have hf := SectionReader.Read_frame s s1 _ bs er hr
      cases er with
      | some e =>
        simp only [Except.ok.injEq] at h
        subst h
        exact hf
      | none =>
        simp only at h
        have := ih _ s1 _ res h
        rw [this, hf]

/-- The loop of `ReadFrom` changes nothing of the section reader but its cursor. -/
theorem bufferReadFrom_frame (room : Nat → Nat) :
    ∀ (fuel : Nat) (buf : List Byte) (s : SectionReader)
      (res : List Byte × SectionReader × Option Error),
      bufferReadFrom room fuel buf s = .ok res → res.2.1 = { s with off := res.2.1.off } := by
  intro fuel
  induction fuel with
  | zero => intro buf s res h; cases h
  | succ fuel ih =>
    intro buf s res h
    unfold bufferReadFrom at h
    cases hr : s.Read (room buf.length) with
    | error f => rw [hr] at h; cases h
    | ok t =>
      obtain ⟨s1, bs, er⟩ := t
      rw [hr] at h
      have hf := SectionReader.Read_frame s s1 _ bs er hr
      cases er with
      | some e =>
        simp only [Except.ok.injEq] at h
        subst h
        exact hf
      | none =>
        simp only at h
        have := ih _ s1 res h
        rw [this, hf]

/-- `Seek(0, 0)` puts the cursor at the base, wherever it was. -/
theorem SectionReader.Seek_zero (s : SectionReader)
    (h1 : minInt64 ≤ s.base) (h2 : s.base ≤ maxInt64) :
    (s.Seek 0 0).1 = { s with off := s.base } := by
  have hb : add64 0 s.base = s.base := by
    unfold add64
    rw [zero_add]
    exact wrap64_of_range h1 h2
  unfold SectionReader.Seek
  simp [hb]

/-- Whenever `Hash` returns, on any source, the chunk it leaves behind is the
chunk it was given with the cursor at the start of the range. -/
theorem Chunk.Hash_rewinds (c : Chunk) (s : SectionReader) (H : HashAlg) (h0 : H.State)
    (fuel : Nat) (res : Chunk × H.State × List Byte) (hsr : c.sr = some s)
    (h1 : minInt64 ≤ s.base) (h2 : s.base ≤ maxInt64) (h : c.Hash H h0 fuel = .ok res) :
    res.1 = { c with sr := some { s with off := s.base } } := by
  unfold Chunk.Hash at h
  simp only [hsr] at h
  cases hrun : ioCopy H.Write fuel (H.Reset h0) s 0 with
  | error f => rw [hrun] at h; cases h
  | ok t =>
    rw [hrun] at h
    simp only [Except.ok.injEq] at h
    subst h
    have hf := ioCopy_frame H.Write fuel _ s 0 t hrun
    simp only
    rw [hf, SectionReader.Seek_zero { s with off := t.2.1.off } h1 h2]

/-- Whenever `Data` returns, on any source, the chunk it leaves behind is the
chunk it was given with the cursor at the start of the range. -/
theorem Chunk.Data_rewinds (c : Chunk) (s : SectionReader) (room : Nat → Nat)
    (fuel : Nat) (res : Chunk × List Byte) (hsr : c.sr = some s)
    (h1 : minInt64 ≤ s.base) (h2 : s.base ≤ maxInt64) (h : c.Data room fuel = .ok res) :
    res.1 = { c with sr := some { s with off := s.base } } := by
  unfold Chunk.Data at h
  simp only [hsr] at h
  cases hrun : bufferReadFrom room fuel [] s with
  | error f => rw [hrun] at h; cases h
  | ok t =>
    rw [hrun] at h
    simp only [Except.ok.injEq] at h
    subst h
    have hf := bufferReadFrom_frame room fuel [] s t hrun
    simp only
    rw [hf, SectionReader.Seek_zero { s with off := t.2.1.off } h1 h2]

/-- With its errors read as end-of-file, the torn source serves the bytes
`1, 2`. -/
theorem tornReader_quiet_serves : Serves (eofOnError tornReader) [1, 2] := by
  intro n off hoff
  obtain ⟨hb, hshort, hfull⟩ := bytesReader_serves [1, 2] n off hoff
  have hlen : ((bytesReader [1, 2]).ReadAt n off).1.length ≤ n := by
    rw [hb, List.length_take]
    exact Nat.min_le_left _ _
  have hres : ((bytesReader [1, 2]).ReadAt n off).2 = none ∨
      ((bytesReader [1, 2]).ReadAt n off).2 = some Error.EOF := by
    rcases Nat.lt_or_ge ((bytesReader [1, 2]).ReadAt n off).1.length n with hlt | hge
    · exact Or.inr (hshort hlt)
    · rcases hfull (by omega) with hn | ⟨he, _⟩
      · exact Or.inl hn
      · exact Or.inr he
  have hsame : ((eofOnError tornReader).ReadAt n off) = (bytesReader [1, 2]).ReadAt n off := by
    show ((((bytesReader [1, 2]).ReadAt n off).1,
      ((((bytesReader [1, 2]).ReadAt n off).2.map fun _ =>
        Error.other "input/output error").map fun _ => Error.EOF)) :
          List Byte × Option Error) = (bytesReader [1, 2]).ReadAt n off
    rcases hres with h | h
    · rw [Prod.ext_iff]; simp [h]
    · rw [Prod.ext_iff]; simp [h]
  rw [hsame]
  exact ⟨hb, hshort, hfull⟩

/-- C11 (amended): `Chunk.Read` on a bound chunk whose range is not exhausted
(section reader with `0 ≤ base ≤ cursor < limit ≤ 2^63 - 1`) returns the bytes
and the error of one `ReadAt` of the source, unchanged.  `Hash`
and `Data` have no error result and an error of the source ends their copy as
end-of-file does.  For a source that, with its errors read as end-of-file, serves
the bytes `B`, `Hash` returns (given a lawful hash and fuel above what is left of
the range) the digest of the bytes of `B` from the cursor to the end of the range
and `Data` returns those bytes, both leaving the cursor at the start of the range
and neither giving any sign of the error.  On every source, whenever `Hash` or
`Data` returns the cursor is at the start of the range, and the outcome is the
outcome over the source in which every error is replaced by end-of-file. -/
theorem read_reports_hash_data_do_not (c : Chunk) (s : SectionReader) (B : List Byte)
    (plen : Nat) (H : HashAlg) (h0 : H.State) (room : Nat → Nat) (fuel : Nat)
    (hsr : c.sr = some s) (hw : s.Wf) (hlt : s.off < s.limit)
    (hq : Serves (eofOnError s.r) B) (hH : Lawful H) (hroom : ∀ k, 1 ≤ room k)
    (hfuel : (s.limit - s.off).toNat < fuel) :
    (∃ c1, c.Read plen = .ok (c1,
      (s.r.ReadAt (min plen (s.limit - s.off).toNat) s.off).1,
      (s.r.ReadAt (min plen (s.limit - s.off).toNat) s.off).2)) ∧
    (∃ h1, c.Hash H h0 fuel =
      .ok ({ c with sr := some { s with off := s.base } }, h1,
        H.Sum (H.Write H.New (s.rest B)) [])) ∧
    c.Data room fuel = .ok ({ c with sr := some { s with off := s.base } }, s.rest B) ∧
    (∀ (d : Chunk) (t : SectionReader) (G : HashAlg) (g0 : G.State) (n : Nat)
      (res : Chunk × G.State × List Byte), d.sr = some t → minInt64 ≤ t.base →
      t.base ≤ maxInt64 → d.Hash G g0 n = .ok res →
      res.1 = { d with sr := some { t with off := t.base } }) ∧
    (∀ (d : Chunk) (t : SectionReader) (rm : Nat → Nat) (n : Nat) (res : Chunk × List Byte),
      d.sr = some t → minInt64 ≤ t.base → t.base ≤ maxInt64 → d.Data rm n = .ok res →
      res.1 = { d with sr := some { t with off := t.base } }) ∧
    (∀ (d : Chunk) (G : HashAlg) (g0 : G.State) (n : Nat),
      d.quiet.Hash G g0 n = (d.Hash G g0 n).map fun t => (t.1.quiet, t.2.1, t.2.2)) ∧
    (∀ (d : Chunk) (rm : Nat → Nat) (n : Nat),
      d.quiet.Data rm n = (d.Data rm n).map fun t => (t.1.quiet, t.2)) := by
  have hmax : maxInt64 = 2 ^ 63 - 1 := rfl
  have hmin : minInt64 = -(2 ^ 63) := rfl
  have hb1 : minInt64 ≤ s.base := by have := hw.1; omega
  have hb2 : s.base ≤ maxInt64 := by
    obtain ⟨_, h1, h2, h3⟩ := hw
    omega
  have hsrq : c.quiet.sr = some s.quiet := by
    simp only [Chunk.quiet, hsr, Option.map_some']
  have hwq : s.quiet.Wf := hw
  refine ⟨?_, ?_, ?_,
    fun d t G g0 n res hd h1 h2 h => Chunk.Hash_rewinds d t G g0 n res hd h1 h2 h,
    fun d t rm n res hd h1 h2 h => Chunk.Data_rewinds d t rm n res hd h1 h2 h,
    Chunk.Hash_quiet, Chunk.Data_quiet⟩
  · obtain ⟨h0, h1, h2, h3⟩ := hw
    have hsub : sub64 s.limit s.off = s.limit - s.off := wrap64_of_range (by omega) (by omega)
    unfold Chunk.Read SectionReader.Read
    simp only [hsr, if_neg (not_le.mpr hlt), hsub]
    by_cases hgt : (plen : Int) > s.limit - s.off
    · rw [if_pos hgt, if_neg (by omega), show min plen (s.limit - s.off).toNat
        = (s.limit - s.off).toNat by omega]
      exact ⟨_, rfl⟩
    · rw [if_neg hgt, show min plen (s.limit - s.off).toNat = plen by omega]
      exact ⟨_, rfl⟩
  · obtain ⟨h1, hrun⟩ := Chunk.Hash_serves c.quiet s.quiet B H h0 fuel hsrq hq hwq hH hfuel
    have hqe := Chunk.Hash_quiet c H h0 fuel
    rw [hrun] at hqe
    cases hres : c.Hash H h0 fuel with
    | error f => rw [hres] at hqe; cases hqe
    | ok t =>
      rw [hres] at hqe
      simp only [Except.map, Except.ok.injEq, Prod.mk.injEq] at hqe
      obtain ⟨_, hstate, hdig⟩ := hqe
      have hrew := Chunk.Hash_rewinds c s H h0 fuel t hsr hb1 hb2 hres
      refine ⟨t.2.1, ?_⟩
      rw [← hrew]
      have hd : H.Sum (H.Write H.New (s.rest B)) [] = t.2.2 := hdig
      rw [hd]
  · have hrun := Chunk.Data_serves c.quiet s.quiet B room fuel hsrq hq hwq hroom hfuel
    have hqe := Chunk.Data_quiet c room fuel
    rw [hrun] at hqe
    cases hres : c.Data room fuel with
    | error f => rw [hres] at hqe; cases hqe
    | ok t =>
      rw [hres] at hqe
      simp only [Except.map, Except.ok.injEq, Prod.mk.injEq] at hqe
      obtain ⟨_, hbytes⟩ := hqe
      have hrew := Chunk.Data_rewinds c s room fuel t hsr hb1 hb2 hres
      rw [← hrew]
      have hd : s.rest B = t.2 := hbytes
      rw [hd]

/-- Instance of `read_reports_hash_data_do_not`: the chunk `[0, 4)` over the torn
source.  `Read` returns the bytes `1, 2` with the I/O error; `Hash` returns the
digest of `1, 2` and `Data` the bytes `1, 2`, as over a `bytes.Reader` holding
just those bytes, and both leave the chunk with its cursor at the start. -/
theorem read_reports_hash_data_do_not_witness :
    (tornChunk.Read 4).map (fun t => (t.2.1, t.2.2)) =
      .ok ([1, 2], some (Error.other "input/output error")) ∧
    (∃ h1, tornChunk.Hash fnv32a (fnv32a.Write fnv32a.New [9]) 5 =
      .ok (tornChunk, h1, fnv32a.Sum (fnv32a.Write fnv32a.New [1, 2]) [])) ∧
    tornChunk.Data (fun _ => 512) 5 = .ok (tornChunk, [1, 2]) :=
  have h := read_reports_hash_data_do_not tornChunk (NewSectionReader tornReader 0 4) [1, 2] 4
    fnv32a (fnv32a.Write fnv32a.New [9]) (fun _ => 512) 5 rfl
    ⟨by decide, by decide, by decide, by decide⟩ (by decide) tornReader_quiet_serves
    fnv32a_lawful (fun _ => Nat.le_of_ble_eq_true rfl) (by decide)
  ⟨rfl, h.2.1, h.2.2.1⟩

end Creader
